import Mathlib

/-!
FabGL `LightMemoryPool` and `isqrt` (src/fabutils.cpp)

A shallow embedding of the block-pool allocator of `fabutils.cpp` and a verification of its
layout, accounting and allocation properties, followed by the integer square root `isqrt`.

Modelling conventions.

* The buffer `uint8_t * m_mem` is a map from byte offsets to stored values; a read of
  `m_mem[i]` is `byteAt p i`, the stored value reduced modulo `2^8`.
* `int` positions and sizes that the code keeps non-negative are `Nat`; the `int16_t`
  argument of `mark` is an `Int`, and an `int` passed for it goes through `toInt16`.
* The bit operations are written arithmetically: `x & 0xff` is `x % 256`, `x >> 8` is
  `x / 256` (floor), `x & 0x7f` is `x % 128`, `x << 8` is `x * 256`, and an `|` of two
  values with disjoint bits is their sum.
* A pointer `m_mem + k` is the offset `k`; `nullptr` is `none`.
* Every loop is run with a fuel counter and yields `none` when the counter runs out; the
  theorems show that on the pools they speak about the answer is always `some _`.
-/

/-- The pool object: the byte buffer `m_mem` and its length `m_poolSize`. -/
structure LightMemoryPool where
  m_mem : Nat → Nat
  m_poolSize : Nat

/-- A read of the `uint8_t` stored at offset `i`. -/
def LightMemoryPool.byteAt (p : LightMemoryPool) (i : Nat) : Nat :=
  p.m_mem i % 256

/-- The assignment `m_mem[i] = v` (the value is truncated to `uint8_t`). -/
def LightMemoryPool.store (p : LightMemoryPool) (i v : Nat) : LightMemoryPool :=
  { p with m_mem := fun j => if j = i then v % 256 else p.m_mem j }

/-- Conversion of an `int` to `int16_t` (wrap-around modulo `2^16`). -/
def toInt16 (x : Int) : Int :=
  (x + 32768) % 65536 - 32768

/-- Method `LightMemoryPool::mark`:
`m_mem[pos] = size & 0xff; m_mem[pos + 1] = ((size >> 8) & 0x7f) | (allocated ? 0x80 : 0);` -/
def LightMemoryPool.mark (p : LightMemoryPool) (pos : Nat) (size : Int) (allocated : Bool) :
    LightMemoryPool :=
  (p.store pos (size % 256).toNat).store (pos + 1)
    (((size / 256) % 128).toNat + (if allocated then 128 else 0))

/-- Method `LightMemoryPool::getSize`: `m_mem[pos] | ((m_mem[pos + 1] & 0x7f) << 8)`. -/
def LightMemoryPool.getSize (p : LightMemoryPool) (pos : Nat) : Nat :=
  p.byteAt pos + (p.byteAt (pos + 1) % 128) * 256

/-- Method `LightMemoryPool::isFree`: `(m_mem[pos + 1] & 0x80) == 0`, bit 7 of the second byte. -/
def LightMemoryPool.isFree (p : LightMemoryPool) (pos : Nat) : Bool :=
  decide (p.byteAt (pos + 1) / 128 % 2 = 0)

/-- The constructor `LightMemoryPool::LightMemoryPool(int poolSize)`; `raw` is the content of
the buffer handed out by `malloc`, which is not initialised. -/
def LightMemoryPool.new (raw : Nat → Nat) (poolSize : Nat) : LightMemoryPool :=
  let m_poolSize := poolSize + 2
  LightMemoryPool.mark { m_mem := raw, m_poolSize := m_poolSize } 0
    (toInt16 ((m_poolSize : Int) - 2)) false

/-- The `for` loop of `LightMemoryPool::alloc`, from scan position `pos`. The result is the
returned pointer (as an offset, `none` for `nullptr`) together with the pool afterwards. -/
def LightMemoryPool.allocLoop (size : Nat) :
    Nat → LightMemoryPool → Nat → Option (Option Nat × LightMemoryPool)
  | 0, _, _ => none
  | fuel + 1, p, pos =>
    if pos < p.m_poolSize then
      let blockSize := p.getSize pos
      if p.isFree pos then
        if blockSize = size then
          some (some (pos + 2), p.mark pos (toInt16 size) true)
        else if blockSize > size then
          let remainingSize : Int := (blockSize : Int) - (size : Int) - 2
          if remainingSize > 0 then
            some (some (pos + 2),
              (p.mark (pos + 2 + size) (toInt16 remainingSize) false).mark pos (toInt16 size) true)
          else
            some (some (pos + 2), p.mark pos (toInt16 blockSize) true)
        else
          let nextBlockPos := pos + 2 + blockSize
          if nextBlockPos < p.m_poolSize && p.isFree nextBlockPos then
            LightMemoryPool.allocLoop size fuel
              (p.mark pos (toInt16 ((blockSize : Int) + (p.getSize nextBlockPos : Int) + 2)) false)
              pos
          else
            LightMemoryPool.allocLoop size fuel p (pos + (blockSize + 2))
      else
        LightMemoryPool.allocLoop size fuel p (pos + (blockSize + 2))
    else
      some (none, p)

/-- Method `LightMemoryPool::alloc(int size)` for a non-negative `size`; the fuel
`m_poolSize + 1` covers every scan of a well-formed pool (each iteration returns, merges two
blocks or advances by one block). -/
def LightMemoryPool.alloc (p : LightMemoryPool) (size : Nat) :
    Option (Option Nat × LightMemoryPool) :=
  LightMemoryPool.allocLoop size (p.m_poolSize + 1) p 0

/-- The `while` loop of `LightMemoryPool::memCheck`; yields the final value of `pos`. -/
def LightMemoryPool.memCheckLoop (p : LightMemoryPool) : Nat → Nat → Option Nat
  | 0, _ => none
  | fuel + 1, pos =>
    if pos < p.m_poolSize then
      LightMemoryPool.memCheckLoop p fuel (pos + (p.getSize pos + 2))
    else
      some pos

/-- Method `LightMemoryPool::memCheck`. -/
def LightMemoryPool.memCheck (p : LightMemoryPool) : Option Bool :=
  (p.memCheckLoop (p.m_poolSize + 1) 0).map (fun pos => decide (pos = p.m_poolSize))

/-- The loop of `LightMemoryPool::totFree`, with accumulator `r`. -/
def LightMemoryPool.totFreeLoop (p : LightMemoryPool) : Nat → Nat → Nat → Option Nat
  | 0, _, _ => none
  | fuel + 1, pos, r =>
    if pos < p.m_poolSize then
      let blockSize := p.getSize pos
      LightMemoryPool.totFreeLoop p fuel (pos + (blockSize + 2))
        (if p.isFree pos then r + blockSize else r)
    else
      some r

/-- Method `LightMemoryPool::totFree`. -/
def LightMemoryPool.totFree (p : LightMemoryPool) : Option Nat :=
  p.totFreeLoop (p.m_poolSize + 1) 0 0

/-- The loop of `LightMemoryPool::totAllocated`, with accumulator `r`. -/
def LightMemoryPool.totAllocatedLoop (p : LightMemoryPool) : Nat → Nat → Nat → Option Nat
  | 0, _, _ => none
  | fuel + 1, pos, r =>
    if pos < p.m_poolSize then
      let blockSize := p.getSize pos
      LightMemoryPool.totAllocatedLoop p fuel (pos + (blockSize + 2))
        (if !p.isFree pos then r + blockSize else r)
    else
      some r

/-- Method `LightMemoryPool::totAllocated`. -/
def LightMemoryPool.totAllocated (p : LightMemoryPool) : Option Nat :=
  p.totAllocatedLoop (p.m_poolSize + 1) 0 0

/-- The loop of `LightMemoryPool::largestFree`, with accumulator `r`. -/
def LightMemoryPool.largestFreeLoop (p : LightMemoryPool) : Nat → Nat → Nat → Option Nat
  | 0, _, _ => none
  | fuel + 1, pos, r =>
    if pos < p.m_poolSize then
      let blockSize := p.getSize pos
      LightMemoryPool.largestFreeLoop p fuel (pos + (blockSize + 2))
        (if p.isFree pos && blockSize > r then blockSize else r)
    else
      some r

/-- Method `LightMemoryPool::largestFree`. -/
def LightMemoryPool.largestFree (p : LightMemoryPool) : Option Nat :=
  p.largestFreeLoop (p.m_poolSize + 1) 0 0

/-! ## Specification-side vocabulary -/

/-- One block header as the scan reads it: its offset, recorded size and status. -/
structure Hdr where
  off : Nat
  size : Nat
  allocated : Bool
deriving DecidableEq

/-- The scan of the header chain from `pos` by steps of `2 + size`, recording each header. -/
def LightMemoryPool.layoutLoop (p : LightMemoryPool) : Nat → Nat → Option (List Hdr)
  | 0, _ => none
  | fuel + 1, pos =>
    if pos < p.m_poolSize then
      (LightMemoryPool.layoutLoop p fuel (pos + (p.getSize pos + 2))).map
        (fun l => { off := pos, size := p.getSize pos, allocated := !p.isFree pos } :: l)
    else
      some []

/-- The headers visited by the scan from offset 0. -/
def LightMemoryPool.layout (p : LightMemoryPool) : Option (List Hdr) :=
  p.layoutLoop (p.m_poolSize + 1) 0

/-- The number of headers visited by the scan from offset 0. -/
def LightMemoryPool.blockCount (p : LightMemoryPool) : Option Nat :=
  p.layout.map List.length

/-- A well-formed pool: capacity `m_poolSize - 2` between 0 and 32767 and a header chain
that tiles the buffer (`memCheck` answers true). -/
def WellFormed (p : LightMemoryPool) : Prop :=
  2 ≤ p.m_poolSize ∧ p.m_poolSize ≤ 32769 ∧ p.memCheck = some true

/-- A sequence of `alloc` calls with the given sizes; the pool after the last call. -/
def runAllocs : LightMemoryPool → List Nat → Option LightMemoryPool
  | p, [] => some p
  | p, size :: rest =>
    match p.alloc size with
    | none => none
    | some (_, p') => runAllocs p' rest

/-- The headers of `l` tile the byte range from `a` to `b` of the buffer: each header is read
at its offset as the code reads it, and each block ends where the next begins. -/
def Seg (p : LightMemoryPool) : Nat → List Hdr → Nat → Prop
  | a, [], b => a = b
  | a, h :: t, b =>
    h.off = a ∧ h.size = p.getSize a ∧ h.allocated = (!p.isFree a) ∧ a + 2 + h.size ≤ b ∧
      Seg p (a + 2 + h.size) t b

/-- The recorded sizes of the free headers of a header list. -/
def freeSizes (l : List Hdr) : List Nat :=
  (l.filter (fun h => !h.allocated)).map Hdr.size

/-- The recorded sizes of the allocated headers of a header list. -/
def allocSizes (l : List Hdr) : List Nat :=
  (l.filter (fun h => h.allocated)).map Hdr.size

/-- The number of bytes a header list occupies: two header bytes plus the payload, per block. -/
def span (l : List Hdr) : Nat :=
  (l.map (fun h => h.size + 2)).sum

/-- The effect of one `alloc size` scan on the list of headers from the scan position on:
`AllocStep size l r l'` says that the scan over the headers `l` answers `r` (the payload
offset, or `none` for `nullptr`) and leaves the headers `l'`. One constructor per path
through the loop body. -/
inductive AllocStep (size : Nat) : List Hdr → Option Nat → List Hdr → Prop
  | done : AllocStep size [] none []
  | skip (h : Hdr) (t : List Hdr) (r : Option Nat) (t' : List Hdr) :
      h.allocated = true → AllocStep size t r t' → AllocStep size (h :: t) r (h :: t')
  | fit (h : Hdr) (t : List Hdr) :
      h.allocated = false → h.size = size →
      AllocStep size (h :: t) (some (h.off + 2))
        ({ off := h.off, size := size, allocated := true } :: t)
  | split (h : Hdr) (t : List Hdr) :
      h.allocated = false → size + 2 < h.size →
      AllocStep size (h :: t) (some (h.off + 2))
        ({ off := h.off, size := size, allocated := true } ::
          { off := h.off + 2 + size, size := h.size - size - 2, allocated := false } :: t)
  | whole (h : Hdr) (t : List Hdr) :
      h.allocated = false → size < h.size → h.size ≤ size + 2 →
      AllocStep size (h :: t) (some (h.off + 2))
        ({ off := h.off, size := h.size, allocated := true } :: t)
  | merge (h n : Hdr) (t : List Hdr) (r : Option Nat) (l' : List Hdr) :
      h.allocated = false → h.size < size → n.allocated = false →
      AllocStep size ({ off := h.off, size := h.size + n.size + 2, allocated := false } :: t) r l' →
      AllocStep size (h :: n :: t) r l'
  | next (h : Hdr) (t : List Hdr) (r : Option Nat) (t' : List Hdr) :
      h.allocated = false → h.size < size → (∀ n ∈ t.head?, n.allocated = true) →
      AllocStep size t r t' → AllocStep size (h :: t) r (h :: t')

/-- Offset `i` lies inside a free block (header or payload) of the header list `l`. -/
def InFree (l : List Hdr) (i : Nat) : Prop :=
  ∃ h ∈ l, h.allocated = false ∧ h.off ≤ i ∧ i < h.off + 2 + h.size

/-- The merged capacities of the maximal runs of adjacent free blocks of a header list, in
scan order. `cur` is the capacity of the run in progress, if any: the first block of a run
contributes its size, every further adjacent free block its size plus the two bytes of its
header (so a run of `k` blocks has capacity the sum of the `k` sizes plus `2 * (k - 1)`). -/
def freeRunsAux : Option Nat → List Hdr → List Nat
  | cur, [] => cur.toList
  | cur, h :: t =>
    if h.allocated then
      cur.toList ++ freeRunsAux none t
    else
      freeRunsAux (some (match cur with
        | none => h.size
        | some c => c + h.size + 2)) t

/-- The merged capacities of the maximal runs of adjacent free blocks of a header list. -/
def freeRunCapacities (l : List Hdr) : List Nat :=
  freeRunsAux none l

/-- A six-byte pool (capacity 4) holding two adjacent free blocks: a free block of size 0
at offset 0 and a free block of size 2 at offset 2. -/
def twoFreePool : LightMemoryPool :=
  { m_mem := fun i => if i = 2 then 2 else 0, m_poolSize := 6 }

/-- No two adjacent blocks of the header list are both free. -/
def noAdjacentFree : List Hdr → Bool
  | h :: n :: t => (h.allocated || n.allocated) && noAdjacentFree (n :: t)
  | _ => true

/-- The pool of capacity 100 over a zeroed buffer after `alloc(30)`: an allocated block of
size 30 at offset 0 followed by a free block of size 68 at offset 32. -/
def scenarioPool1 : LightMemoryPool :=
  { m_mem := fun i => if i = 0 then 30 else if i = 1 then 128 else if i = 32 then 68 else 0,
    m_poolSize := 102 }

/-- The maximal runs of adjacent free blocks of a header list, in scan order, each as the
pair (offset of its first block, merged capacity). `cur` is the run in progress, if any; the
capacities are those of `freeRunsAux`. -/
def freeRunsOffAux : Option (Nat × Nat) → List Hdr → List (Nat × Nat)
  | cur, [] => cur.toList
  | cur, h :: t =>
    if h.allocated then
      cur.toList ++ freeRunsOffAux none t
    else
      freeRunsOffAux (some (match cur with
        | none => (h.off, h.size)
        | some (o, c) => (o, c + h.size + 2))) t

/-- The maximal runs of adjacent free blocks of a header list: (offset of the first block,
merged capacity), in scan order. -/
def freeRuns (l : List Hdr) : List (Nat × Nat) :=
  freeRunsOffAux none l

/-- A fourteen-byte pool (capacity 12): a free block of size 2 at offset 0, an allocated
block of size 1 at offset 4 and a free block of size 5 at offset 7. -/
def gapPool : LightMemoryPool :=
  { m_mem := fun i =>
      if i = 0 then 2 else if i = 4 then 1 else if i = 5 then 128 else if i = 7 then 5 else 0,
    m_poolSize := 14 }

/-- Every block of the header list except possibly the last one is allocated: the list is
zero or more allocated blocks followed by at most one free block. -/
def allButLastAllocated : List Hdr → Bool
  | h :: n :: t => h.allocated && allButLastAllocated (n :: t)
  | _ => true

/-- The header list with every maximal run of adjacent free blocks merged into one free
block, at the offset of the run's first block and with the run's merged capacity; `cur` is
the merged block in progress, if any. Allocated blocks are kept as they are. -/
def mergeRunsAux : Option Hdr → List Hdr → List Hdr
  | cur, [] => cur.toList
  | cur, h :: t =>
    if h.allocated then
      cur.toList ++ h :: mergeRunsAux none t
    else
      mergeRunsAux (some (match cur with
        | none => { off := h.off, size := h.size, allocated := false }
        | some c => { off := c.off, size := c.size + h.size + 2, allocated := false })) t

/-- The header list with every maximal run of adjacent free blocks merged into one free
block. -/
def mergeRuns (l : List Hdr) : List Hdr :=
  mergeRunsAux none l

/-- A nine-byte pool (capacity 7): free blocks of sizes 0 and 2 at offsets 0 and 2, the
second with payload bytes 9 and 9, then an allocated block of size 1 at offset 6 with
payload byte 7. -/
def mergePool : LightMemoryPool :=
  { m_mem := fun i =>
      if i = 2 then 2 else if i = 4 then 9 else if i = 5 then 9 else if i = 6 then 1
      else if i = 7 then 128 else if i = 8 then 7 else 0,
    m_poolSize := 9 }

/-! ## Integer square root (`isqrt`, src/fabutils.cpp)

The `int` variables of `isqrt` are natural numbers here: they start non-negative and the
only subtraction is guarded by the comparison before it. `|` and `>>` are the bit operations
of `Nat`. Each iteration checks that every value it computes fits a signed 32-bit `int`;
the answer is `none` when one does not, or when the fuel runs out. -/

/-- Every value of the list fits a signed 32-bit `int` (the values are non-negative). -/
def fitsInt32 (vs : List Nat) : Bool :=
  vs.all (fun v => decide (v < 2147483648))

/-- The `while (squaredbit > 0)` loop of `isqrt`. -/
def isqrtLoop : Nat → Nat → Nat → Nat → Option Nat
  | 0, _, _, _ => none
  | fuel + 1, squaredbit, remainder, root =>
    if squaredbit > 0 then
      if remainder ≥ (squaredbit ||| root) then
        if fitsInt32 [squaredbit ||| root, remainder - (squaredbit ||| root), root >>> 1,
            (root >>> 1) ||| squaredbit, squaredbit >>> 2] then
          isqrtLoop fuel (squaredbit >>> 2) (remainder - (squaredbit ||| root))
            ((root >>> 1) ||| squaredbit)
        else
          none
      else
        if fitsInt32 [squaredbit ||| root, root >>> 1, squaredbit >>> 2] then
          isqrtLoop fuel (squaredbit >>> 2) remainder (root >>> 1)
        else
          none
    else
      some root

/-- Function `isqrt(int x)`: integer square root by Halleck's method. The loop runs sixteen
times (`squaredbit` goes from `0x40000000` to 1 by shifts of two bits); the fuel 17 covers
them and the final test. -/
def isqrt (x : Int) : Option Int :=
  if x < 1 then
    some 0
  else
    (isqrtLoop 17 0x40000000 x.toNat 0).map Int.ofNat

/-! ## Header bytes -/

theorem toInt16_of_range (x : Int) (h0 : 0 ≤ x) (h1 : x ≤ 32767) : toInt16 x = x := by
  unfold toInt16; omega

theorem mark_m_poolSize (p : LightMemoryPool) (pos : Nat) (s : Int) (a : Bool) :
    (p.mark pos s a).m_poolSize = p.m_poolSize := rfl

theorem mark_m_mem_of_ne (p : LightMemoryPool) (pos : Nat) (s : Int) (a : Bool) (i : Nat)
    (h1 : i ≠ pos) (h2 : i ≠ pos + 1) : (p.mark pos s a).m_mem i = p.m_mem i := by
  simp [LightMemoryPool.mark, LightMemoryPool.store, h1, h2]

theorem getSize_lt (p : LightMemoryPool) (q : Nat) : p.getSize q < 32768 := by
  unfold LightMemoryPool.getSize LightMemoryPool.byteAt; omega

theorem getSize_congr {p p' : LightMemoryPool} {q : Nat} (h1 : p'.m_mem q = p.m_mem q)
    (h2 : p'.m_mem (q + 1) = p.m_mem (q + 1)) : p'.getSize q = p.getSize q := by
  simp [LightMemoryPool.getSize, LightMemoryPool.byteAt, h1, h2]

theorem isFree_congr {p p' : LightMemoryPool} {q : Nat}
    (h2 : p'.m_mem (q + 1) = p.m_mem (q + 1)) : p'.isFree q = p.isFree q := by
  simp [LightMemoryPool.isFree, LightMemoryPool.byteAt, h2]

theorem getSize_mark (p : LightMemoryPool) (pos : Nat) (s : Int) (a : Bool)
    (h0 : 0 ≤ s) (h1 : s ≤ 32767) : (p.mark pos (toInt16 s) a).getSize pos = s.toNat := by
  rw [toInt16_of_range s h0 h1]
  simp only [LightMemoryPool.getSize, LightMemoryPool.byteAt, LightMemoryPool.mark,
    LightMemoryPool.store]
  have e1 : ¬ (pos = pos + 1) := by omega
  simp only [e1, if_false, if_true]
  cases a <;> simp <;> omega

theorem isFree_mark (p : LightMemoryPool) (pos : Nat) (s : Int) (a : Bool) :
    (p.mark pos s a).isFree pos = !a := by
  simp only [LightMemoryPool.isFree, LightMemoryPool.byteAt, LightMemoryPool.mark,
    LightMemoryPool.store]
  cases a <;> simp <;> omega

theorem getSize_mark_ne (p : LightMemoryPool) (pos : Nat) (s : Int) (a : Bool) (q : Nat)
    (h1 : q + 1 < pos ∨ pos + 1 < q) : (p.mark pos s a).getSize q = p.getSize q := by
  apply getSize_congr <;> apply mark_m_mem_of_ne <;> omega

theorem isFree_mark_ne (p : LightMemoryPool) (pos : Nat) (s : Int) (a : Bool) (q : Nat)
    (h1 : q + 1 < pos ∨ pos + 1 < q) : (p.mark pos s a).isFree q = p.isFree q := by
  apply isFree_congr; apply mark_m_mem_of_ne <;> omega

/-! ## Tiled segments of the buffer -/

theorem Seg_congr {p p' : LightMemoryPool} : ∀ (l : List Hdr) (a b : Nat),
    (∀ i, a ≤ i → i < b → p'.m_mem i = p.m_mem i) → Seg p a l b → Seg p' a l b := by
  intro l
  induction l with
  | nil => intro a b _ h; exact h
  | cons h t ih =>
    intro a b hm hs
    obtain ⟨h1, h2, h3, h4, h5⟩ := hs
    have e0 : p'.m_mem a = p.m_mem a := hm a (le_refl a) (by omega)
    have e1 : p'.m_mem (a + 1) = p.m_mem (a + 1) := hm (a + 1) (by omega) (by omega)
    refine ⟨h1, ?_, ?_, h4, ?_⟩
    · rw [getSize_congr e0 e1]; exact h2
    · rw [isFree_congr e1]; exact h3
    · exact ih _ _ (fun i hi hb => hm i (by omega) hb) h5

theorem Seg_span {p : LightMemoryPool} : ∀ (l : List Hdr) (a b : Nat),
    Seg p a l b → a + span l = b := by
  intro l
  induction l with
  | nil => intro a b h; simpa [span] using h
  | cons h t ih =>
    intro a b hs
    obtain ⟨_, _, _, _, h5⟩ := hs
    have := ih _ _ h5
    simp only [span, List.map_cons, List.sum_cons] at this ⊢
    omega

theorem span_ge (l : List Hdr) : 2 * l.length ≤ span l := by
  induction l with
  | nil => simp [span]
  | cons h t ih =>
    simp only [span, List.map_cons, List.sum_cons, List.length_cons] at ih ⊢
    omega

theorem Seg_length {p : LightMemoryPool} {l : List Hdr} {a b : Nat} (h : Seg p a l b) :
    a + 2 * l.length ≤ b := by
  have h1 := Seg_span l a b h
  have h2 := span_ge l
  omega

theorem Seg_mem {p : LightMemoryPool} : ∀ (l : List Hdr) (a b : Nat), Seg p a l b →
    ∀ h ∈ l, h.size = p.getSize h.off ∧ h.allocated = (!p.isFree h.off) ∧ a ≤ h.off ∧
      h.off + 2 + h.size ≤ b := by
  intro l
  induction l with
  | nil => intro a b _ h hh; simp at hh
  | cons x t ih =>
    intro a b hs h hh
    obtain ⟨h1, h2, h3, h4, h5⟩ := hs
    rcases List.mem_cons.mp hh with rfl | hm
    · subst h1; exact ⟨h2, h3, le_refl _, h4⟩
    · obtain ⟨g1, g2, g3, g4⟩ := ih _ _ h5 h hm
      exact ⟨g1, g2, by omega, g4⟩

theorem Seg_append {p : LightMemoryPool} : ∀ (l1 l2 : List Hdr) (a c : Nat),
    Seg p a (l1 ++ l2) c ↔ Seg p a l1 (a + span l1) ∧ Seg p (a + span l1) l2 c := by
  intro l1
  induction l1 with
  | nil => intro l2 a c; simp [Seg, span]
  | cons h t ih =>
    intro l2 a c
    have hsp : a + span (h :: t) = (a + 2 + h.size) + span t := by
      simp only [span, List.map_cons, List.sum_cons]; omega
    show (h.off = a ∧ h.size = p.getSize a ∧ h.allocated = (!p.isFree a) ∧ a + 2 + h.size ≤ c ∧
        Seg p (a + 2 + h.size) (t ++ l2) c) ↔
      (h.off = a ∧ h.size = p.getSize a ∧ h.allocated = (!p.isFree a) ∧
        a + 2 + h.size ≤ a + span (h :: t) ∧ Seg p (a + 2 + h.size) t (a + span (h :: t))) ∧
        Seg p (a + span (h :: t)) l2 c
    rw [ih, hsp]
    constructor
    · rintro ⟨h1, h2, h3, h4, h5, h6⟩
      exact ⟨⟨h1, h2, h3, by omega, h5⟩, h6⟩
    · rintro ⟨⟨h1, h2, h3, _, h5⟩, h6⟩
      have := Seg_span _ _ _ h6
      exact ⟨h1, h2, h3, by omega, h5, h6⟩

/-! ## The scan loops -/

theorem layoutLoop_isSome (p : LightMemoryPool) : ∀ (fuel pos : Nat),
    0 < fuel → p.m_poolSize + 2 ≤ pos + 2 * fuel → (p.layoutLoop fuel pos).isSome = true := by
  intro fuel
  induction fuel with
  | zero => intro pos h0 _; omega
  | succ n ih =>
    intro pos _ h
    unfold LightMemoryPool.layoutLoop
    split
    · rename_i hlt
      simp only [Option.isSome_map']
      apply ih <;> omega
    · rfl

theorem layoutLoop_of_Seg {p : LightMemoryPool} : ∀ (l : List Hdr) (a fuel : Nat),
    Seg p a l p.m_poolSize → l.length < fuel → p.layoutLoop fuel a = some l := by
  intro l
  induction l with
  | nil =>
    intro a fuel hs hf
    obtain ⟨n, rfl⟩ : ∃ n, fuel = n + 1 := ⟨fuel - 1, by simp at hf; omega⟩
    have : a = p.m_poolSize := hs
    simp [LightMemoryPool.layoutLoop, this]
  | cons h t ih =>
    intro a fuel hs hf
    obtain ⟨n, rfl⟩ : ∃ n, fuel = n + 1 := ⟨fuel - 1, by simp at hf; omega⟩
    obtain ⟨h1, h2, h3, h4, h5⟩ := hs
    have hlt : a < p.m_poolSize := by omega
    have e : a + (p.getSize a + 2) = a + 2 + h.size := by omega
    unfold LightMemoryPool.layoutLoop
    rw [if_pos hlt, e, ih _ n h5 (by simpa using hf)]
    cases h
    simp only [Option.map_some', Option.some.injEq, List.cons.injEq, and_true, Hdr.mk.injEq]
    simp at h1 h2 h3
    exact ⟨h1.symm, h2.symm, h3.symm⟩

theorem memCheckLoop_eq (p : LightMemoryPool) : ∀ (fuel pos : Nat),
    p.memCheckLoop fuel pos = (p.layoutLoop fuel pos).map (fun l => pos + span l) := by
  intro fuel
  induction fuel with
  | zero => intro pos; rfl
  | succ n ih =>
    intro pos
    unfold LightMemoryPool.memCheckLoop LightMemoryPool.layoutLoop
    split
    · simp only [ih, Option.map_map]
      congr 1
      funext l
      simp [span]
      omega
    · simp [span]

theorem totFreeLoop_eq (p : LightMemoryPool) : ∀ (fuel pos r : Nat),
    p.totFreeLoop fuel pos r =
      (p.layoutLoop fuel pos).map (fun l => r + (freeSizes l).sum) := by
  intro fuel
  induction fuel with
  | zero => intro pos r; rfl
  | succ n ih =>
    intro pos r
    unfold LightMemoryPool.totFreeLoop LightMemoryPool.layoutLoop
    split
    · simp only [ih, Option.map_map]
      congr 1
      funext l
      cases hf : p.isFree pos <;> simp [freeSizes, hf, List.filter_cons]
      omega
    · simp [freeSizes]

theorem totAllocatedLoop_eq (p : LightMemoryPool) : ∀ (fuel pos r : Nat),
    p.totAllocatedLoop fuel pos r =
      (p.layoutLoop fuel pos).map (fun l => r + (allocSizes l).sum) := by
  intro fuel
  induction fuel with
  | zero => intro pos r; rfl
  | succ n ih =>
    intro pos r
    unfold LightMemoryPool.totAllocatedLoop LightMemoryPool.layoutLoop
    split
    · simp only [ih, Option.map_map]
      congr 1
      funext l
      cases hf : p.isFree pos <;> simp [allocSizes, hf, List.filter_cons]
      omega
    · simp [allocSizes]

theorem largestFreeLoop_eq (p : LightMemoryPool) : ∀ (fuel pos r : Nat),
    p.largestFreeLoop fuel pos r =
      (p.layoutLoop fuel pos).map (fun l => (freeSizes l).foldl max r) := by
  intro fuel
  induction fuel with
  | zero => intro pos r; rfl
  | succ n ih =>
    intro pos r
    unfold LightMemoryPool.largestFreeLoop LightMemoryPool.layoutLoop
    split
    · simp only [ih, Option.map_map]
      congr 1
      funext l
      cases hf : p.isFree pos <;> simp [freeSizes, hf, List.filter_cons]
      by_cases hr : r < p.getSize pos
      · simp [hr, Nat.max_eq_right (Nat.le_of_lt hr)]
      · simp [hr, Nat.max_eq_left (Nat.le_of_not_lt hr)]
    · simp [freeSizes]

theorem Seg_of_memCheckLoop (p : LightMemoryPool) : ∀ (fuel a : Nat),
    p.memCheckLoop fuel a = some p.m_poolSize → ∃ l, Seg p a l p.m_poolSize := by
  intro fuel
  induction fuel with
  | zero => intro a h; simp [LightMemoryPool.memCheckLoop] at h
  | succ n ih =>
    intro a h
    unfold LightMemoryPool.memCheckLoop at h
    split at h
    · obtain ⟨l, hl⟩ := ih _ h
      have := Seg_length hl
      exact ⟨{ off := a, size := p.getSize a, allocated := !p.isFree a } :: l,
        rfl, rfl, rfl, by simp only; omega,
        by simpa [show a + 2 + p.getSize a = a + (p.getSize a + 2) by omega] using hl⟩
    · simp only [Option.some.injEq] at h
      exact ⟨[], h⟩

theorem Seg_of_wellFormed {p : LightMemoryPool} (h : WellFormed p) :
    ∃ l, Seg p 0 l p.m_poolSize := by
  obtain ⟨_, _, hm⟩ := h
  unfold LightMemoryPool.memCheck at hm
  cases hx : p.memCheckLoop (p.m_poolSize + 1) 0 with
  | none => simp [hx] at hm
  | some x =>
    simp [hx] at hm
    subst hm
    exact Seg_of_memCheckLoop p _ _ hx

theorem layout_of_Seg {p : LightMemoryPool} {l : List Hdr} (h : Seg p 0 l p.m_poolSize) :
    p.layout = some l := by
  have := Seg_length h
  exact layoutLoop_of_Seg l 0 _ h (by omega)

theorem memCheck_of_Seg {p : LightMemoryPool} {l : List Hdr} (h : Seg p 0 l p.m_poolSize) :
    p.memCheck = some true := by
  have h1 : p.layoutLoop (p.m_poolSize + 1) 0 = some l := layout_of_Seg h
  have h2 := Seg_span l 0 _ h
  simp [LightMemoryPool.memCheck, memCheckLoop_eq, h1]
  omega

theorem totFree_of_Seg {p : LightMemoryPool} {l : List Hdr} (h : Seg p 0 l p.m_poolSize) :
    p.totFree = some (freeSizes l).sum := by
  have h1 : p.layoutLoop (p.m_poolSize + 1) 0 = some l := layout_of_Seg h
  simp [LightMemoryPool.totFree, totFreeLoop_eq, h1]

theorem totAllocated_of_Seg {p : LightMemoryPool} {l : List Hdr}
    (h : Seg p 0 l p.m_poolSize) : p.totAllocated = some (allocSizes l).sum := by
  have h1 : p.layoutLoop (p.m_poolSize + 1) 0 = some l := layout_of_Seg h
  simp [LightMemoryPool.totAllocated, totAllocatedLoop_eq, h1]

theorem largestFree_of_Seg {p : LightMemoryPool} {l : List Hdr}
    (h : Seg p 0 l p.m_poolSize) : p.largestFree = some ((freeSizes l).foldl max 0) := by
  have h1 : p.layoutLoop (p.m_poolSize + 1) 0 = some l := layout_of_Seg h
  simp [LightMemoryPool.largestFree, largestFreeLoop_eq, h1]

theorem blockCount_of_Seg {p : LightMemoryPool} {l : List Hdr} (h : Seg p 0 l p.m_poolSize) :
    p.blockCount = some l.length := by
  simp [LightMemoryPool.blockCount, layout_of_Seg h]

theorem wellFormed_of_Seg {p : LightMemoryPool} {l : List Hdr} (h : Seg p 0 l p.m_poolSize)
    (h2 : 2 ≤ p.m_poolSize) (h3 : p.m_poolSize ≤ 32769) : WellFormed p :=
  ⟨h2, h3, memCheck_of_Seg h⟩

/-! ## The paths through the loop body of `alloc` -/

theorem allocLoop_exit (size n : Nat) (p : LightMemoryPool) (pos : Nat)
    (h : ¬ pos < p.m_poolSize) :
    LightMemoryPool.allocLoop size (n + 1) p pos = some (none, p) := by
  unfold LightMemoryPool.allocLoop
  rw [if_neg h]

theorem allocLoop_allocated (size n : Nat) (p : LightMemoryPool) (pos : Nat)
    (h : pos < p.m_poolSize) (hf : p.isFree pos = false) :
    LightMemoryPool.allocLoop size (n + 1) p pos =
      LightMemoryPool.allocLoop size n p (pos + (p.getSize pos + 2)) := by
  conv => lhs; unfold LightMemoryPool.allocLoop
  simp [h, hf]

theorem allocLoop_fit (size n : Nat) (p : LightMemoryPool) (pos : Nat)
    (h : pos < p.m_poolSize) (hf : p.isFree pos = true) (hs : p.getSize pos = size) :
    LightMemoryPool.allocLoop size (n + 1) p pos =
      some (some (pos + 2), p.mark pos (toInt16 size) true) := by
  conv => lhs; unfold LightMemoryPool.allocLoop
  simp [h, hf, hs]

theorem allocLoop_split (size n : Nat) (p : LightMemoryPool) (pos : Nat)
    (h : pos < p.m_poolSize) (hf : p.isFree pos = true) (hs : size + 2 < p.getSize pos) :
    LightMemoryPool.allocLoop size (n + 1) p pos =
      some (some (pos + 2),
        (p.mark (pos + 2 + size) (toInt16 ((p.getSize pos : Int) - (size : Int) - 2)) false).mark
          pos (toInt16 size) true) := by
  conv => lhs; unfold LightMemoryPool.allocLoop
  have h1 : ¬ p.getSize pos = size := by omega
  have h2 : p.getSize pos > size := by omega
  have h3 : (p.getSize pos : Int) - (size : Int) - 2 > 0 := by omega
  simp only [h, hf, h1, h2, h3, if_true, if_false]

theorem allocLoop_whole (size n : Nat) (p : LightMemoryPool) (pos : Nat)
    (h : pos < p.m_poolSize) (hf : p.isFree pos = true) (hs : size < p.getSize pos)
    (hs2 : p.getSize pos ≤ size + 2) :
    LightMemoryPool.allocLoop size (n + 1) p pos =
      some (some (pos + 2), p.mark pos (toInt16 (p.getSize pos)) true) := by
  conv => lhs; unfold LightMemoryPool.allocLoop
  have h1 : ¬ p.getSize pos = size := by omega
  have h2 : p.getSize pos > size := by omega
  have h3 : ¬ (p.getSize pos : Int) - (size : Int) - 2 > 0 := by omega
  simp only [h, hf, h1, h2, h3, if_true, if_false]

theorem allocLoop_merge (size n : Nat) (p : LightMemoryPool) (pos : Nat)
    (h : pos < p.m_poolSize) (hf : p.isFree pos = true) (hs : p.getSize pos < size)
    (hn : pos + 2 + p.getSize pos < p.m_poolSize)
    (hnf : p.isFree (pos + 2 + p.getSize pos) = true) :
    LightMemoryPool.allocLoop size (n + 1) p pos =
      LightMemoryPool.allocLoop size n
        (p.mark pos (toInt16 ((p.getSize pos : Int) +
          (p.getSize (pos + 2 + p.getSize pos) : Int) + 2)) false) pos := by
  conv => lhs; unfold LightMemoryPool.allocLoop
  have h1 : ¬ p.getSize pos = size := by omega
  have h2 : ¬ p.getSize pos > size := by omega
  simp only [h, hf, h1, h2, hn, hnf, if_true, if_false, decide_True, Bool.and_self]

theorem allocLoop_next (size n : Nat) (p : LightMemoryPool) (pos : Nat)
    (h : pos < p.m_poolSize) (hf : p.isFree pos = true) (hs : p.getSize pos < size)
    (hn : ¬ (pos + 2 + p.getSize pos < p.m_poolSize ∧
      p.isFree (pos + 2 + p.getSize pos) = true)) :
    LightMemoryPool.allocLoop size (n + 1) p pos =
      LightMemoryPool.allocLoop size n p (pos + (p.getSize pos + 2)) := by
  conv => lhs; unfold LightMemoryPool.allocLoop
  have h1 : ¬ p.getSize pos = size := by omega
  have h2 : ¬ p.getSize pos > size := by omega
  have h3 : (decide (pos + 2 + p.getSize pos < p.m_poolSize) &&
      p.isFree (pos + 2 + p.getSize pos)) = false := by
    rw [Bool.and_eq_false_iff]
    by_cases hc : pos + 2 + p.getSize pos < p.m_poolSize
    · right
      cases hx : p.isFree (pos + 2 + p.getSize pos)
      · rfl
      · exact absurd ⟨hc, hx⟩ hn
    · left; simpa using hc
  simp only [h, hf, h1, h2, h3, if_true, if_false, Bool.false_eq_true]

/-! ## The scan of `alloc` on a tiled buffer -/

theorem Seg_off_ge {p : LightMemoryPool} {t : List Hdr} {a b : Nat} (h : Seg p a t b) :
    ∀ i, i < a → ¬ InFree t i := by
  rintro i hi ⟨x, hx, _, hx2, _⟩
  have := (Seg_mem t _ _ h x hx).2.2.1
  omega

theorem allocLoop_refines {size : Nat} {l : List Hdr} {r : Option Nat} {l' : List Hdr}
    (hs : AllocStep size l r l') :
    ∀ (p : LightMemoryPool) (a fuel : Nat), Seg p a l p.m_poolSize → p.m_poolSize ≤ 32769 →
      l.length < fuel →
      ∃ p', LightMemoryPool.allocLoop size fuel p a = some (r, p') ∧
        p'.m_poolSize = p.m_poolSize ∧ Seg p' a l' p.m_poolSize ∧
        ∀ i, ¬ InFree l i → p'.m_mem i = p.m_mem i := by
  induction hs with
  | done =>
    intro p a fuel hseg _ hf
    obtain ⟨n, rfl⟩ : ∃ n, fuel = n + 1 := ⟨fuel - 1, by omega⟩
    have ha : a = p.m_poolSize := hseg
    exact ⟨p, allocLoop_exit size n p a (by omega), rfl, hseg, fun _ _ => rfl⟩
  | skip h t r t' hal _ ih =>
    intro p a fuel hseg hE hf
    obtain ⟨n, rfl⟩ : ∃ n, fuel = n + 1 := ⟨fuel - 1, by omega⟩
    obtain ⟨h1, h2, h3, h4, h5⟩ := hseg
    have hlt : a < p.m_poolSize := by omega
    have hfree : p.isFree a = false := by rw [hal] at h3; simpa using h3
    obtain ⟨p', e1, e2, e3, e4⟩ := ih p (a + 2 + h.size) n h5 hE (by simpa using hf)
    have hout := Seg_off_ge h5
    refine ⟨p', ?_, e2, ⟨h1, ?_, ?_, h4, e3⟩, ?_⟩
    · rw [allocLoop_allocated size n p a hlt hfree,
        show a + (p.getSize a + 2) = a + 2 + h.size by omega]
      exact e1
    · rw [getSize_congr (e4 a (hout a (by omega))) (e4 (a + 1) (hout (a + 1) (by omega)))]
      exact h2
    · rw [isFree_congr (e4 (a + 1) (hout (a + 1) (by omega)))]
      exact h3
    · intro i hi
      apply e4
      rintro ⟨x, hx, hx'⟩
      exact hi ⟨x, List.mem_cons_of_mem _ hx, hx'⟩
  | fit h t hal hsz =>
    intro p a fuel hseg hE hf
    obtain ⟨n, rfl⟩ : ∃ n, fuel = n + 1 := ⟨fuel - 1, by omega⟩
    obtain ⟨h1, h2, h3, h4, h5⟩ := hseg
    have hlt : a < p.m_poolSize := by omega
    have hfree : p.isFree a = true := by rw [hal] at h3; simpa using h3
    have hb := getSize_lt p a
    refine ⟨p.mark a (toInt16 size) true, ?_, rfl, ⟨h1, ?_, ?_, ?_, ?_⟩, ?_⟩
    · rw [allocLoop_fit size n p a hlt hfree (by omega), h1]
    · rw [getSize_mark p a size true (by omega) (by omega)]; simp
    · rw [isFree_mark]; rfl
    · show a + 2 + size ≤ p.m_poolSize
      omega
    · show Seg _ (a + 2 + size) t p.m_poolSize
      rw [← hsz]
      exact Seg_congr t _ _ (fun i hi _ => mark_m_mem_of_ne p a _ _ i (by omega) (by omega)) h5
    · intro i hi
      apply mark_m_mem_of_ne
      · intro hc; exact hi ⟨h, List.mem_cons_self _ _, hal, by omega, by omega⟩
      · intro hc; exact hi ⟨h, List.mem_cons_self _ _, hal, by omega, by omega⟩
  | split h t hal hsz =>
    intro p a fuel hseg hE hf
    obtain ⟨n, rfl⟩ : ∃ n, fuel = n + 1 := ⟨fuel - 1, by omega⟩
    obtain ⟨h1, h2, h3, h4, h5⟩ := hseg
    have hlt : a < p.m_poolSize := by omega
    have hfree : p.isFree a = true := by rw [hal] at h3; simpa using h3
    have hb := getSize_lt p a
    refine ⟨(p.mark (a + 2 + size) (toInt16 ((p.getSize a : Int) - (size : Int) - 2))
        false).mark a (toInt16 size) true, ?_, rfl, ⟨h1, ?_, ?_, ?_, ⟨?_, ?_, ?_, ?_, ?_⟩⟩, ?_⟩
    · rw [allocLoop_split size n p a hlt hfree (by omega), h1]
    · rw [getSize_mark _ a size true (by omega) (by omega)]; simp
    · rw [isFree_mark]; rfl
    · show a + 2 + size ≤ p.m_poolSize
      omega
    · show h.off + 2 + size = a + 2 + size
      omega
    · show h.size - size - 2 = _
      rw [getSize_mark_ne _ a _ _ _ (by omega),
        getSize_mark p _ _ false (by omega) (by omega)]
      omega
    · show false = !_
      rw [isFree_mark_ne _ a _ _ _ (by omega), isFree_mark]; rfl
    · show a + 2 + size + 2 + (h.size - size - 2) ≤ p.m_poolSize
      omega
    · show Seg _ (a + 2 + size + 2 + (h.size - size - 2)) t p.m_poolSize
      rw [show a + 2 + size + 2 + (h.size - size - 2) = a + 2 + h.size by omega]
      refine Seg_congr t _ _ (fun i hi _ => ?_) h5
      rw [mark_m_mem_of_ne _ a _ _ i (by omega) (by omega),
        mark_m_mem_of_ne p _ _ _ i (by omega) (by omega)]
    · intro i hi
      have hni : ¬ (a ≤ i ∧ i < a + 2 + h.size) := fun hc =>
        hi ⟨h, List.mem_cons_self _ _, hal, by omega, by omega⟩
      rw [mark_m_mem_of_ne _ a _ _ i (by omega) (by omega),
        mark_m_mem_of_ne p _ _ _ i (by omega) (by omega)]
  | whole h t hal hsz hsz2 =>
    intro p a fuel hseg hE hf
    obtain ⟨n, rfl⟩ : ∃ n, fuel = n + 1 := ⟨fuel - 1, by omega⟩
    obtain ⟨h1, h2, h3, h4, h5⟩ := hseg
    have hlt : a < p.m_poolSize := by omega
    have hfree : p.isFree a = true := by rw [hal] at h3; simpa using h3
    have hb := getSize_lt p a
    refine ⟨p.mark a (toInt16 (p.getSize a)) true, ?_, rfl, ⟨h1, ?_, ?_, h4, ?_⟩, ?_⟩
    · rw [allocLoop_whole size n p a hlt hfree (by omega) (by omega), h1]
    · rw [getSize_mark p a _ true (by omega) (by omega)]; simpa using h2
    · rw [isFree_mark]; rfl
    · exact Seg_congr t _ _ (fun i hi _ => mark_m_mem_of_ne p a _ _ i (by omega) (by omega)) h5
    · intro i hi
      have hni : ¬ (a ≤ i ∧ i < a + 2 + h.size) := fun hc =>
        hi ⟨h, List.mem_cons_self _ _, hal, by omega, by omega⟩
      exact mark_m_mem_of_ne p a _ _ i (by omega) (by omega)
  | merge h n t r l' hal hsz hnal _ ih =>
    intro p a fuel hseg hE hf
    obtain ⟨k, rfl⟩ : ∃ k, fuel = k + 1 := ⟨fuel - 1, by omega⟩
    obtain ⟨h1, h2, h3, h4, g1, g2, g3, g4, g5⟩ := hseg
    have hlt : a < p.m_poolSize := by omega
    have hfree : p.isFree a = true := by rw [hal] at h3; simpa using h3
    have hnfree : p.isFree (a + 2 + p.getSize a) = true := by
      rw [hnal] at g3; rw [← h2]; simpa using g3
    have g2' : n.size = p.getSize (a + 2 + p.getSize a) := by rw [← h2]; exact g2
    have hseg1 : Seg (p.mark a (toInt16 ((p.getSize a : Int) +
        (p.getSize (a + 2 + p.getSize a) : Int) + 2)) false) a
        ({ off := h.off, size := h.size + n.size + 2, allocated := false } :: t)
        p.m_poolSize := by
      refine ⟨h1, ?_, ?_, ?_, ?_⟩
      · rw [getSize_mark p a _ false (by omega) (by omega)]
        show h.size + n.size + 2 = _
        omega
      · rw [isFree_mark]; rfl
      · show a + 2 + (h.size + n.size + 2) ≤ p.m_poolSize
        omega
      · show Seg _ (a + 2 + (h.size + n.size + 2)) t p.m_poolSize
        rw [show a + 2 + (h.size + n.size + 2) = a + 2 + h.size + 2 + n.size by omega]
        exact Seg_congr t _ _
          (fun i hi _ => mark_m_mem_of_ne p a _ _ i (by omega) (by omega)) g5
    obtain ⟨p', e1, e2, e3, e4⟩ := ih _ a k hseg1 hE (by simp at hf ⊢; omega)
    refine ⟨p', ?_, e2, e3, ?_⟩
    · rw [allocLoop_merge size k p a hlt hfree (by omega) (by omega) hnfree]
      exact e1
    · intro i hi
      have hni : ¬ (a ≤ i ∧ i < a + 2 + h.size) := fun hc =>
        hi ⟨h, List.mem_cons_self _ _, hal, by omega, by omega⟩
      have hnn : ¬ (a + 2 + h.size ≤ i ∧ i < a + 2 + h.size + 2 + n.size) := fun hc =>
        hi ⟨n, List.mem_cons_of_mem _ (List.mem_cons_self _ _), hnal, by omega, by omega⟩
      rw [e4 i, mark_m_mem_of_ne p a _ _ i (by omega) (by omega)]
      rintro ⟨x, hx, hx1, hx2, hx3⟩
      rcases List.mem_cons.mp hx with rfl | hx
      · simp only at hx2 hx3
        omega
      · exact hi ⟨x, List.mem_cons_of_mem _ (List.mem_cons_of_mem _ hx), hx1, hx2, hx3⟩
  | next h t r t' hal hsz hnx _ ih =>
    intro p a fuel hseg hE hf
    obtain ⟨k, rfl⟩ : ∃ k, fuel = k + 1 := ⟨fuel - 1, by omega⟩
    obtain ⟨h1, h2, h3, h4, h5⟩ := hseg
    have hlt : a < p.m_poolSize := by omega
    have hfree : p.isFree a = true := by rw [hal] at h3; simpa using h3
    obtain ⟨p', e1, e2, e3, e4⟩ := ih p (a + 2 + h.size) k h5 hE (by simpa using hf)
    have hout := Seg_off_ge h5
    have hno : ¬ (a + 2 + p.getSize a < p.m_poolSize ∧
        p.isFree (a + 2 + p.getSize a) = true) := by
      rintro ⟨c1, c2⟩
      rw [← h2] at c1 c2
      cases t with
      | nil =>
        have : a + 2 + h.size = p.m_poolSize := h5
        omega
      | cons x t2 =>
        have hx := hnx x (by simp)
        obtain ⟨_, _, q3, _, _⟩ := h5
        rw [hx, c2] at q3
        simp at q3
    refine ⟨p', ?_, e2, ⟨h1, ?_, ?_, h4, e3⟩, ?_⟩
    · rw [allocLoop_next size k p a hlt hfree (by omega) hno,
        show a + (p.getSize a + 2) = a + 2 + h.size by omega]
      exact e1
    · rw [getSize_congr (e4 a (hout a (by omega))) (e4 (a + 1) (hout (a + 1) (by omega)))]
      exact h2
    · rw [isFree_congr (e4 (a + 1) (hout (a + 1) (by omega)))]
      exact h3
    · intro i hi
      apply e4
      rintro ⟨x, hx, hx'⟩
      exact hi ⟨x, List.mem_cons_of_mem _ hx, hx'⟩

theorem AllocStep_total_aux (size : Nat) : ∀ (k : Nat) (l : List Hdr), l.length ≤ k →
    ∃ r l', AllocStep size l r l' := by
  intro k
  induction k with
  | zero =>
    intro l hl
    have : l = [] := List.length_eq_zero.mp (by omega)
    subst this
    exact ⟨none, [], AllocStep.done⟩
  | succ k ih =>
    intro l hl
    cases l with
    | nil => exact ⟨none, [], AllocStep.done⟩
    | cons h t =>
      have ht : t.length ≤ k := by simpa using hl
      cases hal : h.allocated with
      | true =>
        obtain ⟨r, t', hs⟩ := ih t ht
        exact ⟨r, h :: t', AllocStep.skip h t r t' hal hs⟩
      | false =>
        by_cases c1 : h.size = size
        · exact ⟨_, _, AllocStep.fit h t hal c1⟩
        by_cases c2 : size + 2 < h.size
        · exact ⟨_, _, AllocStep.split h t hal c2⟩
        by_cases c3 : size < h.size
        · exact ⟨_, _, AllocStep.whole h t hal c3 (by omega)⟩
        have c4 : h.size < size := by omega
        cases t with
        | nil =>
          exact ⟨none, [h], AllocStep.next h [] none [] hal c4 (by simp) AllocStep.done⟩
        | cons n t2 =>
          cases hnal : n.allocated with
          | true =>
            obtain ⟨r, t', hs⟩ := ih (n :: t2) ht
            exact ⟨r, h :: t', AllocStep.next h (n :: t2) r t' hal c4 (by simp [hnal]) hs⟩
          | false =>
            obtain ⟨r, l', hs⟩ := ih
              ({ off := h.off, size := h.size + n.size + 2, allocated := false } :: t2)
              (by simp at ht ⊢; omega)
            exact ⟨r, l', AllocStep.merge h n t2 r l' hal c4 hnal hs⟩

theorem AllocStep_total (size : Nat) (l : List Hdr) : ∃ r l', AllocStep size l r l' :=
  AllocStep_total_aux size l.length l (le_refl _)

theorem alloc_of_Seg {p : LightMemoryPool} {l : List Hdr} {size : Nat} {r : Option Nat}
    {l' : List Hdr} (hseg : Seg p 0 l p.m_poolSize) (hE : p.m_poolSize ≤ 32769)
    (hs : AllocStep size l r l') :
    ∃ p', p.alloc size = some (r, p') ∧ p'.m_poolSize = p.m_poolSize ∧
      Seg p' 0 l' p'.m_poolSize ∧ ∀ i, ¬ InFree l i → p'.m_mem i = p.m_mem i := by
  have hlen := Seg_length hseg
  obtain ⟨p', e1, e2, e3, e4⟩ :=
    allocLoop_refines hs p 0 (p.m_poolSize + 1) hseg hE (by omega)
  exact ⟨p', e1, e2, by rw [e2]; exact e3, e4⟩

/-! ## Properties of the scan on header lists -/

theorem AllocStep_handle {size : Nat} {l : List Hdr} {r : Option Nat} {l' : List Hdr}
    (hs : AllocStep size l r l') :
    ∀ q, r = some q → ∃ h ∈ l', h.off + 2 = q ∧ h.allocated = true ∧ size ≤ h.size ∧
      h.size ≤ size + 2 := by
  induction hs with
  | done => intro q hq; simp at hq
  | skip h t r t' _ _ ih =>
    intro q hq
    obtain ⟨x, hx, hx'⟩ := ih q hq
    exact ⟨x, List.mem_cons_of_mem _ hx, hx'⟩
  | fit h t _ hsz =>
    intro q hq
    simp only [Option.some.injEq] at hq
    exact ⟨_, List.mem_cons_self _ _, hq, rfl, le_refl _, by simp⟩
  | split h t _ _ =>
    intro q hq
    simp only [Option.some.injEq] at hq
    exact ⟨_, List.mem_cons_self _ _, hq, rfl, le_refl _, by simp⟩
  | whole h t _ h1 h2 =>
    intro q hq
    simp only [Option.some.injEq] at hq
    exact ⟨_, List.mem_cons_self _ _, hq, rfl, by simp only; omega, h2⟩
  | merge h n t r l' _ _ _ _ ih => exact ih
  | next h t r t' _ _ _ _ ih =>
    intro q hq
    obtain ⟨x, hx, hx'⟩ := ih q hq
    exact ⟨x, List.mem_cons_of_mem _ hx, hx'⟩

theorem freeRunsAux_some_ge : ∀ (t : List Hdr) (c : Nat),
    ∃ c' ∈ freeRunsAux (some c) t, c ≤ c' := by
  intro t
  induction t with
  | nil => intro c; exact ⟨c, by simp [freeRunsAux], le_refl _⟩
  | cons h t ih =>
    intro c
    cases hal : h.allocated with
    | true => exact ⟨c, by simp [freeRunsAux, hal], le_refl _⟩
    | false =>
      obtain ⟨c', h1, h2⟩ := ih (c + h.size + 2)
      exact ⟨c', by simpa [freeRunsAux, hal] using h1, by omega⟩

theorem freeRunCapacities_cons_allocated (h : Hdr) (t : List Hdr) (hal : h.allocated = true) :
    freeRunCapacities (h :: t) = freeRunCapacities t := by
  simp [freeRunCapacities, freeRunsAux, hal]

theorem freeRunCapacities_merge (h n m : Hdr) (t : List Hdr) (hal : h.allocated = false)
    (hnal : n.allocated = false) (hm1 : m.allocated = false)
    (hm2 : m.size = h.size + n.size + 2) :
    freeRunCapacities (h :: n :: t) = freeRunCapacities (m :: t) := by
  simp [freeRunCapacities, freeRunsAux, hal, hnal, hm1, hm2]

theorem freeRunCapacities_cons_last (h : Hdr) (t : List Hdr) (hal : h.allocated = false)
    (hnx : ∀ n ∈ t.head?, n.allocated = true) :
    freeRunCapacities (h :: t) = h.size :: freeRunCapacities t := by
  cases t with
  | nil => simp [freeRunCapacities, freeRunsAux, hal]
  | cons n t2 =>
    have := hnx n (by simp)
    simp [freeRunCapacities, freeRunsAux, hal, this]

theorem AllocStep_none_iff {size : Nat} {l : List Hdr} {r : Option Nat} {l' : List Hdr}
    (hs : AllocStep size l r l') :
    r = none ↔ ∀ c ∈ freeRunCapacities l, c < size := by
  induction hs with
  | done => simp [freeRunCapacities, freeRunsAux]
  | skip h t r t' hal _ ih => rw [freeRunCapacities_cons_allocated h t hal]; exact ih
  | fit h t hal hsz =>
    obtain ⟨c, hc, hc'⟩ := freeRunsAux_some_ge t h.size
    have hm : c ∈ freeRunCapacities (h :: t) := by
      simpa [freeRunCapacities, freeRunsAux, hal] using hc
    constructor
    · intro hh; simp at hh
    · intro hh; have := hh c hm; omega
  | split h t hal hsz =>
    obtain ⟨c, hc, hc'⟩ := freeRunsAux_some_ge t h.size
    have hm : c ∈ freeRunCapacities (h :: t) := by
      simpa [freeRunCapacities, freeRunsAux, hal] using hc
    constructor
    · intro hh; simp at hh
    · intro hh; have := hh c hm; omega
  | whole h t hal hsz _ =>
    obtain ⟨c, hc, hc'⟩ := freeRunsAux_some_ge t h.size
    have hm : c ∈ freeRunCapacities (h :: t) := by
      simpa [freeRunCapacities, freeRunsAux, hal] using hc
    constructor
    · intro hh; simp at hh
    · intro hh; have := hh c hm; omega
  | merge h n t r l' hal _ hnal _ ih =>
    rw [freeRunCapacities_merge h n
      { off := h.off, size := h.size + n.size + 2, allocated := false } t hal hnal rfl rfl]
    exact ih
  | next h t r t' hal hsz hnx _ ih =>
    rw [freeRunCapacities_cons_last h t hal hnx, ih]
    simp [hsz]

theorem AllocStep_none_allocSizes {size : Nat} {l : List Hdr} {r : Option Nat}
    {l' : List Hdr} (hs : AllocStep size l r l') :
    r = none → allocSizes l' = allocSizes l := by
  induction hs with
  | done => intro _; rfl
  | skip h t r t' hal _ ih =>
    intro hr; simp [allocSizes, List.filter_cons, hal] at ih ⊢; exact ih hr
  | fit h t _ _ => intro hr; simp at hr
  | split h t _ _ => intro hr; simp at hr
  | whole h t _ _ _ => intro hr; simp at hr
  | merge h n t r l' hal _ hnal _ ih =>
    intro hr
    rw [ih hr]
    simp [allocSizes, List.filter_cons, hal, hnal]
  | next h t r t' hal _ _ _ ih =>
    intro hr; simp [allocSizes, List.filter_cons, hal] at ih ⊢; exact ih hr

theorem span_eq_sums (l : List Hdr) :
    span l = (freeSizes l).sum + (allocSizes l).sum + 2 * l.length := by
  induction l with
  | nil => simp [span, freeSizes, allocSizes]
  | cons h t ih =>
    have e : span (h :: t) = h.size + 2 + span t := by simp [span]
    rw [e, ih]
    cases hal : h.allocated <;> simp [freeSizes, allocSizes, List.filter_cons, hal] <;> omega

/-! ## Construction and sequences of calls -/

theorem Seg_new (raw : Nat → Nat) (N : Nat) (hN : N ≤ 32767) :
    Seg (LightMemoryPool.new raw N) 0 [{ off := 0, size := N, allocated := false }] (N + 2) := by
  unfold LightMemoryPool.new
  refine ⟨rfl, ?_, ?_, ?_, ?_⟩
  · rw [getSize_mark _ 0 _ false (by push_cast; omega) (by push_cast; omega)]
    show N = _
    push_cast
    omega
  · rw [isFree_mark]; rfl
  · show 0 + 2 + N ≤ N + 2
    omega
  · show 0 + 2 + N = N + 2
    omega

theorem new_m_poolSize (raw : Nat → Nat) (N : Nat) :
    (LightMemoryPool.new raw N).m_poolSize = N + 2 := rfl

theorem alloc_total {p : LightMemoryPool} {l : List Hdr} (size : Nat)
    (hseg : Seg p 0 l p.m_poolSize) (hE : p.m_poolSize ≤ 32769) :
    ∃ r l' p', AllocStep size l r l' ∧ p.alloc size = some (r, p') ∧
      p'.m_poolSize = p.m_poolSize ∧ Seg p' 0 l' p'.m_poolSize ∧
      ∀ i, ¬ InFree l i → p'.m_mem i = p.m_mem i := by
  obtain ⟨r, l', hs⟩ := AllocStep_total size l
  obtain ⟨p', h1, h2, h3, h4⟩ := alloc_of_Seg hseg hE hs
  exact ⟨r, l', p', hs, h1, h2, h3, h4⟩

theorem runAllocs_cons {p p' : LightMemoryPool} {s : Nat} {r : Option Nat} (rest : List Nat)
    (h : p.alloc s = some (r, p')) : runAllocs p (s :: rest) = runAllocs p' rest := by
  simp only [runAllocs, h]

theorem runAllocs_Seg : ∀ (sizes : List Nat) (p : LightMemoryPool) (l : List Hdr),
    Seg p 0 l p.m_poolSize → p.m_poolSize ≤ 32769 →
    ∃ p' l', runAllocs p sizes = some p' ∧ p'.m_poolSize = p.m_poolSize ∧
      Seg p' 0 l' p'.m_poolSize := by
  intro sizes
  induction sizes with
  | nil => intro p l hseg _; exact ⟨p, l, rfl, rfl, hseg⟩
  | cons s rest ih =>
    intro p l hseg hE
    obtain ⟨r, l1, p1, _, h1, h2, h3, _⟩ := alloc_total s hseg hE
    obtain ⟨p', l', g1, g2, g3⟩ := ih p1 l1 h3 (by omega)
    exact ⟨p', l', by rw [runAllocs_cons rest h1]; exact g1, by omega, g3⟩

theorem runAllocs_new (raw : Nat → Nat) (N : Nat) (hN : N ≤ 32767) (sizes : List Nat) :
    ∃ p l, runAllocs (LightMemoryPool.new raw N) sizes = some p ∧ p.m_poolSize = N + 2 ∧
      Seg p 0 l p.m_poolSize := by
  obtain ⟨p, l, h1, h2, h3⟩ := runAllocs_Seg sizes (LightMemoryPool.new raw N) _
    (Seg_new raw N hN) (by rw [new_m_poolSize]; omega)
  exact ⟨p, l, h1, h2, h3⟩

/-! ## The claims -/

/-- C1 (layout invariant): for a capacity `N` with `0 ≤ N ≤ 32767` and a finite sequence of
`alloc` calls with sizes between 1 and 32767 on the pool constructed with capacity `N`, after
every call of the sequence (after the first `k` calls, for every `k`) the calls have all
returned, `memCheck()` answers true, and the walk from offset 0 by steps of
`2 + getSize(pos)` ends exactly on `m_poolSize = N + 2`. -/
theorem alloc_sequence_memCheck (N : Nat) (raw : Nat → Nat) (sizes : List Nat)
    (hN : N ≤ 32767) (_hs : ∀ s ∈ sizes, 1 ≤ s ∧ s ≤ 32767) (k : Nat) :
    ∃ p, runAllocs (LightMemoryPool.new raw N) (sizes.take k) = some p ∧
      p.m_poolSize = N + 2 ∧ p.memCheck = some true ∧
      p.memCheckLoop (p.m_poolSize + 1) 0 = some (N + 2) := by
  obtain ⟨p, l, h1, h2, h3⟩ := runAllocs_new raw N hN (sizes.take k)
  have h4 := memCheck_of_Seg h3
  refine ⟨p, h1, h2, h4, ?_⟩
  unfold LightMemoryPool.memCheck at h4
  cases hx : p.memCheckLoop (p.m_poolSize + 1) 0 with
  | none => simp [hx] at h4
  | some x =>
    simp [hx] at h4
    rw [h4, h2]

/-- Witness of C1: capacity 100 and the calls `alloc(30)`, `alloc(20)`, `alloc(40)`,
`alloc(10)`, read after the fourth call. -/
theorem alloc_sequence_memCheck_witness :
    (100 ≤ 32767 ∧ ∀ s ∈ [30, 20, 40, 10], 1 ≤ s ∧ s ≤ 32767) ∧
    ∃ p, runAllocs (LightMemoryPool.new (fun _ => 0) 100) ([30, 20, 40, 10].take 4) = some p ∧
      p.m_poolSize = 100 + 2 ∧ p.memCheck = some true ∧
      p.memCheckLoop (p.m_poolSize + 1) 0 = some (100 + 2) :=
  ⟨⟨by decide, by decide⟩,
    alloc_sequence_memCheck 100 (fun _ => 0) [30, 20, 40, 10] (by decide) (by decide) 4⟩

theorem alloc_fst_eq {p : LightMemoryPool} {size : Nat} {r r' : Option Nat}
    {p' : LightMemoryPool} (h : p.alloc size = some (r, p'))
    (h' : (p.alloc size).map Prod.fst = some r') : r = r' := by
  rw [h] at h'
  simpa using h'

/-- C2 (returned handle): on a well-formed pool and for `1 ≤ size ≤ 32767`, when
`alloc(size)` returns the non-null pointer `m_mem + q`, then after the call `q - 2` is the
offset of a header of the chain, that block is marked allocated, and its recorded size `s`
satisfies `size ≤ s ≤ size + 2`. -/
theorem alloc_returned_handle (p : LightMemoryPool) (size q : Nat) (hwf : WellFormed p)
    (_h1 : 1 ≤ size) (_h2 : size ≤ 32767)
    (hret : (p.alloc size).map Prod.fst = some (some q)) :
    ∃ p' l, p.alloc size = some (some q, p') ∧ 2 ≤ q ∧
      p'.layout = some l ∧ (q - 2) ∈ l.map Hdr.off ∧
      p'.isFree (q - 2) = false ∧
      size ≤ p'.getSize (q - 2) ∧ p'.getSize (q - 2) ≤ size + 2 := by
  obtain ⟨l, hseg⟩ := Seg_of_wellFormed hwf
  obtain ⟨r, l', p', hs, e1, e2, e3, _⟩ := alloc_total size hseg hwf.2.1
  have hr : r = some q := alloc_fst_eq e1 hret
  subst hr
  obtain ⟨h, hm, g1, g2, g3, g4⟩ := AllocStep_handle hs q rfl
  obtain ⟨m1, m2, _, _⟩ := Seg_mem l' _ _ e3 h hm
  have hq : q - 2 = h.off := by omega
  refine ⟨p', l', e1, by omega, layout_of_Seg e3, ?_, ?_, ?_, ?_⟩
  · rw [hq]; exact List.mem_map_of_mem _ hm
  · rw [hq]; rw [g2] at m2; simpa using m2.symm
  · rw [hq, ← m1]; exact g3
  · rw [hq, ← m1]; exact g4

/-- Witness of C2: the pool of capacity 100 over a zeroed buffer and `alloc(30)`, which
returns the payload offset 2. -/
theorem alloc_returned_handle_witness :
    (WellFormed (LightMemoryPool.new (fun _ => 0) 100) ∧ 1 ≤ 30 ∧ 30 ≤ 32767 ∧
      ((LightMemoryPool.new (fun _ => 0) 100).alloc 30).map Prod.fst = some (some 2)) ∧
    ∃ p' l, (LightMemoryPool.new (fun _ => 0) 100).alloc 30 = some (some 2, p') ∧ 2 ≤ 2 ∧
      p'.layout = some l ∧ (2 - 2) ∈ l.map Hdr.off ∧
      p'.isFree (2 - 2) = false ∧
      30 ≤ p'.getSize (2 - 2) ∧ p'.getSize (2 - 2) ≤ 30 + 2 :=
  ⟨⟨⟨by decide, by decide, by decide⟩, by decide, by decide, by decide⟩,
    alloc_returned_handle (LightMemoryPool.new (fun _ => 0) 100) 30 2
      ⟨by decide, by decide, by decide⟩ (by decide) (by decide) (by decide)⟩

/-- C3 (failure exactly when nothing fits): on a well-formed pool and for
`1 ≤ size ≤ 32767`, `alloc(size)` returns, and it returns `nullptr` if and only if every
maximal run of adjacent free blocks has merged capacity strictly less than `size`;
equivalently it succeeds if and only if some maximal free run has merged capacity at least
`size`. -/
theorem alloc_fails_iff_no_run_fits (p : LightMemoryPool) (size : Nat) (hwf : WellFormed p)
    (_h1 : 1 ≤ size) (_h2 : size ≤ 32767) :
    ∃ r p' l, p.alloc size = some (r, p') ∧ p.layout = some l ∧
      (r = none ↔ ∀ c ∈ freeRunCapacities l, c < size) ∧
      (r.isSome = true ↔ ∃ c ∈ freeRunCapacities l, size ≤ c) := by
  obtain ⟨l, hseg⟩ := Seg_of_wellFormed hwf
  obtain ⟨r, l', p', hs, e1, _, _, _⟩ := alloc_total size hseg hwf.2.1
  have hiff := AllocStep_none_iff hs
  refine ⟨r, p', l, e1, layout_of_Seg hseg, hiff, ?_⟩
  rw [← Option.not_isSome_iff_eq_none] at hiff
  constructor
  · intro h
    by_contra hc
    push_neg at hc
    exact absurd h (hiff.mpr hc)
  · rintro ⟨c, hc, hc'⟩
    by_contra hn
    have := hiff.mp hn c hc
    omega

/-- Witness of C3: the six-byte pool with two adjacent free blocks (sizes 0 and 2, merged
capacity 4) and `alloc(4)`. -/
theorem alloc_fails_iff_no_run_fits_witness :
    (WellFormed twoFreePool ∧ 1 ≤ 4 ∧ 4 ≤ 32767) ∧
    ∃ r p' l, twoFreePool.alloc 4 = some (r, p') ∧ twoFreePool.layout = some l ∧
      (r = none ↔ ∀ c ∈ freeRunCapacities l, c < 4) ∧
      (r.isSome = true ↔ ∃ c ∈ freeRunCapacities l, 4 ≤ c) :=
  ⟨⟨⟨by decide, by decide, by decide⟩, by decide, by decide⟩,
    alloc_fails_iff_no_run_fits twoFreePool 4 ⟨by decide, by decide, by decide⟩
      (by decide) (by decide)⟩

/-- C4 (failure never corrupts the pool): on a well-formed pool and for
`1 ≤ size ≤ 32767`, when `alloc(size)` returns `nullptr`, `memCheck()` is still true
afterwards and `totAllocated()` has the same value as before the call. -/
theorem alloc_failure_preserves (p : LightMemoryPool) (size : Nat) (hwf : WellFormed p)
    (_h1 : 1 ≤ size) (_h2 : size ≤ 32767)
    (hfail : (p.alloc size).map Prod.fst = some none) :
    ∃ p' a, p.alloc size = some (none, p') ∧ p'.memCheck = some true ∧
      p.totAllocated = some a ∧ p'.totAllocated = some a := by
  obtain ⟨l, hseg⟩ := Seg_of_wellFormed hwf
  obtain ⟨r, l', p', hs, e1, _, e3, _⟩ := alloc_total size hseg hwf.2.1
  have hr : r = none := alloc_fst_eq e1 hfail
  subst hr
  refine ⟨p', (allocSizes l).sum, e1, memCheck_of_Seg e3, totAllocated_of_Seg hseg, ?_⟩
  rw [totAllocated_of_Seg e3, AllocStep_none_allocSizes hs rfl]

/-- Witness of C4: the six-byte pool with two adjacent free blocks and `alloc(5)`, which
fails after merging them. -/
theorem alloc_failure_preserves_witness :
    (WellFormed twoFreePool ∧ 1 ≤ 5 ∧ 5 ≤ 32767 ∧
      (twoFreePool.alloc 5).map Prod.fst = some none) ∧
    ∃ p' a, twoFreePool.alloc 5 = some (none, p') ∧ p'.memCheck = some true ∧
      twoFreePool.totAllocated = some a ∧ p'.totAllocated = some a :=
  ⟨⟨⟨by decide, by decide, by decide⟩, by decide, by decide, by decide⟩,
    alloc_failure_preserves twoFreePool 5 ⟨by decide, by decide, by decide⟩
      (by decide) (by decide) (by decide)⟩

/-- C5 (construction): for `0 ≤ N ≤ 32767` the pool constructed with `poolSize = N`,
whatever the content of the fresh buffer, has `m_poolSize = N + 2` and is a single free
block of size `N` at offset 0: `getSize(0) = N`, `isFree(0)`, `memCheck()` is true,
`totFree() = N`, `totAllocated() = 0` and `largestFree() = N`. -/
theorem new_single_free_block (N : Nat) (raw : Nat → Nat) (hN : N ≤ 32767) :
    (LightMemoryPool.new raw N).m_poolSize = N + 2 ∧
    (LightMemoryPool.new raw N).layout = some [{ off := 0, size := N, allocated := false }] ∧
    (LightMemoryPool.new raw N).getSize 0 = N ∧
    (LightMemoryPool.new raw N).isFree 0 = true ∧
    (LightMemoryPool.new raw N).memCheck = some true ∧
    (LightMemoryPool.new raw N).totFree = some N ∧
    (LightMemoryPool.new raw N).totAllocated = some 0 ∧
    (LightMemoryPool.new raw N).largestFree = some N := by
  have hseg := Seg_new raw N hN
  have hseg' : Seg (LightMemoryPool.new raw N) 0
      [{ off := 0, size := N, allocated := false }] (LightMemoryPool.new raw N).m_poolSize :=
    hseg
  obtain ⟨_, g2, g3, _, _⟩ := hseg
  refine ⟨rfl, layout_of_Seg hseg', g2.symm, ?_, memCheck_of_Seg hseg', ?_, ?_, ?_⟩
  · simpa using g3
  · rw [totFree_of_Seg hseg']; simp [freeSizes]
  · rw [totAllocated_of_Seg hseg']; simp [allocSizes]
  · rw [largestFree_of_Seg hseg']; simp [freeSizes]

/-- Witness of C5: capacity 100 over a zeroed buffer. -/
theorem new_single_free_block_witness :
    100 ≤ 32767 ∧
    (LightMemoryPool.new (fun _ => 0) 100).m_poolSize = 100 + 2 ∧
    (LightMemoryPool.new (fun _ => 0) 100).layout =
      some [{ off := 0, size := 100, allocated := false }] ∧
    (LightMemoryPool.new (fun _ => 0) 100).getSize 0 = 100 ∧
    (LightMemoryPool.new (fun _ => 0) 100).isFree 0 = true ∧
    (LightMemoryPool.new (fun _ => 0) 100).memCheck = some true ∧
    (LightMemoryPool.new (fun _ => 0) 100).totFree = some 100 ∧
    (LightMemoryPool.new (fun _ => 0) 100).totAllocated = some 0 ∧
    (LightMemoryPool.new (fun _ => 0) 100).largestFree = some 100 :=
  ⟨by decide, new_single_free_block 100 (fun _ => 0) (by decide)⟩

/-- C6 (accounting invariant): in every state reached from the construction with capacity
`N`, `0 ≤ N ≤ 32767`, by `alloc` calls with sizes between 1 and 32767,
`totFree() + totAllocated() + 2 * blockCount = N + 2`, where `blockCount` is the number of
headers the scan from offset 0 visits; consequently `totFree() + totAllocated() ≤ N`. -/
theorem accounting_invariant (N : Nat) (raw : Nat → Nat) (sizes : List Nat) (hN : N ≤ 32767)
    (_hs : ∀ s ∈ sizes, 1 ≤ s ∧ s ≤ 32767) :
    ∃ p f a c, runAllocs (LightMemoryPool.new raw N) sizes = some p ∧
      p.totFree = some f ∧ p.totAllocated = some a ∧ p.blockCount = some c ∧
      f + a + 2 * c = N + 2 ∧ f + a ≤ N := by
  obtain ⟨p, l, h1, h2, h3⟩ := runAllocs_new raw N hN sizes
  have hsp := Seg_span l 0 _ h3
  have hsum := span_eq_sums l
  have hlen : 0 < l.length := by
    cases l with
    | nil =>
      have : 0 = p.m_poolSize := h3
      omega
    | cons x t => simp
  exact ⟨p, _, _, _, h1, totFree_of_Seg h3, totAllocated_of_Seg h3, blockCount_of_Seg h3,
    by omega, by omega⟩

/-- Witness of C6: capacity 100 and the calls `alloc(30)`, `alloc(20)`, `alloc(40)`. -/
theorem accounting_invariant_witness :
    (100 ≤ 32767 ∧ ∀ s ∈ [30, 20, 40], 1 ≤ s ∧ s ≤ 32767) ∧
    ∃ p f a c, runAllocs (LightMemoryPool.new (fun _ => 0) 100) [30, 20, 40] = some p ∧
      p.totFree = some f ∧ p.totAllocated = some a ∧ p.blockCount = some c ∧
      f + a + 2 * c = 100 + 2 ∧ f + a ≤ 100 :=
  ⟨⟨by decide, by decide⟩,
    accounting_invariant 100 (fun _ => 0) [30, 20, 40] (by decide) (by decide)⟩

/-! ## The scenario with capacity 100 -/

theorem scenario_states (raw : Nat → Nat) :
    ∃ p1 p2 p3 p4,
      (LightMemoryPool.new raw 100).alloc 30 = some (some 2, p1) ∧
      p1.alloc 20 = some (some 34, p2) ∧
      p2.alloc 40 = some (some 56, p3) ∧
      p3.alloc 10 = some (none, p4) ∧
      Seg p1 0 [{ off := 0, size := 30, allocated := true },
        { off := 32, size := 68, allocated := false }] p1.m_poolSize ∧
      Seg p2 0 [{ off := 0, size := 30, allocated := true },
        { off := 32, size := 20, allocated := true },
        { off := 54, size := 46, allocated := false }] p2.m_poolSize ∧
      Seg p3 0 [{ off := 0, size := 30, allocated := true },
        { off := 32, size := 20, allocated := true },
        { off := 54, size := 40, allocated := true },
        { off := 96, size := 4, allocated := false }] p3.m_poolSize ∧
      Seg p4 0 [{ off := 0, size := 30, allocated := true },
        { off := 32, size := 20, allocated := true },
        { off := 54, size := 40, allocated := true },
        { off := 96, size := 4, allocated := false }] p4.m_poolSize := by
  have hseg0 : Seg (LightMemoryPool.new raw 100) 0
      [{ off := 0, size := 100, allocated := false }]
      (LightMemoryPool.new raw 100).m_poolSize := Seg_new raw 100 (by decide)
  have hE0 : (LightMemoryPool.new raw 100).m_poolSize = 102 := rfl
  have s1 : AllocStep 30 [{ off := 0, size := 100, allocated := false }] (some 2)
      [{ off := 0, size := 30, allocated := true },
        { off := 32, size := 68, allocated := false }] :=
    AllocStep.split { off := 0, size := 100, allocated := false } [] rfl (by decide)
  obtain ⟨p1, e1, m1, g1, _⟩ := alloc_of_Seg hseg0 (by omega) s1
  have s2 : AllocStep 20 [{ off := 0, size := 30, allocated := true },
        { off := 32, size := 68, allocated := false }] (some 34)
      [{ off := 0, size := 30, allocated := true },
        { off := 32, size := 20, allocated := true },
        { off := 54, size := 46, allocated := false }] :=
    AllocStep.skip _ _ _ _ rfl
      (AllocStep.split { off := 32, size := 68, allocated := false } [] rfl (by decide))
  obtain ⟨p2, e2, m2, g2, _⟩ := alloc_of_Seg g1 (by omega) s2
  have s3 : AllocStep 40 [{ off := 0, size := 30, allocated := true },
        { off := 32, size := 20, allocated := true },
        { off := 54, size := 46, allocated := false }] (some 56)
      [{ off := 0, size := 30, allocated := true },
        { off := 32, size := 20, allocated := true },
        { off := 54, size := 40, allocated := true },
        { off := 96, size := 4, allocated := false }] :=
    AllocStep.skip _ _ _ _ rfl (AllocStep.skip _ _ _ _ rfl
      (AllocStep.split { off := 54, size := 46, allocated := false } [] rfl (by decide)))
  obtain ⟨p3, e3, m3, g3, _⟩ := alloc_of_Seg g2 (by omega) s3
  have s4 : AllocStep 10 [{ off := 0, size := 30, allocated := true },
        { off := 32, size := 20, allocated := true },
        { off := 54, size := 40, allocated := true },
        { off := 96, size := 4, allocated := false }] none
      [{ off := 0, size := 30, allocated := true },
        { off := 32, size := 20, allocated := true },
        { off := 54, size := 40, allocated := true },
        { off := 96, size := 4, allocated := false }] :=
    AllocStep.skip _ _ _ _ rfl (AllocStep.skip _ _ _ _ rfl (AllocStep.skip _ _ _ _ rfl
      (AllocStep.next { off := 96, size := 4, allocated := false } [] none [] rfl (by decide)
        (by simp) AllocStep.done)))
  obtain ⟨p4, e4, m4, g4, _⟩ := alloc_of_Seg g3 (by omega) s4
  exact ⟨p1, p2, p3, p4, e1, e2, e3, e4, g1, g2, g3, g4⟩

/-- C7, as the code behaves (the third total is 90, not 92): on a pool constructed with
capacity 100, whatever the content of the fresh buffer, `alloc(30)`, then `alloc(20)`, then
`alloc(40)` each return a non-null pointer, and `totAllocated()` read after each of the three
calls is 30, then 50, then 90. -/
theorem scenario_totAllocated (raw : Nat → Nat) :
    ∃ q1 p1 q2 p2 q3 p3,
      (LightMemoryPool.new raw 100).alloc 30 = some (some q1, p1) ∧
      p1.totAllocated = some 30 ∧
      p1.alloc 20 = some (some q2, p2) ∧ p2.totAllocated = some 50 ∧
      p2.alloc 40 = some (some q3, p3) ∧ p3.totAllocated = some 90 := by
  obtain ⟨p1, p2, p3, _, e1, e2, e3, _, g1, g2, g3, _⟩ := scenario_states raw
  refine ⟨2, p1, 34, p2, 56, p3, e1, ?_, e2, ?_, e3, ?_⟩
  · rw [totAllocated_of_Seg g1]; rfl
  · rw [totAllocated_of_Seg g2]; rfl
  · rw [totAllocated_of_Seg g3]; rfl

/-- C7 as stated fails on the pool of capacity 100 built over a zeroed buffer: the totals
after the three calls are not 30, 50 and 92. -/
theorem scenario_totAllocated_counterexample :
    ¬ ((runAllocs (LightMemoryPool.new (fun _ => 0) 100) [30]).bind
          LightMemoryPool.totAllocated = some 30 ∧
       (runAllocs (LightMemoryPool.new (fun _ => 0) 100) [30, 20]).bind
          LightMemoryPool.totAllocated = some 50 ∧
       (runAllocs (LightMemoryPool.new (fun _ => 0) 100) [30, 20, 40]).bind
          LightMemoryPool.totAllocated = some 92) := by
  decide

/-- C8 (scenario, exhaustion): on a pool constructed with capacity 100, whatever the
content of the fresh buffer, after `alloc(30)`, `alloc(20)` and `alloc(40)` in that order a
further `alloc(10)` returns `nullptr`, and `memCheck()` then answers true. -/
theorem scenario_exhaustion (raw : Nat → Nat) :
    ∃ p3 p4, runAllocs (LightMemoryPool.new raw 100) [30, 20, 40] = some p3 ∧
      p3.alloc 10 = some (none, p4) ∧ p4.memCheck = some true := by
  obtain ⟨p1, p2, p3, p4, e1, e2, e3, e4, _, _, _, g4⟩ := scenario_states raw
  refine ⟨p3, p4, ?_, e4, memCheck_of_Seg g4⟩
  rw [runAllocs_cons _ e1, runAllocs_cons _ e2, runAllocs_cons _ e3]
  rfl

/-! ## Requests no block can hold -/

theorem allocLoop_noop (size : Nat) : ∀ (l : List Hdr) (p : LightMemoryPool) (a fuel : Nat),
    Seg p a l p.m_poolSize → (∀ h ∈ l, h.size < size) → noAdjacentFree l = true →
    l.length < fuel → LightMemoryPool.allocLoop size fuel p a = some (none, p) := by
  intro l
  induction l with
  | nil =>
    intro p a fuel hseg _ _ hf
    obtain ⟨n, rfl⟩ : ∃ n, fuel = n + 1 := ⟨fuel - 1, by omega⟩
    have ha : a = p.m_poolSize := hseg
    exact allocLoop_exit size n p a (by omega)
  | cons h t ih =>
    intro p a fuel hseg hsz hadj hf
    obtain ⟨n, rfl⟩ : ∃ n, fuel = n + 1 := ⟨fuel - 1, by omega⟩
    obtain ⟨h1, h2, h3, h4, h5⟩ := hseg
    have hlt : a < p.m_poolSize := by omega
    have hadj' : noAdjacentFree t = true := by
      cases t with
      | nil => rfl
      | cons x t2 =>
        simp only [noAdjacentFree, Bool.and_eq_true] at hadj
        exact hadj.2
    have hrec := ih p (a + 2 + h.size) n h5
      (fun x hx => hsz x (List.mem_cons_of_mem _ hx)) hadj' (by simpa using hf)
    have hhs := hsz h (List.mem_cons_self _ _)
    have e : a + (p.getSize a + 2) = a + 2 + h.size := by omega
    cases hal : h.allocated with
    | true =>
      have hfree : p.isFree a = false := by rw [hal] at h3; simpa using h3
      rw [allocLoop_allocated size n p a hlt hfree, e]
      exact hrec
    | false =>
      have hfree : p.isFree a = true := by rw [hal] at h3; simpa using h3
      have hno : ¬ (a + 2 + p.getSize a < p.m_poolSize ∧
          p.isFree (a + 2 + p.getSize a) = true) := by
        rintro ⟨c1, c2⟩
        rw [← h2] at c1 c2
        cases t with
        | nil =>
          have : a + 2 + h.size = p.m_poolSize := h5
          omega
        | cons x t2 =>
          simp only [noAdjacentFree, Bool.and_eq_true, Bool.or_eq_true, hal] at hadj
          obtain ⟨_, _, q3, _, _⟩ := h5
          rw [c2] at q3
          rcases hadj.1 with hc | hc
          · simp at hc
          · rw [hc] at q3; simp at q3
      rw [allocLoop_next size n p a hlt hfree (by omega) hno, e]
      exact hrec

theorem AllocStep_oversize {size : Nat} {l : List Hdr} {r : Option Nat} {l' : List Hdr}
    (hs : AllocStep size l r l') : span l < size + 2 → r = none := by
  induction hs with
  | done => intro _; rfl
  | skip h t r t' _ _ ih =>
    intro hh
    apply ih
    simp only [span, List.map_cons, List.sum_cons] at hh ⊢
    omega
  | fit h t _ hsz =>
    intro hh
    simp only [span, List.map_cons, List.sum_cons] at hh
    omega
  | split h t _ hsz =>
    intro hh
    simp only [span, List.map_cons, List.sum_cons] at hh
    omega
  | whole h t _ hsz _ =>
    intro hh
    simp only [span, List.map_cons, List.sum_cons] at hh
    omega
  | merge h n t r l' _ _ _ _ ih =>
    intro hh
    apply ih
    simp only [span, List.map_cons, List.sum_cons] at hh ⊢
    omega
  | next h t r t' _ _ _ _ ih =>
    intro hh
    apply ih
    simp only [span, List.map_cons, List.sum_cons] at hh ⊢
    omega

/-- C9 as stated fails on the well-formed six-byte pool with two adjacent free blocks:
`alloc(40000)` does not leave every byte unchanged (it merges the two blocks, which
rewrites the byte at offset 0 from 0 to 4). -/
theorem alloc_oversize_counterexample :
    WellFormed twoFreePool ∧ 32767 < 40000 ∧
    ¬ ∃ p', twoFreePool.alloc 40000 = some (none, p') ∧
      ∀ i, p'.m_mem i = twoFreePool.m_mem i := by
  refine ⟨⟨by decide, by decide, by decide⟩, by decide, ?_⟩
  rintro ⟨p', h1, h2⟩
  have h3 : (twoFreePool.alloc 40000).map (fun x => x.2.m_mem 0) = some 4 := by decide
  rw [h1] at h3
  simp only [Option.map_some', Option.some.injEq] at h3
  have h4 := h2 0
  rw [h3] at h4
  exact absurd h4 (by decide)

/-! ## Allocation from the first free block -/

theorem allocLoop_skip_allocated (size : Nat) : ∀ (pre : List Hdr) (p : LightMemoryPool)
    (a b fuel : Nat), Seg p a pre b → b ≤ p.m_poolSize → (∀ h ∈ pre, h.allocated = true) →
    LightMemoryPool.allocLoop size (pre.length + fuel) p a =
      LightMemoryPool.allocLoop size fuel p b := by
  intro pre
  induction pre with
  | nil =>
    intro p a b fuel hseg _ _
    have : a = b := hseg
    simp [this]
  | cons h t ih =>
    intro p a b fuel hseg hb hal
    obtain ⟨_, h2, h3, h4, h5⟩ := hseg
    have hfree : p.isFree a = false := by
      rw [hal h (List.mem_cons_self _ _)] at h3; simpa using h3
    rw [show (h :: t).length + fuel = (t.length + fuel) + 1 by simp; omega,
      allocLoop_allocated size _ p a (by omega) hfree,
      show a + (p.getSize a + 2) = a + 2 + h.size by omega]
    exact ih p _ b fuel h5 hb (fun x hx => hal x (List.mem_cons_of_mem _ hx))

theorem AllocStep_skip_all {size : Nat} {t : List Hdr} {r : Option Nat} {t' : List Hdr}
    (hs : AllocStep size t r t') : ∀ (pre : List Hdr), (∀ h ∈ pre, h.allocated = true) →
    AllocStep size (pre ++ t) r (pre ++ t') := by
  intro pre
  induction pre with
  | nil => intro _; exact hs
  | cons h u ih =>
    intro hal
    exact AllocStep.skip h _ r _ (hal h (List.mem_cons_self _ _))
      (ih (fun x hx => hal x (List.mem_cons_of_mem _ hx)))

theorem Seg_of_layout {p : LightMemoryPool} {l : List Hdr} (hwf : WellFormed p)
    (hl : p.layout = some l) : Seg p 0 l p.m_poolSize := by
  obtain ⟨l0, hseg⟩ := Seg_of_wellFormed hwf
  have := layout_of_Seg hseg
  rw [hl] at this
  simp only [Option.some.injEq] at this
  rw [this]
  exact hseg

/-- C10 (split correctness): on a well-formed pool in which all blocks before offset `pos`
are allocated and the block at `pos` is free with size `S`, for `1 ≤ size` and
`S - size - 2 > 0`, `alloc(size)` returns `m_mem + pos + 2`; afterwards the header at `pos`
records `(size, allocated)`, the header at `pos + 2 + size` records `(S - size - 2, free)`,
the block count has grown by exactly one, and every other header is unchanged (the chain is
the old one with the block at `pos` replaced by the two new blocks, and only the four bytes
of the two headers are written). -/
theorem alloc_split (p : LightMemoryPool) (size S pos : Nat) (pre post : List Hdr)
    (hwf : WellFormed p)
    (hl : p.layout = some (pre ++ { off := pos, size := S, allocated := false } :: post))
    (hpre : ∀ h ∈ pre, h.allocated = true)
    (_h1 : 1 ≤ size) (h2 : (S : Int) - (size : Int) - 2 > 0) :
    ∃ p', p.alloc size = some (some (pos + 2), p') ∧
      p'.layout = some (pre ++ { off := pos, size := size, allocated := true } ::
        { off := pos + 2 + size, size := S - size - 2, allocated := false } :: post) ∧
      p'.getSize pos = size ∧ p'.isFree pos = false ∧
      p'.getSize (pos + 2 + size) = S - size - 2 ∧ p'.isFree (pos + 2 + size) = true ∧
      (∃ c, p.blockCount = some c ∧ p'.blockCount = some (c + 1)) ∧
      (∀ h ∈ pre ++ post, p'.getSize h.off = p.getSize h.off ∧
        p'.isFree h.off = p.isFree h.off) ∧
      (∀ i, i ≠ pos → i ≠ pos + 1 → i ≠ pos + 2 + size → i ≠ pos + 3 + size →
        p'.m_mem i = p.m_mem i) := by
  have hseg := Seg_of_layout hwf hl
  have hE := hwf.2.1
  obtain ⟨sa, sb⟩ := (Seg_append pre _ 0 _).mp hseg
  obtain ⟨b1, b2, b3, b4, b5⟩ := sb
  simp only at b1 b2 b3 b4 b5
  have hlenpre := Seg_length sa
  have hs : AllocStep size (pre ++ { off := pos, size := S, allocated := false } :: post)
      (some (pos + 2))
      (pre ++ { off := pos, size := size, allocated := true } ::
        { off := pos + 2 + size, size := S - size - 2, allocated := false } :: post) :=
    AllocStep_skip_all
      (AllocStep.split { off := pos, size := S, allocated := false } post rfl
        (by show size + 2 < S; omega))
      pre hpre
  obtain ⟨p', e1, e2, e3, _⟩ := alloc_of_Seg hseg hE hs
  have hfree : p.isFree pos = true := by rw [b1]; simpa using b3
  have hexp : p.alloc size = some (some (pos + 2),
      (p.mark (pos + 2 + size) (toInt16 ((p.getSize pos : Int) - (size : Int) - 2))
        false).mark pos (toInt16 size) true) := by
    unfold LightMemoryPool.alloc
    obtain ⟨n, hn⟩ : ∃ n, p.m_poolSize + 1 = pre.length + (n + 1) :=
      ⟨p.m_poolSize - pre.length, by omega⟩
    rw [hn, allocLoop_skip_allocated size pre p 0 (0 + span pre) (n + 1) sa (by omega) hpre,
      ← b1]
    exact allocLoop_split size n p pos (by omega) hfree (by rw [b1, ← b2]; omega)
  have hp' : p' = (p.mark (pos + 2 + size)
      (toInt16 ((p.getSize pos : Int) - (size : Int) - 2)) false).mark pos
      (toInt16 size) true := by
    rw [hexp] at e1
    simp only [Option.some.injEq, Prod.mk.injEq, true_and] at e1
    exact e1.symm
  have hframe : ∀ i, i ≠ pos → i ≠ pos + 1 → i ≠ pos + 2 + size → i ≠ pos + 3 + size →
      p'.m_mem i = p.m_mem i := by
    intro i i1 i2 i3 i4
    rw [hp', mark_m_mem_of_ne _ pos _ _ i i1 i2,
      mark_m_mem_of_ne p _ _ _ i i3 (by omega)]
  have hm1 := Seg_mem _ _ _ e3 { off := pos, size := size, allocated := true } (by simp)
  have hm2 := Seg_mem _ _ _ e3
    { off := pos + 2 + size, size := S - size - 2, allocated := false } (by simp)
  simp only at hm1 hm2
  refine ⟨p', e1, layout_of_Seg e3, hm1.1.symm, ?_, hm2.1.symm, ?_, ?_, ?_, hframe⟩
  · have := hm1.2.1; simpa using this.symm
  · have := hm2.2.1; simpa using this.symm
  · exact ⟨_, blockCount_of_Seg hseg, by rw [blockCount_of_Seg e3]; simp; omega⟩
  · intro h hh
    have hmem : h.off + 2 + h.size ≤ pos ∨ pos + 2 + S ≤ h.off := by
      rcases List.mem_append.mp hh with hh | hh
      · left
        have := (Seg_mem pre _ _ sa h hh).2.2.2
        omega
      · right
        have := (Seg_mem post _ _ b5 h hh).2.2.1
        omega
    constructor
    · apply getSize_congr <;> apply hframe <;> omega
    · apply isFree_congr; apply hframe <;> omega

/-- Witness of C10: the pool of capacity 100 over a zeroed buffer after `alloc(30)`, whose
chain is an allocated block of size 30 followed by a free block of size 68 at offset 32,
and the request `alloc(20)`. -/
theorem alloc_split_witness :
    (WellFormed scenarioPool1 ∧
      scenarioPool1.layout = some ([{ off := 0, size := 30, allocated := true }] ++
        { off := 32, size := 68, allocated := false } :: []) ∧
      (∀ h ∈ [({ off := 0, size := 30, allocated := true } : Hdr)], h.allocated = true) ∧
      1 ≤ 20 ∧ ((68 : Nat) : Int) - ((20 : Nat) : Int) - 2 > 0) ∧
    ∃ p', scenarioPool1.alloc 20 = some (some (32 + 2), p') ∧
      p'.layout = some ([{ off := 0, size := 30, allocated := true }] ++
        { off := 32, size := 20, allocated := true } ::
        { off := 32 + 2 + 20, size := 68 - 20 - 2, allocated := false } :: []) ∧
      p'.getSize 32 = 20 ∧ p'.isFree 32 = false ∧
      p'.getSize (32 + 2 + 20) = 68 - 20 - 2 ∧ p'.isFree (32 + 2 + 20) = true ∧
      (∃ c, scenarioPool1.blockCount = some c ∧ p'.blockCount = some (c + 1)) ∧
      (∀ h ∈ [({ off := 0, size := 30, allocated := true } : Hdr)] ++ [],
        p'.getSize h.off = scenarioPool1.getSize h.off ∧
        p'.isFree h.off = scenarioPool1.isFree h.off) ∧
      (∀ i, i ≠ 32 → i ≠ 32 + 1 → i ≠ 32 + 2 + 20 → i ≠ 32 + 3 + 20 →
        p'.m_mem i = scenarioPool1.m_mem i) :=
  ⟨⟨⟨by decide, by decide, by decide⟩, by decide, by decide, by decide, by decide⟩,
    alloc_split scenarioPool1 20 68 32 [{ off := 0, size := 30, allocated := true }] []
      ⟨by decide, by decide, by decide⟩ (by decide) (by decide) (by decide) (by decide)⟩

/-! ## Whole-block and exact-fit allocation, coalescing -/

theorem alloc_eq_allocLoop_at (p : LightMemoryPool) (size : Nat) (pre rest : List Hdr)
    (hseg : Seg p 0 (pre ++ rest) p.m_poolSize) (hpre : ∀ h ∈ pre, h.allocated = true) :
    ∃ n, rest.length ≤ n ∧
      p.alloc size = LightMemoryPool.allocLoop size (n + 1) p (span pre) ∧
      Seg p 0 pre (span pre) ∧ Seg p (span pre) rest p.m_poolSize := by
  obtain ⟨sa, sb⟩ := (Seg_append pre rest 0 _).mp hseg
  rw [Nat.zero_add] at sa sb
  have hlen := Seg_length hseg
  have hb := Seg_length sb
  rw [List.length_append] at hlen
  refine ⟨p.m_poolSize - pre.length, by omega, ?_, sa, sb⟩
  unfold LightMemoryPool.alloc
  rw [show p.m_poolSize + 1 = pre.length + (p.m_poolSize - pre.length + 1) by omega]
  exact allocLoop_skip_allocated size pre p 0 (span pre) _ sa (by omega) hpre

theorem byteAt_mark_of_ne (p : LightMemoryPool) (pos : Nat) (s : Int) (a : Bool) (i : Nat)
    (h1 : i ≠ pos) (h2 : i ≠ pos + 1) : (p.mark pos s a).byteAt i = p.byteAt i := by
  unfold LightMemoryPool.byteAt
  rw [mark_m_mem_of_ne p pos s a i h1 h2]

theorem byteAt_mark_low (p : LightMemoryPool) (pos : Nat) (s : Int) (a : Bool) :
    (p.mark pos s a).byteAt pos = (s % 256).toNat := by
  simp only [LightMemoryPool.byteAt, LightMemoryPool.mark, LightMemoryPool.store]
  have e1 : ¬ (pos = pos + 1) := by omega
  simp only [e1, if_false, if_true]
  omega

theorem byteAt_mark_high (p : LightMemoryPool) (pos : Nat) (s : Int) (a : Bool) :
    (p.mark pos s a).byteAt (pos + 1) =
      ((s / 256) % 128).toNat + (if a then 128 else 0) := by
  simp only [LightMemoryPool.byteAt, LightMemoryPool.mark, LightMemoryPool.store]
  cases a <;> simp <;> omega

theorem byteAt_mark_same_size (p : LightMemoryPool) (pos : Nat) (a : Bool) :
    (p.mark pos (toInt16 (p.getSize pos)) a).byteAt pos = p.byteAt pos ∧
    (p.mark pos (toInt16 (p.getSize pos)) a).byteAt (pos + 1) =
      p.byteAt (pos + 1) % 128 + (if a then 128 else 0) := by
  have hb := getSize_lt p pos
  rw [toInt16_of_range _ (by omega) (by omega), byteAt_mark_low, byteAt_mark_high]
  unfold LightMemoryPool.getSize
  have h1 : p.byteAt pos < 256 := by unfold LightMemoryPool.byteAt; omega
  constructor
  · omega
  · cases a <;> simp <;> omega

/-- C11 (unsplittable remainder): on a well-formed pool in which all blocks before offset
`pos` are allocated and the block at `pos` is free with size `S`, for `1 ≤ size < S` with
`S - size - 2 ≤ 0`, `alloc(size)` returns `m_mem + pos + 2`; afterwards the header at `pos`
records `(S, allocated)`, not `size`; no new header is written (the chain is the old one
with that block marked allocated, and the only byte whose value changes is the flag byte
at `pos + 1`), and the block count is unchanged. -/
theorem alloc_whole_block (p : LightMemoryPool) (size S pos : Nat) (pre post : List Hdr)
    (hwf : WellFormed p)
    (hl : p.layout = some (pre ++ { off := pos, size := S, allocated := false } :: post))
    (hpre : ∀ h ∈ pre, h.allocated = true)
    (_h1 : 1 ≤ size) (h2 : size < S) (h3 : (S : Int) - (size : Int) - 2 ≤ 0) :
    ∃ p', p.alloc size = some (some (pos + 2), p') ∧
      p'.layout = some (pre ++ { off := pos, size := S, allocated := true } :: post) ∧
      p'.getSize pos = S ∧ p'.isFree pos = false ∧
      (∃ c, p.blockCount = some c ∧ p'.blockCount = some c) ∧
      (∀ i, i ≠ pos → i ≠ pos + 1 → p'.m_mem i = p.m_mem i) ∧
      (∀ i, i ≠ pos + 1 → p'.byteAt i = p.byteAt i) ∧
      p'.byteAt (pos + 1) = p.byteAt (pos + 1) + 128 := by
  have hseg := Seg_of_layout hwf hl
  have hE := hwf.2.1
  obtain ⟨n, _, hal, _, sb⟩ := alloc_eq_allocLoop_at p size pre _ hseg hpre
  obtain ⟨b1, b2, b3, b4, b5⟩ := sb
  simp only at b1 b2 b3 b4 b5
  have hfree : p.isFree pos = true := by rw [b1]; simpa using b3
  have hs : AllocStep size (pre ++ { off := pos, size := S, allocated := false } :: post)
      (some (pos + 2)) (pre ++ { off := pos, size := S, allocated := true } :: post) :=
    AllocStep_skip_all
      (AllocStep.whole { off := pos, size := S, allocated := false } post rfl
        (by show size < S; omega) (by show S ≤ size + 2; omega))
      pre hpre
  obtain ⟨p', e1, e2, e3, _⟩ := alloc_of_Seg hseg hE hs
  have hexp : p.alloc size = some (some (pos + 2),
      p.mark pos (toInt16 (p.getSize pos)) true) := by
    rw [hal, ← b1]
    exact allocLoop_whole size n p pos (by omega) hfree (by rw [b1, ← b2]; omega)
      (by rw [b1, ← b2]; omega)
  have hp' : p' = p.mark pos (toInt16 (p.getSize pos)) true := by
    rw [hexp] at e1
    simp only [Option.some.injEq, Prod.mk.injEq, true_and] at e1
    exact e1.symm
  have hm1 := Seg_mem _ _ _ e3 { off := pos, size := S, allocated := true } (by simp)
  simp only at hm1
  have hsame := byteAt_mark_same_size p pos true
  rw [← hp'] at hsame
  have hfb : p.byteAt (pos + 1) % 128 = p.byteAt (pos + 1) := by
    have := hfree
    unfold LightMemoryPool.isFree at this
    have hlt : p.byteAt (pos + 1) < 256 := by unfold LightMemoryPool.byteAt; omega
    simp only [decide_eq_true_eq] at this
    omega
  refine ⟨p', e1, layout_of_Seg e3, hm1.1.symm, ?_, ?_, ?_, ?_, ?_⟩
  · have := hm1.2.1; simpa using this.symm
  · exact ⟨_, blockCount_of_Seg hseg, by rw [blockCount_of_Seg e3]; simp⟩
  · intro i i1 i2
    rw [hp']
    exact mark_m_mem_of_ne p pos _ _ i i1 i2
  · intro i i2
    by_cases i1 : i = pos
    · rw [i1]; exact hsame.1
    · rw [hp']; exact byteAt_mark_of_ne p pos _ _ i i1 i2
  · rw [hsame.2, hfb]; rfl

/-- Witness of C11: the pool of capacity 100 over a zeroed buffer after `alloc(30)` (free
block of size 68 at offset 32) and the request `alloc(66)`. -/
theorem alloc_whole_block_witness :
    (WellFormed scenarioPool1 ∧
      scenarioPool1.layout = some ([{ off := 0, size := 30, allocated := true }] ++
        { off := 32, size := 68, allocated := false } :: []) ∧
      (∀ h ∈ [({ off := 0, size := 30, allocated := true } : Hdr)], h.allocated = true) ∧
      1 ≤ 66 ∧ 66 < 68 ∧ ((68 : Nat) : Int) - ((66 : Nat) : Int) - 2 ≤ 0) ∧
    ∃ p', scenarioPool1.alloc 66 = some (some (32 + 2), p') ∧
      p'.layout = some ([{ off := 0, size := 30, allocated := true }] ++
        { off := 32, size := 68, allocated := true } :: []) ∧
      p'.getSize 32 = 68 ∧ p'.isFree 32 = false ∧
      (∃ c, scenarioPool1.blockCount = some c ∧ p'.blockCount = some c) ∧
      (∀ i, i ≠ 32 → i ≠ 32 + 1 → p'.m_mem i = scenarioPool1.m_mem i) ∧
      (∀ i, i ≠ 32 + 1 → p'.byteAt i = scenarioPool1.byteAt i) ∧
      p'.byteAt (32 + 1) = scenarioPool1.byteAt (32 + 1) + 128 :=
  ⟨⟨⟨by decide, by decide, by decide⟩, by decide, by decide, by decide, by decide,
      by decide⟩,
    alloc_whole_block scenarioPool1 66 68 32 [{ off := 0, size := 30, allocated := true }] []
      ⟨by decide, by decide, by decide⟩ (by decide) (by decide) (by decide) (by decide)
      (by decide)⟩

/-- C12 (exact-fit reuse): on a well-formed pool in which all blocks before offset `pos` are
allocated and the block at `pos` is free with size exactly the requested `size ≥ 1`,
`alloc(size)` returns `m_mem + pos + 2`, changes only the allocated bit of the header at
`pos` (every byte reads as before except the byte at `pos + 1`, which gains bit 7; the
recorded size stays `size`), and leaves the block count unchanged. -/
theorem alloc_exact_fit (p : LightMemoryPool) (size pos : Nat) (pre post : List Hdr)
    (hwf : WellFormed p)
    (hl : p.layout = some (pre ++ { off := pos, size := size, allocated := false } :: post))
    (hpre : ∀ h ∈ pre, h.allocated = true) (_h1 : 1 ≤ size) :
    ∃ p', p.alloc size = some (some (pos + 2), p') ∧
      p'.layout = some (pre ++ { off := pos, size := size, allocated := true } :: post) ∧
      p'.getSize pos = size ∧ p'.isFree pos = false ∧
      (∃ c, p.blockCount = some c ∧ p'.blockCount = some c) ∧
      (∀ i, i ≠ pos → i ≠ pos + 1 → p'.m_mem i = p.m_mem i) ∧
      (∀ i, i ≠ pos + 1 → p'.byteAt i = p.byteAt i) ∧
      p'.byteAt (pos + 1) = p.byteAt (pos + 1) + 128 := by
  have hseg := Seg_of_layout hwf hl
  have hE := hwf.2.1
  obtain ⟨n, _, hal, _, sb⟩ := alloc_eq_allocLoop_at p size pre _ hseg hpre
  obtain ⟨b1, b2, b3, b4, b5⟩ := sb
  simp only at b1 b2 b3 b4 b5
  have hfree : p.isFree pos = true := by rw [b1]; simpa using b3
  have hgs : p.getSize pos = size := by rw [b1]; exact b2.symm
  have hs : AllocStep size (pre ++ { off := pos, size := size, allocated := false } :: post)
      (some (pos + 2)) (pre ++ { off := pos, size := size, allocated := true } :: post) :=
    AllocStep_skip_all
      (AllocStep.fit { off := pos, size := size, allocated := false } post rfl rfl)
      pre hpre
  obtain ⟨p', e1, e2, e3, _⟩ := alloc_of_Seg hseg hE hs
  have hexp : p.alloc size = some (some (pos + 2),
      p.mark pos (toInt16 (p.getSize pos)) true) := by
    rw [hal, ← b1, hgs]
    exact allocLoop_fit size n p pos (by omega) hfree hgs
  have hp' : p' = p.mark pos (toInt16 (p.getSize pos)) true := by
    rw [hexp] at e1
    simp only [Option.some.injEq, Prod.mk.injEq, true_and] at e1
    exact e1.symm
  have hm1 := Seg_mem _ _ _ e3 { off := pos, size := size, allocated := true } (by simp)
  simp only at hm1
  have hsame := byteAt_mark_same_size p pos true
  rw [← hp'] at hsame
  have hfb : p.byteAt (pos + 1) % 128 = p.byteAt (pos + 1) := by
    have := hfree
    unfold LightMemoryPool.isFree at this
    have hlt : p.byteAt (pos + 1) < 256 := by unfold LightMemoryPool.byteAt; omega
    simp only [decide_eq_true_eq] at this
    omega
  refine ⟨p', e1, layout_of_Seg e3, hm1.1.symm, ?_, ?_, ?_, ?_, ?_⟩
  · have := hm1.2.1; simpa using this.symm
  · exact ⟨_, blockCount_of_Seg hseg, by rw [blockCount_of_Seg e3]; simp⟩
  · intro i i1 i2
    rw [hp']
    exact mark_m_mem_of_ne p pos _ _ i i1 i2
  · intro i i2
    by_cases i1 : i = pos
    · rw [i1]; exact hsame.1
    · rw [hp']; exact byteAt_mark_of_ne p pos _ _ i i1 i2
  · rw [hsame.2, hfb]; rfl

/-- Witness of C12: the pool of capacity 100 over a zeroed buffer after `alloc(30)` (free
block of size 68 at offset 32) and the request `alloc(68)`. -/
theorem alloc_exact_fit_witness :
    (WellFormed scenarioPool1 ∧
      scenarioPool1.layout = some ([{ off := 0, size := 30, allocated := true }] ++
        { off := 32, size := 68, allocated := false } :: []) ∧
      (∀ h ∈ [({ off := 0, size := 30, allocated := true } : Hdr)], h.allocated = true) ∧
      1 ≤ 68) ∧
    ∃ p', scenarioPool1.alloc 68 = some (some (32 + 2), p') ∧
      p'.layout = some ([{ off := 0, size := 30, allocated := true }] ++
        { off := 32, size := 68, allocated := true } :: []) ∧
      p'.getSize 32 = 68 ∧ p'.isFree 32 = false ∧
      (∃ c, scenarioPool1.blockCount = some c ∧ p'.blockCount = some c) ∧
      (∀ i, i ≠ 32 → i ≠ 32 + 1 → p'.m_mem i = scenarioPool1.m_mem i) ∧
      (∀ i, i ≠ 32 + 1 → p'.byteAt i = scenarioPool1.byteAt i) ∧
      p'.byteAt (32 + 1) = scenarioPool1.byteAt (32 + 1) + 128 :=
  ⟨⟨⟨by decide, by decide, by decide⟩, by decide, by decide, by decide⟩,
    alloc_exact_fit scenarioPool1 68 32 [{ off := 0, size := 30, allocated := true }] []
      ⟨by decide, by decide, by decide⟩ (by decide) (by decide) (by decide)⟩

/-- The blocks carved out of a free block of size `m` at offset `pos` by a request of
`size ≤ m`: the allocated block alone when the remainder `m - size - 2` is not positive,
the allocated block and the free remainder otherwise. -/
theorem AllocStep_carve (size pos m : Nat) (t : List Hdr) (hm : size ≤ m) :
    AllocStep size ({ off := pos, size := m, allocated := false } :: t) (some (pos + 2))
      (if size + 2 < m then
        { off := pos, size := size, allocated := true } ::
          { off := pos + 2 + size, size := m - size - 2, allocated := false } :: t
       else { off := pos, size := m, allocated := true } :: t) := by
  by_cases c1 : size + 2 < m
  · rw [if_pos c1]
    exact AllocStep.split { off := pos, size := m, allocated := false } t rfl c1
  · rw [if_neg c1]
    by_cases c2 : m = size
    · subst c2
      exact AllocStep.fit { off := pos, size := m, allocated := false } t rfl rfl
    · exact AllocStep.whole { off := pos, size := m, allocated := false } t rfl
        (by show size < m; omega) (by show m ≤ size + 2; omega)

/-- C13 (coalescing cascade): on a well-formed pool with two adjacent free blocks of sizes
`a` and `b`, the first at offset `pos` with all blocks before `pos` allocated, and for
`a < size ≤ a + b + 2`, `alloc(size)` succeeds and returns `m_mem + pos + 2`; the block is
carved from the merged free block of size `a + b + 2`: afterwards the header at `pos` is
allocated with a recorded size between `size` and `a + b + 2`, and the former header offset
`pos + 2 + a` is no longer a block boundary. -/
theorem alloc_coalesce (p : LightMemoryPool) (size a b pos : Nat) (pre post : List Hdr)
    (hwf : WellFormed p)
    (hl : p.layout = some (pre ++ { off := pos, size := a, allocated := false } ::
      { off := pos + 2 + a, size := b, allocated := false } :: post))
    (hpre : ∀ h ∈ pre, h.allocated = true) (h1 : a < size) (h2 : size ≤ a + b + 2) :
    ∃ p' l', p.alloc size = some (some (pos + 2), p') ∧ p'.layout = some l' ∧
      l' = pre ++ (if size + 2 < a + b + 2 then
          { off := pos, size := size, allocated := true } ::
            { off := pos + 2 + size, size := a + b + 2 - size - 2, allocated := false } ::
            post
          else { off := pos, size := a + b + 2, allocated := true } :: post) ∧
      p'.memCheck = some true ∧
      p'.isFree pos = false ∧ size ≤ p'.getSize pos ∧ p'.getSize pos ≤ a + b + 2 ∧
      pos ∈ l'.map Hdr.off ∧ (pos + 2 + a) ∉ l'.map Hdr.off := by
  have hseg := Seg_of_layout hwf hl
  have hE := hwf.2.1
  have hs := AllocStep_skip_all
    (AllocStep.merge { off := pos, size := a, allocated := false }
      { off := pos + 2 + a, size := b, allocated := false } post _ _ rfl
      (by show a < size; exact h1) rfl (AllocStep_carve size pos (a + b + 2) post h2))
    pre hpre
  obtain ⟨p', e1, e2, e3, _⟩ := alloc_of_Seg hseg hE hs
  obtain ⟨sa, sb⟩ := (Seg_append pre _ 0 _).mp e3
  have hpreoff : ∀ h ∈ pre, h.off + 2 + h.size ≤ pos := by
    intro h hh
    have h1' := (Seg_mem pre _ _ sa h hh).2.2.2
    obtain ⟨sa0, sb0⟩ := (Seg_append pre _ 0 _).mp hseg
    have : pos = 0 + span pre := sb0.1
    omega
  refine ⟨p', _, e1, layout_of_Seg e3, rfl, memCheck_of_Seg e3, ?_⟩
  by_cases c1 : size + 2 < a + b + 2
  · simp only [if_pos c1] at sb e3 ⊢
    obtain ⟨b1, b2, b3, b4, _, _, _, _, b5⟩ := sb
    simp only at b1 b2 b3 b4 b5
    have hpostoff : ∀ h ∈ post, pos + 2 + size + 2 + (a + b + 2 - size - 2) ≤ h.off := by
      intro h hh
      have := (Seg_mem post _ _ b5 h hh).2.2.1
      omega
    refine ⟨by rw [b1]; simpa using b3.symm, by rw [b1, ← b2], by rw [b1, ← b2]; omega,
      by simp, ?_⟩
    simp only [List.map_append, List.map_cons, List.mem_append, List.mem_cons, List.mem_map,
      not_or, not_exists, not_and]
    refine ⟨fun h hh hc => ?_, by omega, by omega, fun h hh hc => ?_⟩
    · have := hpreoff h hh; omega
    · have := hpostoff h hh; omega
  · simp only [if_neg c1] at sb e3 ⊢
    obtain ⟨b1, b2, b3, b4, b5⟩ := sb
    simp only at b1 b2 b3 b4 b5
    have hpostoff : ∀ h ∈ post, pos + 2 + (a + b + 2) ≤ h.off := by
      intro h hh
      have := (Seg_mem post _ _ b5 h hh).2.2.1
      omega
    refine ⟨by rw [b1]; simpa using b3.symm, by rw [b1, ← b2]; omega, by rw [b1, ← b2],
      by simp, ?_⟩
    simp only [List.map_append, List.map_cons, List.mem_append, List.mem_cons, List.mem_map,
      not_or, not_exists, not_and]
    refine ⟨fun h hh hc => ?_, by omega, fun h hh hc => ?_⟩
    · have := hpreoff h hh; omega
    · have := hpostoff h hh; omega

/-- Witness of C13: the six-byte pool with adjacent free blocks of sizes 0 and 2 at
offsets 0 and 2, and the request `alloc(3)`, served from the merged block of size 4. -/
theorem alloc_coalesce_witness :
    (WellFormed twoFreePool ∧
      twoFreePool.layout = some ([] ++ { off := 0, size := 0, allocated := false } ::
        { off := 0 + 2 + 0, size := 2, allocated := false } :: []) ∧
      (∀ h ∈ ([] : List Hdr), h.allocated = true) ∧ 0 < 3 ∧ 3 ≤ 0 + 2 + 2) ∧
    ∃ p' l', twoFreePool.alloc 3 = some (some (0 + 2), p') ∧ p'.layout = some l' ∧
      l' = [] ++ (if 3 + 2 < 0 + 2 + 2 then
          { off := 0, size := 3, allocated := true } ::
            { off := 0 + 2 + 3, size := 0 + 2 + 2 - 3 - 2, allocated := false } :: []
          else { off := 0, size := 0 + 2 + 2, allocated := true } :: []) ∧
      p'.memCheck = some true ∧
      p'.isFree 0 = false ∧ 3 ≤ p'.getSize 0 ∧ p'.getSize 0 ≤ 0 + 2 + 2 ∧
      0 ∈ l'.map Hdr.off ∧ (0 + 2 + 0) ∉ l'.map Hdr.off :=
  ⟨⟨⟨by decide, by decide, by decide⟩, by decide, by decide, by decide, by decide⟩,
    alloc_coalesce twoFreePool 3 0 2 0 [] [] ⟨by decide, by decide, by decide⟩
      (by decide) (by decide) (by decide) (by decide)⟩

/-! ## Accounting in terms of header bytes -/

/-- C14, as the code behaves: in every state reached from the construction with capacity
`N`, `0 ≤ N ≤ 32767`, by `alloc` calls with sizes between 1 and 32767,
`totFree() + totAllocated()` equals `N + 2` minus the header bytes in use, that is
`N + 2 - 2 * blockCount` (the first header lies outside the capacity `N`, so the sum is `N`
minus the header bytes of all blocks but one). -/
theorem accounting_header_bytes (N : Nat) (raw : Nat → Nat) (sizes : List Nat)
    (hN : N ≤ 32767) (_hs : ∀ s ∈ sizes, 1 ≤ s ∧ s ≤ 32767) :
    ∃ p f a c, runAllocs (LightMemoryPool.new raw N) sizes = some p ∧
      p.totFree = some f ∧ p.totAllocated = some a ∧ p.blockCount = some c ∧
      1 ≤ c ∧ ((f : Int) + (a : Int) = (N : Int) + 2 - 2 * (c : Int)) ∧
      f + a = N - 2 * (c - 1) := by
  obtain ⟨p, l, h1, h2, h3⟩ := runAllocs_new raw N hN sizes
  have hsp := Seg_span l 0 _ h3
  have hsum := span_eq_sums l
  have hlen : 0 < l.length := by
    cases l with
    | nil =>
      have : 0 = p.m_poolSize := h3
      omega
    | cons x t => simp
  exact ⟨p, _, _, _, h1, totFree_of_Seg h3, totAllocated_of_Seg h3, blockCount_of_Seg h3,
    hlen, by omega, by omega⟩

/-- Witness of C14 as amended: capacity 100 and the calls `alloc(30)`, `alloc(20)`,
`alloc(40)`. -/
theorem accounting_header_bytes_witness :
    (100 ≤ 32767 ∧ ∀ s ∈ [30, 20, 40], 1 ≤ s ∧ s ≤ 32767) ∧
    ∃ p f a c, runAllocs (LightMemoryPool.new (fun _ => 0) 100) [30, 20, 40] = some p ∧
      p.totFree = some f ∧ p.totAllocated = some a ∧ p.blockCount = some c ∧
      1 ≤ c ∧ ((f : Int) + (a : Int) = ((100 : Nat) : Int) + 2 - 2 * (c : Int)) ∧
      f + a = 100 - 2 * (c - 1) :=
  ⟨⟨by decide, by decide⟩,
    accounting_header_bytes 100 (fun _ => 0) [30, 20, 40] (by decide) (by decide)⟩

/-- C14 as stated fails on the freshly constructed pool of capacity 100 (no `alloc` call
yet): `totFree() + totAllocated()` is 100 with one block, not `100 - 2 * 1`. -/
theorem accounting_header_bytes_counterexample :
    (LightMemoryPool.new (fun _ => 0) 100).totFree = some 100 ∧
    (LightMemoryPool.new (fun _ => 0) 100).totAllocated = some 0 ∧
    (LightMemoryPool.new (fun _ => 0) 100).blockCount = some 1 ∧
    ((100 : Int) + 0 ≠ 100 - 2 * 1) := by
  decide

/-! ## First fit -/

theorem freeRunsOffAux_snd : ∀ (t : List Hdr) (cur : Option (Nat × Nat)),
    (freeRunsOffAux cur t).map Prod.snd = freeRunsAux (cur.map Prod.snd) t := by
  intro t
  induction t with
  | nil => intro cur; cases cur <;> simp [freeRunsOffAux, freeRunsAux]
  | cons h t ih =>
    intro cur
    cases hal : h.allocated with
    | true =>
      cases cur <;> simp [freeRunsOffAux, freeRunsAux, hal, ih]
    | false =>
      cases cur with
      | none => simp [freeRunsOffAux, freeRunsAux, hal, ih]
      | some oc =>
        obtain ⟨o, c⟩ := oc
        simp [freeRunsOffAux, freeRunsAux, hal, ih]

theorem freeRuns_snd (l : List Hdr) : (freeRuns l).map Prod.snd = freeRunCapacities l :=
  freeRunsOffAux_snd l none

theorem freeRunsOffAux_some_head : ∀ (t : List Hdr) (o c : Nat),
    ∃ c' rest, freeRunsOffAux (some (o, c)) t = (o, c') :: rest ∧ c ≤ c' := by
  intro t
  induction t with
  | nil => intro o c; exact ⟨c, [], by simp [freeRunsOffAux], le_refl _⟩
  | cons h t ih =>
    intro o c
    cases hal : h.allocated with
    | true =>
      exact ⟨c, freeRunsOffAux none t, by simp [freeRunsOffAux, hal], le_refl _⟩
    | false =>
      obtain ⟨c', rest, h1, h2⟩ := ih o (c + h.size + 2)
      exact ⟨c', rest, by simpa [freeRunsOffAux, hal] using h1, by omega⟩

theorem freeRuns_cons_allocated (h : Hdr) (t : List Hdr) (hal : h.allocated = true) :
    freeRuns (h :: t) = freeRuns t := by
  simp [freeRuns, freeRunsOffAux, hal]

theorem freeRuns_cons_free (h : Hdr) (t : List Hdr) (hal : h.allocated = false) :
    ∃ c rest, freeRuns (h :: t) = (h.off, c) :: rest ∧ h.size ≤ c := by
  obtain ⟨c, rest, h1, h2⟩ := freeRunsOffAux_some_head t h.off h.size
  exact ⟨c, rest, by simpa [freeRuns, freeRunsOffAux, hal] using h1, h2⟩

theorem freeRuns_merge (h n m : Hdr) (t : List Hdr) (hal : h.allocated = false)
    (hnal : n.allocated = false) (hm0 : m.off = h.off) (hm1 : m.allocated = false)
    (hm2 : m.size = h.size + n.size + 2) :
    freeRuns (h :: n :: t) = freeRuns (m :: t) := by
  simp [freeRuns, freeRunsOffAux, hal, hnal, hm0, hm1, hm2]

theorem freeRuns_cons_last (h : Hdr) (t : List Hdr) (hal : h.allocated = false)
    (hnx : ∀ n ∈ t.head?, n.allocated = true) :
    freeRuns (h :: t) = (h.off, h.size) :: freeRuns t := by
  cases t with
  | nil => simp [freeRuns, freeRunsOffAux, hal]
  | cons n t2 =>
    have := hnx n (by simp)
    simp [freeRuns, freeRunsOffAux, hal, this]

theorem AllocStep_first_fit {size : Nat} {l : List Hdr} {r : Option Nat} {l' : List Hdr}
    (hs : AllocStep size l r l') :
    ∀ q, r = some q → ∃ before run after, freeRuns l = before ++ run :: after ∧
      (∀ x ∈ before, x.2 < size) ∧ size ≤ run.2 ∧ q = run.1 + 2 := by
  induction hs with
  | done => intro q hq; simp at hq
  | skip h t r t' hal _ ih => rw [freeRuns_cons_allocated h t hal]; exact ih
  | fit h t hal hsz =>
    intro q hq
    simp only [Option.some.injEq] at hq
    obtain ⟨c, rest, e, hc⟩ := freeRuns_cons_free h t hal
    exact ⟨[], (h.off, c), rest, by simpa using e, by simp, by simp only; omega, hq.symm⟩
  | split h t hal hsz =>
    intro q hq
    simp only [Option.some.injEq] at hq
    obtain ⟨c, rest, e, hc⟩ := freeRuns_cons_free h t hal
    exact ⟨[], (h.off, c), rest, by simpa using e, by simp, by simp only; omega, hq.symm⟩
  | whole h t hal hsz _ =>
    intro q hq
    simp only [Option.some.injEq] at hq
    obtain ⟨c, rest, e, hc⟩ := freeRuns_cons_free h t hal
    exact ⟨[], (h.off, c), rest, by simpa using e, by simp, by simp only; omega, hq.symm⟩
  | merge h n t r l' hal _ hnal _ ih =>
    rw [freeRuns_merge h n
      { off := h.off, size := h.size + n.size + 2, allocated := false } t hal hnal rfl rfl rfl]
    exact ih
  | next h t r t' hal hsz hnx _ ih =>
    intro q hq
    obtain ⟨before, run, after, e, hb, hr, hq'⟩ := ih q hq
    refine ⟨(h.off, h.size) :: before, run, after, ?_, ?_, hr, hq'⟩
    · rw [freeRuns_cons_last h t hal hnx, e]; rfl
    · intro x hx
      rcases List.mem_cons.mp hx with rfl | hx
      · exact hsz
      · exact hb x hx

theorem freeRunsOffAux_sorted {p : LightMemoryPool} : ∀ (t : List Hdr) (a b : Nat)
    (cur : Option (Nat × Nat)), Seg p a t b → (∀ oc ∈ cur, oc.1 < a) →
    List.Pairwise (fun x y : Nat × Nat => x.1 < y.1) (freeRunsOffAux cur t) ∧
      ∀ x ∈ freeRunsOffAux cur t, a ≤ x.1 ∨ x ∈ cur.toList ∨ ∃ oc ∈ cur, x.1 = oc.1 := by
  intro t
  induction t with
  | nil =>
    intro a b cur _ _
    cases cur <;> simp [freeRunsOffAux]
  | cons h t ih =>
    intro a b cur hseg hcur
    obtain ⟨h1, h2, h3, h4, h5⟩ := hseg
    cases hal : h.allocated with
    | true =>
      obtain ⟨i1, i2⟩ := ih (a + 2 + h.size) b none h5 (by simp)
      have hge : ∀ x ∈ freeRunsOffAux none t, a + 2 + h.size ≤ x.1 := by
        intro x hx
        rcases i2 x hx with g | g | g
        · exact g
        · simp at g
        · simp at g
      cases cur with
      | none =>
        simp only [freeRunsOffAux, hal, if_true, Option.toList, List.nil_append]
        exact ⟨i1, fun x hx => Or.inl (by have := hge x hx; omega)⟩
      | some oc =>
        simp only [freeRunsOffAux, hal, if_true, Option.toList, List.singleton_append]
        have hoc := hcur oc (by simp)
        refine ⟨List.pairwise_cons.mpr ⟨fun x hx => ?_, i1⟩, fun x hx => ?_⟩
        · have := hge x hx; omega
        · rcases List.mem_cons.mp hx with rfl | hx
          · right; left; simp
          · left; have := hge x hx; omega
    | false =>
      cases cur with
      | none =>
        obtain ⟨i1, i2⟩ := ih (a + 2 + h.size) b (some (h.off, h.size)) h5
          (by intro oc hoc; simp at hoc; subst hoc; simp only; omega)
        simp only [freeRunsOffAux, hal, Bool.false_eq_true, if_false]
        refine ⟨i1, fun x hx => ?_⟩
        rcases i2 x hx with g | g | g
        · left; omega
        · left
          simp at g
          subst g
          simp only
          omega
        · left
          obtain ⟨oc, hoc, e⟩ := g
          simp at hoc
          subst hoc
          simp only at e
          omega
      | some oc =>
        obtain ⟨o, c⟩ := oc
        have hoc := hcur (o, c) (by simp)
        simp only at hoc
        obtain ⟨i1, i2⟩ := ih (a + 2 + h.size) b (some (o, c + h.size + 2)) h5
          (by intro oc hoc'; simp at hoc'; subst hoc'; simp only; omega)
        simp only [freeRunsOffAux, hal, Bool.false_eq_true, if_false]
        refine ⟨i1, fun x hx => ?_⟩
        rcases i2 x hx with g | g | g
        · left; omega
        · right; right
          simp at g
          subst g
          exact ⟨(o, c), by simp, rfl⟩
        · right; right
          obtain ⟨oc, hoc', e⟩ := g
          simp at hoc'
          subst hoc'
          exact ⟨(o, c), by simp, e⟩

theorem freeRuns_sorted {p : LightMemoryPool} {l : List Hdr} {a b : Nat} (h : Seg p a l b) :
    List.Pairwise (fun x y : Nat × Nat => x.1 < y.1) (freeRuns l) :=
  (freeRunsOffAux_sorted l a b none h (by simp)).1

theorem freeRunsOffAux_off : ∀ (t : List Hdr) (cur : Option (Nat × Nat)),
    ∀ x ∈ freeRunsOffAux cur t,
      (∃ h ∈ t, h.allocated = false ∧ h.off = x.1) ∨ ∃ oc ∈ cur, x.1 = oc.1 := by
  intro t
  induction t with
  | nil =>
    intro cur x hx
    cases cur with
    | none => simp [freeRunsOffAux] at hx
    | some oc =>
      simp [freeRunsOffAux] at hx
      subst hx
      exact Or.inr ⟨x, by simp, rfl⟩
  | cons h t ih =>
    intro cur x hx
    cases hal : h.allocated with
    | true =>
      simp only [freeRunsOffAux, hal, if_true, List.mem_append] at hx
      rcases hx with hx | hx
      · right
        cases cur with
        | none => simp at hx
        | some oc =>
          simp at hx
          subst hx
          exact ⟨x, by simp, rfl⟩
      · rcases ih none x hx with ⟨g, hg, hg'⟩ | ⟨oc, hoc, _⟩
        · exact Or.inl ⟨g, List.mem_cons_of_mem _ hg, hg'⟩
        · simp at hoc
    | false =>
      simp only [freeRunsOffAux, hal, Bool.false_eq_true, if_false] at hx
      rcases ih _ x hx with ⟨g, hg, hg'⟩ | ⟨oc, hoc, e⟩
      · exact Or.inl ⟨g, List.mem_cons_of_mem _ hg, hg'⟩
      · cases cur with
        | none =>
          simp at hoc
          subst hoc
          exact Or.inl ⟨h, List.mem_cons_self _ _, hal, e.symm⟩
        | some oc0 =>
          obtain ⟨o, c⟩ := oc0
          simp at hoc
          subst hoc
          exact Or.inr ⟨(o, c), by simp, e⟩

theorem freeRuns_off (l : List Hdr) :
    ∀ x ∈ freeRuns l, ∃ h ∈ l, h.allocated = false ∧ h.off = x.1 := by
  intro x hx
  rcases freeRunsOffAux_off l none x hx with g | ⟨oc, hoc, _⟩
  · exact g
  · simp at hoc

/-- C15 (first fit): on a well-formed pool and for `1 ≤ size ≤ 32767`, when `alloc(size)`
succeeds the returned payload offset is `o + 2`, where `o` is the offset of the first block
of the lowest-offset maximal run of adjacent free blocks whose merged capacity is at least
`size`: the runs before it in the scan lie at lower offsets and are all too small, and every
run that could hold the request lies at offset `o` or higher. -/
theorem alloc_first_fit (p : LightMemoryPool) (size q : Nat) (hwf : WellFormed p)
    (_h1 : 1 ≤ size) (_h2 : size ≤ 32767)
    (hret : (p.alloc size).map Prod.fst = some (some q)) :
    ∃ p' l before run after, p.alloc size = some (some q, p') ∧ p.layout = some l ∧
      freeRuns l = before ++ run :: after ∧ q = run.1 + 2 ∧ size ≤ run.2 ∧
      (∃ h ∈ l, h.allocated = false ∧ h.off = run.1) ∧
      (∀ x ∈ before, x.1 < run.1 ∧ x.2 < size) ∧
      (∀ x ∈ after, run.1 < x.1) ∧
      (∀ x ∈ freeRuns l, size ≤ x.2 → run.1 ≤ x.1) := by
  obtain ⟨l, hseg⟩ := Seg_of_wellFormed hwf
  obtain ⟨r, l', p', hs, e1, _, _, _⟩ := alloc_total size hseg hwf.2.1
  have hr : r = some q := alloc_fst_eq e1 hret
  subst hr
  obtain ⟨before, run, after, e, hb, hrun, hq⟩ := AllocStep_first_fit hs q rfl
  have hsorted := freeRuns_sorted hseg
  rw [e, List.pairwise_append] at hsorted
  obtain ⟨_, s2, s3⟩ := hsorted
  have s2' := List.pairwise_cons.mp s2
  refine ⟨p', l, before, run, after, e1, layout_of_Seg hseg, e, hq, hrun,
    freeRuns_off l run (by rw [e]; simp), ?_, ?_, ?_⟩
  · intro x hx
    exact ⟨s3 x hx run (List.mem_cons_self _ _), hb x hx⟩
  · intro x hx
    exact s2'.1 x hx
  · intro x hx hfit
    rw [e] at hx
    rcases List.mem_append.mp hx with hx | hx
    · have := hb x hx; omega
    · rcases List.mem_cons.mp hx with rfl | hx
      · exact le_refl _
      · exact Nat.le_of_lt (s2'.1 x hx)

/-- Witness of C15: the fourteen-byte pool with a free block of size 2 at offset 0, an
allocated block at offset 4 and a free block of size 5 at offset 7; `alloc(4)` passes the
first run and returns offset 9. -/
theorem alloc_first_fit_witness :
    (WellFormed gapPool ∧ 1 ≤ 4 ∧ 4 ≤ 32767 ∧
      (gapPool.alloc 4).map Prod.fst = some (some 9)) ∧
    ∃ p' l before run after, gapPool.alloc 4 = some (some 9, p') ∧ gapPool.layout = some l ∧
      freeRuns l = before ++ run :: after ∧ 9 = run.1 + 2 ∧ 4 ≤ run.2 ∧
      (∃ h ∈ l, h.allocated = false ∧ h.off = run.1) ∧
      (∀ x ∈ before, x.1 < run.1 ∧ x.2 < 4) ∧
      (∀ x ∈ after, run.1 < x.1) ∧
      (∀ x ∈ freeRuns l, 4 ≤ x.2 → run.1 ≤ x.1) :=
  ⟨⟨⟨by decide, by decide, by decide⟩, by decide, by decide, by decide⟩,
    alloc_first_fit gapPool 4 9 ⟨by decide, by decide, by decide⟩ (by decide) (by decide)
      (by decide)⟩

/-! ## Introspection against the header list -/

theorem foldl_max_spec : ∀ (L : List Nat) (r : Nat),
    r ≤ L.foldl max r ∧ (∀ s ∈ L, s ≤ L.foldl max r) ∧
      (L.foldl max r = r ∨ L.foldl max r ∈ L) ∧ L.foldl max r ≤ r + L.sum := by
  intro L
  induction L with
  | nil => intro r; simp
  | cons x t ih =>
    intro r
    obtain ⟨i1, i2, i3, i4⟩ := ih (max r x)
    simp only [List.foldl_cons, List.mem_cons, List.sum_cons]
    have hm1 : r ≤ max r x := le_max_left _ _
    have hm2 : x ≤ max r x := le_max_right _ _
    have hm3 : max r x = r ∨ max r x = x := by
      rcases le_total r x with h | h
      · right; exact max_eq_right h
      · left; exact max_eq_left h
    refine ⟨by omega, ?_, ?_, ?_⟩
    · intro s hs
      rcases hs with rfl | hs
      · omega
      · exact i2 s hs
    · rcases i3 with h | h
      · rcases hm3 with g | g
        · left; omega
        · right; left; omega
      · right; right; exact h
    · rcases hm3 with g | g <;> omega

/-- C16 (introspection equals the block-list reference): on a well-formed pool, with `B` the
list of headers read by walking from offset 0 in steps of `2 + size`, `totFree()` is the sum
of the sizes of the free entries of `B`, `totAllocated()` the sum of the sizes of the
allocated entries, and `largestFree()` the maximum size among the free entries (0 when there
is none); hence `largestFree() ≤ totFree()`. -/
theorem introspection_reference (p : LightMemoryPool) (hwf : WellFormed p) :
    ∃ B m, p.layout = some B ∧
      p.totFree = some (freeSizes B).sum ∧
      p.totAllocated = some (allocSizes B).sum ∧
      p.largestFree = some m ∧
      (∀ s ∈ freeSizes B, s ≤ m) ∧ (m ∈ freeSizes B ∨ (freeSizes B = [] ∧ m = 0)) ∧
      m ≤ (freeSizes B).sum := by
  obtain ⟨B, hseg⟩ := Seg_of_wellFormed hwf
  obtain ⟨_, i2, i3, i4⟩ := foldl_max_spec (freeSizes B) 0
  refine ⟨B, (freeSizes B).foldl max 0, layout_of_Seg hseg, totFree_of_Seg hseg,
    totAllocated_of_Seg hseg, largestFree_of_Seg hseg, i2, ?_, by omega⟩
  rcases i3 with h | h
  · cases hB : freeSizes B with
    | nil => right; exact ⟨rfl, by simp [hB]⟩
    | cons x t =>
      left
      rw [← hB]
      have hx : x ∈ freeSizes B := by rw [hB]; simp
      have := i2 x hx
      have hx0 : x = 0 := by omega
      rw [h, ← hx0]
      exact hx
  · left; exact h

/-- Witness of C16: the fourteen-byte pool with free blocks of sizes 2 and 5 and an
allocated block of size 1. -/
theorem introspection_reference_witness :
    WellFormed gapPool ∧
    ∃ B m, gapPool.layout = some B ∧
      gapPool.totFree = some (freeSizes B).sum ∧
      gapPool.totAllocated = some (allocSizes B).sum ∧
      gapPool.largestFree = some m ∧
      (∀ s ∈ freeSizes B, s ≤ m) ∧ (m ∈ freeSizes B ∨ (freeSizes B = [] ∧ m = 0)) ∧
      m ≤ (freeSizes B).sum :=
  ⟨⟨by decide, by decide, by decide⟩,
    introspection_reference gapPool ⟨by decide, by decide, by decide⟩⟩

/-! ## The header encoding -/

/-- C17 (header round trip): for every offset `pos`, every `int16_t` value `size` and every
`allocated`, after `mark(pos, size, allocated)` `getSize(pos)` is `size mod 32768`, which is
`size` itself when `0 ≤ size ≤ 32767`; `isFree(pos)` is `!allocated`; only the two bytes at
`pos` and `pos + 1` are modified; and the flag is bit 7 of the byte at `pos + 1`, whose low
seven bits hold bits 8 to 14 of the size. -/
theorem mark_round_trip (p : LightMemoryPool) (pos : Nat) (size : Int) (allocated : Bool)
    (hlo : -32768 ≤ size) (hhi : size ≤ 32767) :
    (((p.mark pos size allocated).getSize pos : Nat) : Int) = size % 32768 ∧
    (0 ≤ size → (((p.mark pos size allocated).getSize pos : Nat) : Int) = size) ∧
    (p.mark pos size allocated).isFree pos = !allocated ∧
    (∀ i, i ≠ pos → i ≠ pos + 1 → (p.mark pos size allocated).m_mem i = p.m_mem i) ∧
    (p.mark pos size allocated).m_poolSize = p.m_poolSize ∧
    (p.mark pos size allocated).byteAt (pos + 1) / 128 = (if allocated then 1 else 0) ∧
    (((p.mark pos size allocated).byteAt (pos + 1) % 128 : Nat) : Int) =
      (size / 256) % 128 := by
  have hgs : (((p.mark pos size allocated).getSize pos : Nat) : Int) = size % 32768 := by
    unfold LightMemoryPool.getSize
    rw [byteAt_mark_low, byteAt_mark_high]
    cases allocated <;> simp <;> omega
  refine ⟨hgs, fun h0 => by rw [hgs]; omega, isFree_mark p pos size allocated,
    fun i i1 i2 => mark_m_mem_of_ne p pos size allocated i i1 i2, rfl, ?_, ?_⟩
  · rw [byteAt_mark_high]
    cases allocated <;> simp <;> omega
  · rw [byteAt_mark_high]
    cases allocated <;> simp <;> omega

/-- Witness of C17: writing the `int16_t` value `-1` as a free header at offset 2 of the
six-byte pool; `getSize(2)` then reads 32767. -/
theorem mark_round_trip_witness :
    (-32768 ≤ (-1 : Int) ∧ (-1 : Int) ≤ 32767) ∧
    ((((twoFreePool.mark 2 (-1) false).getSize 2 : Nat) : Int) = (-1) % 32768 ∧
    (0 ≤ (-1 : Int) → (((twoFreePool.mark 2 (-1) false).getSize 2 : Nat) : Int) = -1) ∧
    (twoFreePool.mark 2 (-1) false).isFree 2 = !false ∧
    (∀ i, i ≠ 2 → i ≠ 2 + 1 → (twoFreePool.mark 2 (-1) false).m_mem i = twoFreePool.m_mem i) ∧
    (twoFreePool.mark 2 (-1) false).m_poolSize = twoFreePool.m_poolSize ∧
    (twoFreePool.mark 2 (-1) false).byteAt (2 + 1) / 128 = (if false then 1 else 0) ∧
    (((twoFreePool.mark 2 (-1) false).byteAt (2 + 1) % 128 : Nat) : Int) =
      ((-1 : Int) / 256) % 128) :=
  ⟨⟨by decide, by decide⟩, mark_round_trip twoFreePool 2 (-1) false (by decide) (by decide)⟩

/-! ## Termination -/

theorem allocLoop_fuel_mono (size : Nat) : ∀ (fuel : Nat) (p : LightMemoryPool) (pos : Nat)
    (x : Option Nat × LightMemoryPool), LightMemoryPool.allocLoop size fuel p pos = some x →
    ∀ k, LightMemoryPool.allocLoop size (fuel + k) p pos = some x := by
  intro fuel
  induction fuel with
  | zero => intro p pos x h; simp [LightMemoryPool.allocLoop] at h
  | succ n ih =>
    intro p pos x h k
    rw [show n + 1 + k = (n + k) + 1 by omega]
    by_cases c0 : pos < p.m_poolSize
    · cases hf : p.isFree pos with
      | false =>
        rw [allocLoop_allocated size _ p pos c0 hf] at h ⊢
        exact ih _ _ _ h k
      | true =>
        by_cases c1 : p.getSize pos = size
        · rw [allocLoop_fit size _ p pos c0 hf c1] at h ⊢
          exact h
        by_cases c2 : size + 2 < p.getSize pos
        · rw [allocLoop_split size _ p pos c0 hf c2] at h ⊢
          exact h
        by_cases c3 : size < p.getSize pos
        · rw [allocLoop_whole size _ p pos c0 hf c3 (by omega)] at h ⊢
          exact h
        by_cases c4 : pos + 2 + p.getSize pos < p.m_poolSize ∧
            p.isFree (pos + 2 + p.getSize pos) = true
        · rw [allocLoop_merge size _ p pos c0 hf (by omega) c4.1 c4.2] at h ⊢
          exact ih _ _ _ h k
        · rw [allocLoop_next size _ p pos c0 hf (by omega) c4] at h ⊢
          exact ih _ _ _ h k
    · rw [allocLoop_exit size _ p pos c0] at h ⊢
      exact h

theorem layoutLoop_fuel_mono (p : LightMemoryPool) : ∀ (fuel pos : Nat) (l : List Hdr),
    p.layoutLoop fuel pos = some l → ∀ k, p.layoutLoop (fuel + k) pos = some l := by
  intro fuel
  induction fuel with
  | zero => intro pos l h; simp [LightMemoryPool.layoutLoop] at h
  | succ n ih =>
    intro pos l h k
    rw [show n + 1 + k = (n + k) + 1 by omega]
    unfold LightMemoryPool.layoutLoop at h ⊢
    split
    · rename_i hlt
      rw [if_pos hlt] at h
      cases hx : p.layoutLoop n (pos + (p.getSize pos + 2)) with
      | none => simp [hx] at h
      | some t =>
        rw [hx] at h
        rw [ih _ t hx k]
        exact h
    · rename_i hlt
      rw [if_neg hlt] at h
      exact h

theorem layout_isSome (p : LightMemoryPool) : ∃ l, p.layout = some l := by
  have := layoutLoop_isSome p (p.m_poolSize + 1) 0 (by omega) (by omega)
  exact Option.isSome_iff_exists.mp this

/-- C18 (termination): on a well-formed pool and for every `size ≥ 0` the scan of `alloc`
returns, and any larger fuel gives the same result; the loops of `memCheck`, `totFree`,
`totAllocated` and `largestFree` return on every buffer `b`, well-formed or not, and any
larger fuel gives the same results. The five operations of the embedding are total on these
inputs. -/
theorem loops_terminate (p : LightMemoryPool) (size : Nat) (hwf : WellFormed p) :
    (∃ x, p.alloc size = some x ∧
      ∀ k, LightMemoryPool.allocLoop size (p.m_poolSize + 1 + k) p 0 = some x) ∧
    ∀ b : LightMemoryPool,
      (∃ r, b.memCheck = some r) ∧
      (∃ e, ∀ k, b.memCheckLoop (b.m_poolSize + 1 + k) 0 = some e) ∧
      (∃ f, b.totFree = some f ∧ ∀ k, b.totFreeLoop (b.m_poolSize + 1 + k) 0 0 = some f) ∧
      (∃ a, b.totAllocated = some a ∧
        ∀ k, b.totAllocatedLoop (b.m_poolSize + 1 + k) 0 0 = some a) ∧
      (∃ m, b.largestFree = some m ∧
        ∀ k, b.largestFreeLoop (b.m_poolSize + 1 + k) 0 0 = some m) := by
  constructor
  · obtain ⟨l, hseg⟩ := Seg_of_wellFormed hwf
    obtain ⟨r, l', p', _, e1, _, _, _⟩ := alloc_total size hseg hwf.2.1
    exact ⟨(r, p'), e1, fun k => allocLoop_fuel_mono size _ p 0 _ e1 k⟩
  · intro b
    obtain ⟨l, hl⟩ := layout_isSome b
    have hk : ∀ k, b.layoutLoop (b.m_poolSize + 1 + k) 0 = some l :=
      fun k => layoutLoop_fuel_mono b _ 0 l hl k
    have h0 : b.layoutLoop (b.m_poolSize + 1) 0 = some l := hl
    refine ⟨⟨_, by simp [LightMemoryPool.memCheck, memCheckLoop_eq, h0]; rfl⟩,
      ⟨0 + span l, fun k => by rw [memCheckLoop_eq, hk k]; rfl⟩,
      ⟨0 + (freeSizes l).sum, by simp [LightMemoryPool.totFree, totFreeLoop_eq, h0],
        fun k => by rw [totFreeLoop_eq, hk k]; rfl⟩,
      ⟨0 + (allocSizes l).sum,
        by simp [LightMemoryPool.totAllocated, totAllocatedLoop_eq, h0],
        fun k => by rw [totAllocatedLoop_eq, hk k]; rfl⟩,
      ⟨(freeSizes l).foldl max 0,
        by simp [LightMemoryPool.largestFree, largestFreeLoop_eq, h0],
        fun k => by rw [largestFreeLoop_eq, hk k]; rfl⟩⟩

/-- Witness of C18: the six-byte pool with two adjacent free blocks and the request
`alloc(3)`, whose scan merges and then returns. -/
theorem loops_terminate_witness :
    WellFormed twoFreePool ∧
    ((∃ x, twoFreePool.alloc 3 = some x ∧
      ∀ k, LightMemoryPool.allocLoop 3 (twoFreePool.m_poolSize + 1 + k) twoFreePool 0 =
        some x) ∧
    ∀ b : LightMemoryPool,
      (∃ r, b.memCheck = some r) ∧
      (∃ e, ∀ k, b.memCheckLoop (b.m_poolSize + 1 + k) 0 = some e) ∧
      (∃ f, b.totFree = some f ∧ ∀ k, b.totFreeLoop (b.m_poolSize + 1 + k) 0 0 = some f) ∧
      (∃ a, b.totAllocated = some a ∧
        ∀ k, b.totAllocatedLoop (b.m_poolSize + 1 + k) 0 0 = some a) ∧
      (∃ m, b.largestFree = some m ∧
        ∀ k, b.largestFreeLoop (b.m_poolSize + 1 + k) 0 0 = some m)) :=
  ⟨⟨by decide, by decide, by decide⟩,
    loops_terminate twoFreePool 3 ⟨by decide, by decide, by decide⟩⟩

/-! ## Blocks already allocated -/

theorem AllocStep_keeps_allocated {size : Nat} {l : List Hdr} {r : Option Nat}
    {l' : List Hdr} (hs : AllocStep size l r l') :
    ∀ x ∈ l, x.allocated = true → x ∈ l' := by
  induction hs with
  | done => intro x hx; simp at hx
  | skip h t r t' _ _ ih =>
    intro x hx hal
    rcases List.mem_cons.mp hx with rfl | hx
    · exact List.mem_cons_self _ _
    · exact List.mem_cons_of_mem _ (ih x hx hal)
  | fit h t hfree _ =>
    intro x hx hal
    rcases List.mem_cons.mp hx with rfl | hx
    · rw [hfree] at hal; simp at hal
    · exact List.mem_cons_of_mem _ hx
  | split h t hfree _ =>
    intro x hx hal
    rcases List.mem_cons.mp hx with rfl | hx
    · rw [hfree] at hal; simp at hal
    · exact List.mem_cons_of_mem _ (List.mem_cons_of_mem _ hx)
  | whole h t hfree _ _ =>
    intro x hx hal
    rcases List.mem_cons.mp hx with rfl | hx
    · rw [hfree] at hal; simp at hal
    · exact List.mem_cons_of_mem _ hx
  | merge h n t r l' hfree _ hnfree _ ih =>
    intro x hx hal
    rcases List.mem_cons.mp hx with rfl | hx
    · rw [hfree] at hal; simp at hal
    · rcases List.mem_cons.mp hx with rfl | hx
      · rw [hnfree] at hal; simp at hal
      · exact ih x (List.mem_cons_of_mem _ hx) hal
  | next h t r t' _ _ _ _ ih =>
    intro x hx hal
    rcases List.mem_cons.mp hx with rfl | hx
    · exact List.mem_cons_self _ _
    · exact List.mem_cons_of_mem _ (ih x hx hal)

theorem AllocStep_from_free {size : Nat} {l : List Hdr} {r : Option Nat} {l' : List Hdr}
    (hs : AllocStep size l r l') :
    ∀ q, r = some q → ∃ f ∈ l, f.allocated = false ∧ f.off + 2 = q := by
  induction hs with
  | done => intro q hq; simp at hq
  | skip h t r t' _ _ ih =>
    intro q hq
    obtain ⟨f, hf, hf'⟩ := ih q hq
    exact ⟨f, List.mem_cons_of_mem _ hf, hf'⟩
  | fit h t hfree _ =>
    intro q hq
    simp only [Option.some.injEq] at hq
    exact ⟨h, List.mem_cons_self _ _, hfree, hq⟩
  | split h t hfree _ =>
    intro q hq
    simp only [Option.some.injEq] at hq
    exact ⟨h, List.mem_cons_self _ _, hfree, hq⟩
  | whole h t hfree _ _ =>
    intro q hq
    simp only [Option.some.injEq] at hq
    exact ⟨h, List.mem_cons_self _ _, hfree, hq⟩
  | merge h n t r l' hfree _ _ _ ih =>
    intro q hq
    obtain ⟨f, hf, hf1, hf2⟩ := ih q hq
    rcases List.mem_cons.mp hf with rfl | hf
    · exact ⟨h, List.mem_cons_self _ _, hfree, hf2⟩
    · exact ⟨f, List.mem_cons_of_mem _ (List.mem_cons_of_mem _ hf), hf1, hf2⟩
  | next h t r t' _ _ _ _ ih =>
    intro q hq
    obtain ⟨f, hf, hf'⟩ := ih q hq
    exact ⟨f, List.mem_cons_of_mem _ hf, hf'⟩

theorem Seg_disjoint {p : LightMemoryPool} : ∀ (l : List Hdr) (a b : Nat), Seg p a l b →
    ∀ h ∈ l, ∀ h' ∈ l, ∀ i, h.off ≤ i → i < h.off + 2 + h.size → h'.off ≤ i →
      i < h'.off + 2 + h'.size → h = h' := by
  intro l
  induction l with
  | nil => intro a b _ h hh; simp at hh
  | cons x t ih =>
    intro a b hseg h hh h' hh' i i1 i2 i3 i4
    obtain ⟨s1, _, _, _, s5⟩ := hseg
    have htail : ∀ y ∈ t, a + 2 + x.size ≤ y.off := fun y hy => (Seg_mem t _ _ s5 y hy).2.2.1
    rcases List.mem_cons.mp hh with e | hm
    · rcases List.mem_cons.mp hh' with e' | hm'
      · rw [e, e']
      · have := htail h' hm'
        rw [e] at i2
        omega
    · rcases List.mem_cons.mp hh' with e' | hm'
      · have := htail h hm
        rw [e'] at i4
        omega
      · exact ih _ _ s5 h hm h' hm' i i1 i2 i3 i4

/-- C19 (existing allocations are preserved): on a well-formed pool and for
`1 ≤ size ≤ 32767`, every block that is allocated before `alloc(size)` is after the call,
whether it succeeds or fails, still a block of the chain at the same offset, still
allocated, with the same recorded size, and with every header and payload byte unchanged;
and the full extent of a successfully returned block, header included, is disjoint from the
header and payload of every previously allocated block. -/
theorem alloc_preserves_allocated (p : LightMemoryPool) (size : Nat) (hwf : WellFormed p)
    (_h1 : 1 ≤ size) (_h2 : size ≤ 32767) :
    ∃ r p' l l', p.alloc size = some (r, p') ∧ p.layout = some l ∧ p'.layout = some l' ∧
      ∀ h ∈ l, h.allocated = true →
        h ∈ l' ∧ p'.getSize h.off = h.size ∧ p'.isFree h.off = false ∧
        (∀ i, h.off ≤ i → i < h.off + 2 + h.size → p'.m_mem i = p.m_mem i) ∧
        ∀ q, r = some q → 2 ≤ q ∧
          (q + p'.getSize (q - 2) ≤ h.off ∨ h.off + 2 + h.size ≤ q - 2) := by
  obtain ⟨l, hseg⟩ := Seg_of_wellFormed hwf
  obtain ⟨r, l', p', hs, e1, e2, e3, e4⟩ := alloc_total size hseg hwf.2.1
  refine ⟨r, p', l, l', e1, layout_of_Seg hseg, layout_of_Seg e3, ?_⟩
  intro h hh hal
  have hh' := AllocStep_keeps_allocated hs h hh hal
  obtain ⟨m1, m2, _, _⟩ := Seg_mem l' _ _ e3 h hh'
  refine ⟨hh', m1.symm, by rw [hal] at m2; simpa using m2.symm, ?_, ?_⟩
  · intro i i1 i2
    apply e4
    rintro ⟨f, hf, hf1, hf2, hf3⟩
    have := Seg_disjoint l _ _ hseg h hh f hf i i1 i2 hf2 hf3
    rw [this, hf1] at hal
    simp at hal
  · intro q hq
    obtain ⟨g, hg, g1, g2, _, _⟩ := AllocStep_handle hs q hq
    obtain ⟨f, hf, f1, f2⟩ := AllocStep_from_free hs q hq
    obtain ⟨n1, _, _, _⟩ := Seg_mem l' _ _ e3 g hg
    have hne : h ≠ g := by
      intro hc
      have hoff : h.off = f.off := by rw [hc]; omega
      have := Seg_disjoint l _ _ hseg h hh f hf h.off (le_refl _) (by omega) (by omega)
        (by omega)
      rw [this, f1] at hal
      simp at hal
    have hq2 : q - 2 = g.off := by omega
    rw [hq2, ← n1]
    refine ⟨by omega, ?_⟩
    by_contra hc
    push_neg at hc
    apply hne
    exact Seg_disjoint l' _ _ e3 h hh' g hg (max h.off g.off) (le_max_left _ _)
      (by rcases le_total h.off g.off with c | c
          · rw [max_eq_right c]; omega
          · rw [max_eq_left c]; omega)
      (le_max_right _ _)
      (by rcases le_total h.off g.off with c | c
          · rw [max_eq_right c]; omega
          · rw [max_eq_left c]; omega)

/-- Witness of C19: the fourteen-byte pool whose allocated block of size 1 sits at offset 4
between two free blocks, and the request `alloc(4)`. -/
theorem alloc_preserves_allocated_witness :
    (WellFormed gapPool ∧ 1 ≤ 4 ∧ 4 ≤ 32767) ∧
    ∃ r p' l l', gapPool.alloc 4 = some (r, p') ∧ gapPool.layout = some l ∧
      p'.layout = some l' ∧
      ∀ h ∈ l, h.allocated = true →
        h ∈ l' ∧ p'.getSize h.off = h.size ∧ p'.isFree h.off = false ∧
        (∀ i, h.off ≤ i → i < h.off + 2 + h.size → p'.m_mem i = gapPool.m_mem i) ∧
        ∀ q, r = some q → 2 ≤ q ∧
          (q + p'.getSize (q - 2) ≤ h.off ∨ h.off + 2 + h.size ≤ q - 2) :=
  ⟨⟨⟨by decide, by decide, by decide⟩, by decide, by decide⟩,
    alloc_preserves_allocated gapPool 4 ⟨by decide, by decide, by decide⟩
      (by decide) (by decide)⟩

/-! ## The shape of the states reached from construction -/

theorem allButLastAllocated_tail (h : Hdr) (t : List Hdr)
    (hs : allButLastAllocated (h :: t) = true) : allButLastAllocated t = true := by
  cases t with
  | nil => rfl
  | cons n t2 =>
    simp only [allButLastAllocated, Bool.and_eq_true] at hs
    exact hs.2

theorem allButLastAllocated_free_head (h : Hdr) (t : List Hdr)
    (hs : allButLastAllocated (h :: t) = true) (hfree : h.allocated = false) : t = [] := by
  cases t with
  | nil => rfl
  | cons n t2 =>
    simp only [allButLastAllocated, Bool.and_eq_true] at hs
    rw [hfree] at hs
    simp at hs

theorem allButLastAllocated_cons (h : Hdr) (t : List Hdr) (hal : h.allocated = true)
    (hs : allButLastAllocated t = true) : allButLastAllocated (h :: t) = true := by
  cases t with
  | nil => rfl
  | cons n t2 =>
    simp only [allButLastAllocated, Bool.and_eq_true]
    exact ⟨hal, hs⟩

theorem AllocStep_shape {size : Nat} {l : List Hdr} {r : Option Nat} {l' : List Hdr}
    (hs : AllocStep size l r l') :
    allButLastAllocated l = true → allButLastAllocated l' = true := by
  induction hs with
  | done => intro _; rfl
  | skip h t r t' hal _ ih =>
    intro hsh
    exact allButLastAllocated_cons h t' hal (ih (allButLastAllocated_tail h t hsh))
  | fit h t hfree _ =>
    intro hsh
    have ht := allButLastAllocated_free_head h t hsh hfree
    subst ht
    rfl
  | split h t hfree _ =>
    intro hsh
    have ht := allButLastAllocated_free_head h t hsh hfree
    subst ht
    rfl
  | whole h t hfree _ _ =>
    intro hsh
    have ht := allButLastAllocated_free_head h t hsh hfree
    subst ht
    rfl
  | merge h n t r l' hfree _ _ _ _ =>
    intro hsh
    have ht := allButLastAllocated_free_head h (n :: t) hsh hfree
    simp at ht
  | next h t r t' hfree _ _ hsub _ =>
    intro hsh
    have ht := allButLastAllocated_free_head h t hsh hfree
    subst ht
    cases hsub
    rfl

theorem noAdjacentFree_of_shape : ∀ (l : List Hdr), allButLastAllocated l = true →
    noAdjacentFree l = true := by
  intro l
  induction l with
  | nil => intro _; rfl
  | cons h t ih =>
    intro hsh
    cases t with
    | nil => rfl
    | cons n t2 =>
      have h2 := ih (allButLastAllocated_tail h _ hsh)
      simp only [allButLastAllocated, Bool.and_eq_true] at hsh
      simp only [noAdjacentFree, Bool.and_eq_true, Bool.or_eq_true]
      exact ⟨Or.inl hsh.1, h2⟩

theorem Seg_shape_free_last {p : LightMemoryPool} : ∀ (l : List Hdr) (a b : Nat),
    Seg p a l b → allButLastAllocated l = true →
    ∀ h ∈ l, h.allocated = false → h.off + 2 + h.size = b := by
  intro l
  induction l with
  | nil => intro a b _ _ h hh; simp at hh
  | cons x t ih =>
    intro a b hseg hsh h hh hfree
    obtain ⟨s1, _, _, _, s5⟩ := hseg
    rcases List.mem_cons.mp hh with e | hm
    · rw [e]
      have ht := allButLastAllocated_free_head x t hsh (by rw [← e]; exact hfree)
      subst ht
      have : a + 2 + x.size = b := s5
      omega
    · exact ih _ _ s5 (allButLastAllocated_tail x t hsh) h hm hfree

theorem freeRunCapacities_of_noAdjacentFree : ∀ (l : List Hdr), noAdjacentFree l = true →
    freeRunCapacities l = freeSizes l := by
  intro l
  induction l with
  | nil => intro _; rfl
  | cons h t ih =>
    intro hadj
    have hadj' : noAdjacentFree t = true := by
      cases t with
      | nil => rfl
      | cons x t2 =>
        simp only [noAdjacentFree, Bool.and_eq_true] at hadj
        exact hadj.2
    cases hal : h.allocated with
    | true =>
      rw [freeRunCapacities_cons_allocated h t hal, ih hadj']
      simp [freeSizes, List.filter_cons, hal]
    | false =>
      have hnx : ∀ n ∈ t.head?, n.allocated = true := by
        cases t with
        | nil => simp
        | cons x t2 =>
          simp only [noAdjacentFree, Bool.and_eq_true, Bool.or_eq_true, hal] at hadj
          intro n hn
          simp at hn
          subst hn
          rcases hadj.1 with hc | hc
          · simp at hc
          · exact hc
      rw [freeRunCapacities_cons_last h t hal hnx, ih hadj']
      simp [freeSizes, List.filter_cons, hal]

theorem allocLoop_noop_free (size : Nat) : ∀ (l : List Hdr) (p : LightMemoryPool)
    (a fuel : Nat), Seg p a l p.m_poolSize →
    (∀ h ∈ l, h.allocated = false → h.size < size) → noAdjacentFree l = true →
    l.length < fuel → LightMemoryPool.allocLoop size fuel p a = some (none, p) := by
  intro l
  induction l with
  | nil =>
    intro p a fuel hseg _ _ hf
    obtain ⟨n, rfl⟩ : ∃ n, fuel = n + 1 := ⟨fuel - 1, by omega⟩
    have ha : a = p.m_poolSize := hseg
    exact allocLoop_exit size n p a (by omega)
  | cons h t ih =>
    intro p a fuel hseg hsz hadj hf
    obtain ⟨n, rfl⟩ : ∃ n, fuel = n + 1 := ⟨fuel - 1, by omega⟩
    obtain ⟨h1, h2, h3, h4, h5⟩ := hseg
    have hlt : a < p.m_poolSize := by omega
    have hadj' : noAdjacentFree t = true := by
      cases t with
      | nil => rfl
      | cons x t2 =>
        simp only [noAdjacentFree, Bool.and_eq_true] at hadj
        exact hadj.2
    have hrec := ih p (a + 2 + h.size) n h5
      (fun x hx => hsz x (List.mem_cons_of_mem _ hx)) hadj' (by simpa using hf)
    have e : a + (p.getSize a + 2) = a + 2 + h.size := by omega
    cases hal : h.allocated with
    | true =>
      have hfree : p.isFree a = false := by rw [hal] at h3; simpa using h3
      rw [allocLoop_allocated size n p a hlt hfree, e]
      exact hrec
    | false =>
      have hhs := hsz h (List.mem_cons_self _ _) hal
      have hfree : p.isFree a = true := by rw [hal] at h3; simpa using h3
      have hno : ¬ (a + 2 + p.getSize a < p.m_poolSize ∧
          p.isFree (a + 2 + p.getSize a) = true) := by
        rintro ⟨c1, c2⟩
        rw [← h2] at c1 c2
        cases t with
        | nil =>
          have : a + 2 + h.size = p.m_poolSize := h5
          omega
        | cons x t2 =>
          simp only [noAdjacentFree, Bool.and_eq_true, Bool.or_eq_true, hal] at hadj
          obtain ⟨_, _, q3, _, _⟩ := h5
          rw [c2] at q3
          rcases hadj.1 with hc | hc
          · simp at hc
          · rw [hc] at q3; simp at q3
      rw [allocLoop_next size n p a hlt hfree (by omega) hno, e]
      exact hrec

theorem runAllocs_shape : ∀ (sizes : List Nat) (p : LightMemoryPool) (l : List Hdr),
    Seg p 0 l p.m_poolSize → p.m_poolSize ≤ 32769 → allButLastAllocated l = true →
    ∃ p' l', runAllocs p sizes = some p' ∧ p'.m_poolSize = p.m_poolSize ∧
      Seg p' 0 l' p'.m_poolSize ∧ allButLastAllocated l' = true := by
  intro sizes
  induction sizes with
  | nil => intro p l hseg _ hsh; exact ⟨p, l, rfl, rfl, hseg, hsh⟩
  | cons s rest ih =>
    intro p l hseg hE hsh
    obtain ⟨r, l1, p1, hs, h1, h2, h3, _⟩ := alloc_total s hseg hE
    obtain ⟨p', l', g1, g2, g3, g4⟩ := ih p1 l1 h3 (by omega) (AllocStep_shape hs hsh)
    exact ⟨p', l', by rw [runAllocs_cons rest h1]; exact g1, by omega, g3, g4⟩

/-- C20 (shape of reachable states): in every state reached from the construction with
capacity `N`, `0 ≤ N ≤ 32767`, by `alloc` calls with sizes between 1 and 32767, the chain is
zero or more allocated blocks followed by at most one free block, which if present is the
last block. Consequently no free block has a free successor and the merge test
`nextBlockPos < m_poolSize` fails at every free block, so the merge branch of `alloc` is
never taken; a failing `alloc` leaves every byte of the buffer unchanged; and `alloc(size)`
succeeds exactly when `largestFree() ≥ size`. -/
theorem reachable_shape (N : Nat) (raw : Nat → Nat) (sizes : List Nat) (hN : N ≤ 32767)
    (_hs : ∀ s ∈ sizes, 1 ≤ s ∧ s ≤ 32767) :
    ∃ p l, runAllocs (LightMemoryPool.new raw N) sizes = some p ∧ p.layout = some l ∧
      allButLastAllocated l = true ∧ noAdjacentFree l = true ∧
      (∀ h ∈ l, h.allocated = false →
        h.off + 2 + h.size = p.m_poolSize ∧ ¬ (h.off + 2 + p.getSize h.off < p.m_poolSize)) ∧
      ∀ size, 1 ≤ size → size ≤ 32767 →
        ∃ r p' m, p.alloc size = some (r, p') ∧ p.largestFree = some m ∧
          (r.isSome = true ↔ size ≤ m) ∧ (r = none → ∀ i, p'.m_mem i = p.m_mem i) := by
  obtain ⟨p, l, h1, h2, h3, h4⟩ := runAllocs_shape sizes (LightMemoryPool.new raw N) _
    (Seg_new raw N hN) (by rw [new_m_poolSize]; omega) rfl
  have hE : p.m_poolSize ≤ 32769 := by rw [h2, new_m_poolSize]; omega
  have hadj := noAdjacentFree_of_shape l h4
  refine ⟨p, l, h1, layout_of_Seg h3, h4, hadj, ?_, ?_⟩
  · intro h hh hfree
    have e := Seg_shape_free_last l _ _ h3 h4 h hh hfree
    have := (Seg_mem l _ _ h3 h hh).1
    exact ⟨e, by omega⟩
  · intro size hs1 _
    obtain ⟨r, l', p', hs, e1, _, _, _⟩ := alloc_total size h3 hE
    have hiff := AllocStep_none_iff hs
    rw [freeRunCapacities_of_noAdjacentFree l hadj] at hiff
    obtain ⟨_, i2, i3, _⟩ := foldl_max_spec (freeSizes l) 0
    refine ⟨r, p', (freeSizes l).foldl max 0, e1, largestFree_of_Seg h3, ?_, ?_⟩
    · constructor
      · intro hsome
        by_contra hc
        have hnone : r = none := hiff.mpr (fun c hc' => by have := i2 c hc'; omega)
        rw [hnone] at hsome
        simp at hsome
      · intro hle
        by_contra hc
        have hnone : r = none := by
          cases r with
          | none => rfl
          | some q => simp at hc
        rcases i3 with g | g
        · omega
        · have := hiff.mp hnone _ g
          omega
    · intro hnone i
      have hsmall : ∀ h ∈ l, h.allocated = false → h.size < size := by
        intro h hh hfree
        apply hiff.mp hnone
        simp only [freeSizes, List.mem_map, List.mem_filter]
        exact ⟨h, ⟨hh, by simp [hfree]⟩, rfl⟩
      have hlen := Seg_length h3
      have hnoop : p.alloc size = some (none, p) :=
        allocLoop_noop_free size l p 0 (p.m_poolSize + 1) h3 hsmall hadj (by omega)
      rw [hnoop] at e1
      simp only [Option.some.injEq, Prod.mk.injEq] at e1
      rw [← e1.2]

/-- Witness of C20: capacity 100 and the calls `alloc(30)`, `alloc(20)`, `alloc(40)`. -/
theorem reachable_shape_witness :
    (100 ≤ 32767 ∧ ∀ s ∈ [30, 20, 40], 1 ≤ s ∧ s ≤ 32767) ∧
    ∃ p l, runAllocs (LightMemoryPool.new (fun _ => 0) 100) [30, 20, 40] = some p ∧
      p.layout = some l ∧
      allButLastAllocated l = true ∧ noAdjacentFree l = true ∧
      (∀ h ∈ l, h.allocated = false →
        h.off + 2 + h.size = p.m_poolSize ∧ ¬ (h.off + 2 + p.getSize h.off < p.m_poolSize)) ∧
      ∀ size, 1 ≤ size → size ≤ 32767 →
        ∃ r p' m, p.alloc size = some (r, p') ∧ p.largestFree = some m ∧
          (r.isSome = true ↔ size ≤ m) ∧ (r = none → ∀ i, p'.m_mem i = p.m_mem i) :=
  ⟨⟨by decide, by decide⟩,
    reachable_shape 100 (fun _ => 0) [30, 20, 40] (by decide) (by decide)⟩

/-! ## What a failing scan writes -/

theorem mark_m_mem_low (p : LightMemoryPool) (pos : Nat) (s : Int) (a : Bool) :
    (p.mark pos s a).m_mem pos = (s % 256).toNat % 256 := by
  simp only [LightMemoryPool.mark, LightMemoryPool.store]
  have e1 : ¬ (pos = pos + 1) := by omega
  simp only [e1, if_false, if_true]

theorem mark_m_mem_high (p : LightMemoryPool) (pos : Nat) (s : Int) (a : Bool) :
    (p.mark pos s a).m_mem (pos + 1) =
      (((s / 256) % 128).toNat + (if a then 128 else 0)) % 256 := by
  simp only [LightMemoryPool.mark, LightMemoryPool.store, if_true]

theorem mergeRuns_cons_allocated (h : Hdr) (t : List Hdr) (hal : h.allocated = true) :
    mergeRuns (h :: t) = h :: mergeRuns t := by
  simp [mergeRuns, mergeRunsAux, hal]

theorem mergeRuns_merge (h n : Hdr) (t : List Hdr) (hal : h.allocated = false)
    (hnal : n.allocated = false) :
    mergeRuns (h :: n :: t) =
      mergeRuns ({ off := h.off, size := h.size + n.size + 2, allocated := false } :: t) := by
  simp [mergeRuns, mergeRunsAux, hal, hnal]

theorem mergeRuns_cons_last (h : Hdr) (t : List Hdr) (hal : h.allocated = false)
    (hnx : ∀ n ∈ t.head?, n.allocated = true) :
    mergeRuns (h :: t) = h :: mergeRuns t := by
  have hh : ({ off := h.off, size := h.size, allocated := false } : Hdr) = h := by
    cases h
    simp only [Hdr.mk.injEq, true_and] at hal ⊢
    exact hal.symm
  cases t with
  | nil => simp [mergeRuns, mergeRunsAux, hal, hh]
  | cons n t2 =>
    have := hnx n (by simp)
    simp [mergeRuns, mergeRunsAux, hal, this, hh]

theorem AllocStep_none_mergeRuns {size : Nat} {l : List Hdr} {r : Option Nat}
    {l' : List Hdr} (hs : AllocStep size l r l') : r = none → l' = mergeRuns l := by
  induction hs with
  | done => intro _; rfl
  | skip h t r t' hal _ ih =>
    intro hr; rw [mergeRuns_cons_allocated h t hal, ih hr]
  | fit h t _ _ => intro hr; simp at hr
  | split h t _ _ => intro hr; simp at hr
  | whole h t _ _ _ => intro hr; simp at hr
  | merge h n t r l' hal _ hnal _ ih =>
    intro hr; rw [mergeRuns_merge h n t hal hnal]; exact ih hr
  | next h t r t' hal _ hnx _ ih =>
    intro hr; rw [mergeRuns_cons_last h t hal hnx, ih hr]

theorem freeRuns_off_ge {p : LightMemoryPool} {t : List Hdr} {a b : Nat} (h : Seg p a t b) :
    ∀ run ∈ freeRuns t, a ≤ run.1 := by
  intro run hrun
  obtain ⟨g, hg, _, hg2⟩ := freeRuns_off t run hrun
  have := (Seg_mem t _ _ h g hg).2.2.1
  omega

theorem Seg_merge {p : LightMemoryPool} {h n : Hdr} {t : List Hdr} {a : Nat}
    (hseg : Seg p a (h :: n :: t) p.m_poolSize) (hE : p.m_poolSize ≤ 32769) :
    Seg (p.mark a (toInt16 ((p.getSize a : Int) +
        (p.getSize (a + 2 + p.getSize a) : Int) + 2)) false) a
      ({ off := h.off, size := h.size + n.size + 2, allocated := false } :: t)
      p.m_poolSize ∧
    (toInt16 ((p.getSize a : Int) + (p.getSize (a + 2 + p.getSize a) : Int) + 2) =
      ((h.size + n.size + 2 : Nat) : Int)) ∧ h.size + n.size + 2 ≤ 32767 := by
  obtain ⟨h1, h2, h3, h4, g1, g2, g3, g4, g5⟩ := hseg
  have g2' : n.size = p.getSize (a + 2 + p.getSize a) := by rw [← h2]; exact g2
  have hto : toInt16 ((p.getSize a : Int) + (p.getSize (a + 2 + p.getSize a) : Int) + 2) =
      ((h.size + n.size + 2 : Nat) : Int) := by
    rw [toInt16_of_range _ (by omega) (by omega)]
    push_cast
    omega
  refine ⟨⟨h1, ?_, ?_, ?_, ?_⟩, hto, by omega⟩
  · rw [getSize_mark p a _ false (by omega) (by omega)]
    show h.size + n.size + 2 = _
    omega
  · rw [isFree_mark]; rfl
  · show a + 2 + (h.size + n.size + 2) ≤ p.m_poolSize
    omega
  · show Seg _ (a + 2 + (h.size + n.size + 2)) t p.m_poolSize
    rw [show a + 2 + (h.size + n.size + 2) = a + 2 + h.size + 2 + n.size by omega]
    exact Seg_congr t _ _
      (fun i hi _ => mark_m_mem_of_ne p a _ _ i (by omega) (by omega)) g5

theorem allocLoop_fail_frame {size : Nat} {l : List Hdr} {r : Option Nat} {l' : List Hdr}
    (hs : AllocStep size l r l') : r = none →
    ∀ (p : LightMemoryPool) (a fuel : Nat), Seg p a l p.m_poolSize → p.m_poolSize ≤ 32769 →
      l.length < fuel →
      ∃ p', LightMemoryPool.allocLoop size fuel p a = some (none, p') ∧
        (∀ i, (∀ run ∈ freeRuns l, i ≠ run.1 ∧ i ≠ run.1 + 1) → p'.m_mem i = p.m_mem i) ∧
        (∀ run ∈ freeRuns l, p.getSize run.1 = run.2 →
          p'.m_mem run.1 = p.m_mem run.1 ∧ p'.m_mem (run.1 + 1) = p.m_mem (run.1 + 1)) ∧
        (∀ run ∈ freeRuns l, p.getSize run.1 ≠ run.2 →
          p'.m_mem run.1 = run.2 % 256 ∧ p'.m_mem (run.1 + 1) = run.2 / 256) := by
  induction hs with
  | done =>
    intro _ p a fuel hseg _ hf
    obtain ⟨n, rfl⟩ : ∃ n, fuel = n + 1 := ⟨fuel - 1, by omega⟩
    have ha : a = p.m_poolSize := hseg
    exact ⟨p, allocLoop_exit size n p a (by omega), fun _ _ => rfl,
      fun _ _ _ => ⟨rfl, rfl⟩,
      fun run hrun _ => by simp [freeRuns, freeRunsOffAux] at hrun⟩
  | skip h t r t' hal _ ih =>
    intro hr p a fuel hseg hE hf
    obtain ⟨n, rfl⟩ : ∃ n, fuel = n + 1 := ⟨fuel - 1, by omega⟩
    obtain ⟨h1, h2, h3, h4, h5⟩ := hseg
    have hlt : a < p.m_poolSize := by omega
    have hfree : p.isFree a = false := by rw [hal] at h3; simpa using h3
    obtain ⟨p', e1, f1, f2, f3⟩ := ih hr p (a + 2 + h.size) n h5 hE (by simpa using hf)
    rw [freeRuns_cons_allocated h t hal]
    refine ⟨p', ?_, f1, f2, f3⟩
    rw [allocLoop_allocated size n p a hlt hfree,
      show a + (p.getSize a + 2) = a + 2 + h.size by omega]
    exact e1
  | fit h t _ _ => intro hr; simp at hr
  | split h t _ _ => intro hr; simp at hr
  | whole h t _ _ _ => intro hr; simp at hr
  | merge h n t r l' hal hsz hnal _ ih =>
    intro hr p a fuel hseg hE hf
    obtain ⟨k, rfl⟩ : ∃ k, fuel = k + 1 := ⟨fuel - 1, by omega⟩
    obtain ⟨hseg1, hto, hcap⟩ := Seg_merge hseg hE
    obtain ⟨h1, h2, h3, h4, g1, g2, g3, g4, g5⟩ := hseg
    have hlt : a < p.m_poolSize := by omega
    have hfree : p.isFree a = true := by rw [hal] at h3; simpa using h3
    have hnfree : p.isFree (a + 2 + p.getSize a) = true := by
      rw [hnal] at g3; rw [← h2]; simpa using g3
    obtain ⟨p', e1, f1, f2, f3⟩ := ih hr _ a k hseg1 hE (by simp at hf ⊢; omega)
    rw [freeRuns_merge h n
      { off := h.off, size := h.size + n.size + 2, allocated := false } t hal hnal rfl rfl rfl]
    obtain ⟨c, rest, hrun, hc⟩ := freeRuns_cons_free
      { off := h.off, size := h.size + n.size + 2, allocated := false } t rfl
    simp only at hrun hc
    have hsorted := freeRuns_sorted hseg1
    rw [hrun] at hsorted f1 f2 f3
    rw [hrun]
    have hrest : ∀ run ∈ rest, a + 2 ≤ run.1 := by
      intro run hm
      have hlt' : h.off < run.1 := (List.pairwise_cons.mp hsorted).1 run hm
      obtain ⟨g, hg, _, hg2⟩ := freeRuns_off _ run
        (by rw [hrun]; exact List.mem_cons_of_mem _ hm)
      rcases List.mem_cons.mp hg with e | hgt
      · rw [e] at hg2
        simp only at hg2
        omega
      · have := (Seg_mem t _ _ hseg1.2.2.2.2 g hgt).2.2.1
        omega
    have hv0 : (p.mark a (toInt16 ((p.getSize a : Int) +
        (p.getSize (a + 2 + p.getSize a) : Int) + 2)) false).m_mem a =
        (h.size + n.size + 2) % 256 := by
      rw [mark_m_mem_low, hto]; omega
    have hv1 : (p.mark a (toInt16 ((p.getSize a : Int) +
        (p.getSize (a + 2 + p.getSize a) : Int) + 2)) false).m_mem (a + 1) =
        (h.size + n.size + 2) / 256 := by
      rw [mark_m_mem_high, hto]; simp; omega
    have hg1 : (p.mark a (toInt16 ((p.getSize a : Int) +
        (p.getSize (a + 2 + p.getSize a) : Int) + 2)) false).getSize a =
        h.size + n.size + 2 := hseg1.2.1.symm
    refine ⟨p', ?_, ?_, ?_, ?_⟩
    · rw [allocLoop_merge size k p a hlt hfree (by omega) (by omega) hnfree]
      exact e1
    · intro i hi
      have hia := hi (h.off, c) (List.mem_cons_self _ _)
      simp only at hia
      rw [f1 i hi, mark_m_mem_of_ne p a _ _ i (by omega) (by omega)]
    · intro run hm hgs
      rcases List.mem_cons.mp hm with e | hm'
      · rw [e] at hgs
        simp only at hgs
        rw [h1] at hgs
        omega
      · have hge := hrest run hm'
        have := f2 run hm (by rw [getSize_mark_ne p a _ _ run.1 (Or.inr (by omega))]; exact hgs)
        rw [mark_m_mem_of_ne p a _ _ run.1 (by omega) (by omega),
          mark_m_mem_of_ne p a _ _ (run.1 + 1) (by omega) (by omega)] at this
        exact this
    · intro run hm hgs
      rcases List.mem_cons.mp hm with e | hm'
      · by_cases hcc : c = h.size + n.size + 2
        · have := f2 run hm (by rw [e]; simp only; rw [h1, hg1, hcc])
          rw [e] at this ⊢
          simp only at this ⊢
          rw [h1] at this ⊢
          rw [this.1, this.2, hv0, hv1, hcc]
          exact ⟨rfl, rfl⟩
        · exact f3 run hm (by rw [e]; simp only; rw [h1, hg1]; omega)
      · have hge := hrest run hm'
        exact f3 run hm (by rw [getSize_mark_ne p a _ _ run.1 (Or.inr (by omega))]; exact hgs)
  | next h t r t' hal hsz hnx _ ih =>
    intro hr p a fuel hseg hE hf
    obtain ⟨k, rfl⟩ : ∃ k, fuel = k + 1 := ⟨fuel - 1, by omega⟩
    obtain ⟨h1, h2, h3, h4, h5⟩ := hseg
    have hlt : a < p.m_poolSize := by omega
    have hfree : p.isFree a = true := by rw [hal] at h3; simpa using h3
    obtain ⟨p', e1, f1, f2, f3⟩ := ih hr p (a + 2 + h.size) k h5 hE (by simpa using hf)
    have hge := freeRuns_off_ge h5
    have hno : ¬ (a + 2 + p.getSize a < p.m_poolSize ∧
        p.isFree (a + 2 + p.getSize a) = true) := by
      rintro ⟨c1, c2⟩
      rw [← h2] at c1 c2
      cases t with
      | nil =>
        have : a + 2 + h.size = p.m_poolSize := h5
        omega
      | cons x t2 =>
        have hx := hnx x (by simp)
        obtain ⟨_, _, q3, _, _⟩ := h5
        rw [hx, c2] at q3
        simp at q3
    have hhead : ∀ i, i = a ∨ i = a + 1 → p'.m_mem i = p.m_mem i := by
      intro i hi
      apply f1
      intro run hm
      have := hge run hm
      omega
    rw [freeRuns_cons_last h t hal hnx]
    refine ⟨p', ?_, ?_, ?_, ?_⟩
    · rw [allocLoop_next size k p a hlt hfree (by omega) hno,
        show a + (p.getSize a + 2) = a + 2 + h.size by omega]
      exact e1
    · intro i hi
      exact f1 i (fun run hm => hi run (List.mem_cons_of_mem _ hm))
    · intro run hm hgs
      rcases List.mem_cons.mp hm with e | hm'
      · rw [e]
        simp only
        rw [h1]
        exact ⟨hhead a (Or.inl rfl), hhead (a + 1) (Or.inr rfl)⟩
      · exact f2 run hm' hgs
    · intro run hm hgs
      rcases List.mem_cons.mp hm with e | hm'
      · rw [e] at hgs
        simp only at hgs
        rw [h1] at hgs
        exact absurd h2.symm hgs
      · exact f3 run hm' hgs

/-- C9, as the code behaves (there is no range check, so the scan runs and merges adjacent
free blocks on its way): on a well-formed pool and for every `size > 32767`, `alloc(size)`
returns `nullptr` and `memCheck()` stays true. The call writes nothing but the two header
bytes of the first block of each maximal run of two or more adjacent free blocks, which
afterwards hold the run's merged capacity with the free flag; the header of a run of one
block and every other byte of the buffer are unchanged. So the chain afterwards is the old
one with each run of adjacent free blocks merged into one free block, `totAllocated()` is
unchanged, and when no two adjacent blocks are both free every byte of the buffer is
unchanged. -/
theorem alloc_oversize (p : LightMemoryPool) (size : Nat) (hwf : WellFormed p)
    (hsz : 32767 < size) :
    ∃ p' l, p.alloc size = some (none, p') ∧ p'.m_poolSize = p.m_poolSize ∧
      p'.memCheck = some true ∧ p.layout = some l ∧ p'.layout = some (mergeRuns l) ∧
      (∃ a, p.totAllocated = some a ∧ p'.totAllocated = some a) ∧
      (∀ i, (∀ run ∈ freeRuns l, i ≠ run.1 ∧ i ≠ run.1 + 1) → p'.m_mem i = p.m_mem i) ∧
      (∀ run ∈ freeRuns l, p.getSize run.1 = run.2 →
        p'.m_mem run.1 = p.m_mem run.1 ∧ p'.m_mem (run.1 + 1) = p.m_mem (run.1 + 1)) ∧
      (∀ run ∈ freeRuns l, p.getSize run.1 ≠ run.2 →
        p'.m_mem run.1 = run.2 % 256 ∧ p'.m_mem (run.1 + 1) = run.2 / 256) ∧
      (noAdjacentFree l = true → ∀ i, p'.m_mem i = p.m_mem i) := by
  obtain ⟨l, hseg⟩ := Seg_of_wellFormed hwf
  obtain ⟨r, l', p', hs, e1, e2, e3, _⟩ := alloc_total size hseg hwf.2.1
  have hsp := Seg_span l 0 _ hseg
  have hE := hwf.2.1
  have hlen := Seg_length hseg
  have hr : r = none := AllocStep_oversize hs (by omega)
  subst hr
  obtain ⟨p'', e1', f1, f2, f3⟩ :=
    allocLoop_fail_frame hs rfl p 0 (p.m_poolSize + 1) hseg hE (by omega)
  have hpp : p'' = p' := by
    have h2 : p.alloc size = some (none, p'') := e1'
    rw [e1] at h2
    simp only [Option.some.injEq, Prod.mk.injEq, true_and] at h2
    exact h2.symm
  rw [hpp] at f1 f2 f3
  have hl' : l' = mergeRuns l := AllocStep_none_mergeRuns hs rfl
  refine ⟨p', l, e1, e2, memCheck_of_Seg e3, layout_of_Seg hseg,
    by rw [← hl']; exact layout_of_Seg e3,
    ⟨(allocSizes l).sum, totAllocated_of_Seg hseg,
      by rw [totAllocated_of_Seg e3, AllocStep_none_allocSizes hs rfl]⟩,
    f1, f2, f3, ?_⟩
  intro hadj i
  have hnoop := allocLoop_noop size l p 0 (p.m_poolSize + 1) hseg
    (fun h hh => by
      have := (Seg_mem l _ _ hseg h hh).1
      have := getSize_lt p h.off
      omega) hadj (by omega)
  have : p.alloc size = some (none, p) := hnoop
  rw [this] at e1
  simp only [Option.some.injEq, Prod.mk.injEq, true_and] at e1
  rw [← e1]

/-- Witness of C9 as amended: the nine-byte pool with free blocks of sizes 0 and 2 at
offsets 0 and 2 and an allocated block at offset 6, and `alloc(40000)`: the scan merges the
two free blocks, so the buffer goes from `[0,0,2,0,9,9,1,128,7]` to `[4,0,2,0,9,9,1,128,7]`. -/
theorem alloc_oversize_witness :
    (WellFormed mergePool ∧ 32767 < 40000) ∧
    (∃ p' l, mergePool.alloc 40000 = some (none, p') ∧
      p'.m_poolSize = mergePool.m_poolSize ∧
      p'.memCheck = some true ∧ mergePool.layout = some l ∧
      p'.layout = some (mergeRuns l) ∧
      (∃ a, mergePool.totAllocated = some a ∧ p'.totAllocated = some a) ∧
      (∀ i, (∀ run ∈ freeRuns l, i ≠ run.1 ∧ i ≠ run.1 + 1) →
        p'.m_mem i = mergePool.m_mem i) ∧
      (∀ run ∈ freeRuns l, mergePool.getSize run.1 = run.2 →
        p'.m_mem run.1 = mergePool.m_mem run.1 ∧
        p'.m_mem (run.1 + 1) = mergePool.m_mem (run.1 + 1)) ∧
      (∀ run ∈ freeRuns l, mergePool.getSize run.1 ≠ run.2 →
        p'.m_mem run.1 = run.2 % 256 ∧ p'.m_mem (run.1 + 1) = run.2 / 256) ∧
      (noAdjacentFree l = true → ∀ i, p'.m_mem i = mergePool.m_mem i)) ∧
    (mergePool.layout.map freeRuns = some [(0, 4)] ∧
      (List.range 9).map mergePool.m_mem = [0, 0, 2, 0, 9, 9, 1, 128, 7] ∧
      (mergePool.alloc 40000).map (fun x => (List.range 9).map x.2.m_mem) =
        some [4, 0, 2, 0, 9, 9, 1, 128, 7]) :=
  ⟨⟨⟨by decide, by decide, by decide⟩, by decide⟩,
    alloc_oversize mergePool 40000 ⟨by decide, by decide, by decide⟩ (by decide),
    by decide, by decide, by decide⟩

/-! ## Integer square root -/

theorem isqrt_or_low (A C m k : Nat) (hA : A = 2 ^ (2 * k)) (hC : C = A * m) :
    A ||| (4 * C) = A + 4 * C := by
  subst hC hA
  have hlt : (2 : ℕ) ^ (2 * k) < 2 ^ (2 * k + 2) :=
    Nat.pow_lt_pow_right (by norm_num) (by omega)
  rw [Nat.lor_comm, show 4 * (2 ^ (2 * k) * m) = 2 ^ (2 * k + 2) * m by rw [pow_add]; ring,
    ← Nat.mul_add_lt_is_or hlt m]
  omega

theorem isqrt_or_high (A C m k : Nat) (hA : A = 2 ^ (2 * k)) (hC : C = A * m) :
    (2 * C) ||| A = 2 * C + A := by
  subst hC hA
  have hlt : (2 : ℕ) ^ (2 * k) < 2 ^ (2 * k + 1) :=
    Nat.pow_lt_pow_right (by norm_num) (by omega)
  rw [show 2 * (2 ^ (2 * k) * m) = 2 ^ (2 * k + 1) * m by rw [pow_add]; ring,
    ← Nat.mul_add_lt_is_or hlt m]

theorem isqrt_pow_le (k : Nat) (hk : k ≤ 15) : (2 : ℕ) ^ (2 * k) ≤ 1073741824 := by
  calc (2 : ℕ) ^ (2 * k) ≤ 2 ^ 30 := Nat.pow_le_pow_right (by norm_num) (by omega)
    _ = 1073741824 := by norm_num

theorem fitsInt32_five (a b c d e : Nat) (ha : a < 2147483648) (hb : b < 2147483648)
    (hc : c < 2147483648) (hd : d < 2147483648) (he : e < 2147483648) :
    fitsInt32 [a, b, c, d, e] = true := by
  simp only [fitsInt32, List.all_cons, List.all_nil, Bool.and_true, Bool.and_eq_true,
    decide_eq_true_eq]
  exact ⟨ha, hb, hc, hd, he⟩

theorem fitsInt32_three (a b c : Nat) (ha : a < 2147483648) (hb : b < 2147483648)
    (hc : c < 2147483648) : fitsInt32 [a, b, c] = true := by
  simp only [fitsInt32, List.all_cons, List.all_nil, Bool.and_true, Bool.and_eq_true,
    decide_eq_true_eq]
  exact ⟨ha, hb, hc⟩

/-- One iteration of the loop on the shape the invariant gives its variables:
`squaredbit = A`, a power of four, and `root = 4 * C` with `C` a multiple of `A`. -/
theorem isqrtLoop_step (f A C m k rem : Nat) (hA : A = 2 ^ (2 * k)) (hC : C = A * m)
    (hk : k ≤ 15) (hroot : 4 * C < 2147483648) (hrem : rem < 2147483648) :
    isqrtLoop (f + 1) A rem (4 * C) =
      if rem ≥ A + 4 * C then isqrtLoop f (A / 4) (rem - (A + 4 * C)) (2 * C + A)
      else isqrtLoop f (A / 4) rem (2 * C) := by
  have hApos : 0 < A := by rw [hA]; exact pow_pos (by norm_num) _
  have hAle : A ≤ 1073741824 := by rw [hA]; exact isqrt_pow_le k hk
  have ht := isqrt_or_low A C m k hA hC
  have hor := isqrt_or_high A C m k hA hC
  have hsh : (4 * C) >>> 1 = 2 * C := by
    rw [Nat.shiftRight_eq_div_pow]; omega
  have hsq2 : A >>> 2 = A / 4 := by rw [Nat.shiftRight_eq_div_pow]
  have htlt : A + 4 * C < 2147483648 := by
    have := @Nat.or_lt_two_pow A (4 * C) 31 (by omega) (by omega)
    rw [ht] at this
    omega
  clear hA hC
  conv => lhs; unfold isqrtLoop
  rw [if_pos (show A > 0 from hApos), hsh, hor, hsq2, ht]
  by_cases hc : rem ≥ A + 4 * C
  · rw [if_pos hc, if_pos hc,
      if_pos (fitsInt32_five _ _ _ _ _ htlt (by omega) (by omega) (by omega) (by omega))]
  · rw [if_neg hc, if_neg hc, if_pos (fitsInt32_three _ _ _ htlt (by omega) (by omega))]

theorem isqrt_sq_cur (k m : Nat) :
    (2 ^ (k + 1) * m) * (2 ^ (k + 1) * m) = 4 * (2 ^ (2 * k) * m * m) := by
  have hpow : (2 : ℕ) ^ (2 * k) = 2 ^ k * 2 ^ k := by rw [two_mul, pow_add]
  rw [hpow, pow_succ]; ring

theorem isqrt_sq_cur_next (k m : Nat) :
    (2 ^ (k + 1) * m + 2 ^ (k + 1)) * (2 ^ (k + 1) * m + 2 ^ (k + 1)) =
      4 * (2 ^ (2 * k) * m * m) + 8 * (2 ^ (2 * k) * m) + 4 * 2 ^ (2 * k) := by
  have hpow : (2 : ℕ) ^ (2 * k) = 2 ^ k * 2 ^ k := by rw [two_mul, pow_add]
  rw [hpow, pow_succ]; ring

theorem isqrt_sq_odd (k m : Nat) :
    (2 ^ k * (2 * m + 1)) * (2 ^ k * (2 * m + 1)) =
      4 * (2 ^ (2 * k) * m * m) + 4 * (2 ^ (2 * k) * m) + 2 ^ (2 * k) := by
  have hpow : (2 : ℕ) ^ (2 * k) = 2 ^ k * 2 ^ k := by rw [two_mul, pow_add]
  rw [hpow]; ring

theorem isqrt_sq_odd_next (k m : Nat) :
    (2 ^ k * (2 * m + 1) + 2 ^ k) * (2 ^ k * (2 * m + 1) + 2 ^ k) =
      4 * (2 ^ (2 * k) * m * m) + 8 * (2 ^ (2 * k) * m) + 4 * 2 ^ (2 * k) := by
  have hpow : (2 : ℕ) ^ (2 * k) = 2 ^ k * 2 ^ k := by rw [two_mul, pow_add]
  rw [hpow]; ring

theorem isqrt_sq_even (k m : Nat) :
    (2 ^ k * (2 * m)) * (2 ^ k * (2 * m)) = 4 * (2 ^ (2 * k) * m * m) := by
  have hpow : (2 : ℕ) ^ (2 * k) = 2 ^ k * 2 ^ k := by rw [two_mul, pow_add]
  rw [hpow]; ring

theorem isqrt_sq_even_next (k m : Nat) :
    (2 ^ k * (2 * m) + 2 ^ k) * (2 ^ k * (2 * m) + 2 ^ k) =
      4 * (2 ^ (2 * k) * m * m) + 4 * (2 ^ (2 * k) * m) + 2 ^ (2 * k) := by
  have hpow : (2 : ℕ) ^ (2 * k) = 2 ^ k * 2 ^ k := by rw [two_mul, pow_add]
  rw [hpow]; ring

theorem isqrt_shape (k m : Nat) :
    2 ^ (2 * (k + 1)) * m = 4 * (2 ^ (2 * k) * m) ∧ 2 ^ (2 * (k + 1)) / 4 = 2 ^ (2 * k) ∧
    2 ^ (2 * k) * (2 * m + 1) = 2 * (2 ^ (2 * k) * m) + 2 ^ (2 * k) ∧
    2 ^ (2 * k) * (2 * m) = 2 * (2 ^ (2 * k) * m) := by
  have h : (2 : ℕ) ^ (2 * (k + 1)) = 4 * 2 ^ (2 * k) := by
    rw [show 2 * (k + 1) = 2 * k + 2 by ring, pow_add]; ring
  refine ⟨by rw [h]; ring, by rw [h]; omega, by ring, by ring⟩

theorem isqrtLoop_spec (x : Nat) (hx : x < 2147483648) :
    ∀ (n m rem fuel : Nat), n ≤ 16 → n < fuel →
      rem + (2 ^ n * m) * (2 ^ n * m) = x →
      x < (2 ^ n * m + 2 ^ n) * (2 ^ n * m + 2 ^ n) →
      ∃ r, isqrtLoop fuel (2 ^ (2 * n) / 4) rem (2 ^ (2 * n) * m) = some r ∧
        r * r ≤ x ∧ x < (r + 1) * (r + 1) := by
  intro n
  induction n with
  | zero =>
    intro m rem fuel _ hf h1 h2
    obtain ⟨f, rfl⟩ : ∃ f, fuel = f + 1 := ⟨fuel - 1, by omega⟩
    simp only [pow_zero, one_mul, Nat.mul_zero] at h1 h2 ⊢
    refine ⟨m, ?_, by omega, h2⟩
    simp [isqrtLoop]
  | succ k ih =>
    intro m rem fuel hn hf h1 h2
    obtain ⟨f, rfl⟩ : ∃ f, fuel = f + 1 := ⟨fuel - 1, by omega⟩
    obtain ⟨s1, s2, s3, s4⟩ := isqrt_shape k m
    rw [isqrt_sq_cur] at h1
    rw [isqrt_sq_cur_next] at h2
    have ih1 := ih (2 * m + 1) (rem - (2 ^ (2 * k) + 4 * (2 ^ (2 * k) * m))) f (by omega)
      (by omega)
    have ih2 := ih (2 * m) rem f (by omega) (by omega)
    rw [isqrt_sq_odd, isqrt_sq_odd_next, s3] at ih1
    rw [isqrt_sq_even, isqrt_sq_even_next, s4] at ih2
    have hCD : 2 ^ (2 * k) * m ≤ 2 ^ (2 * k) * m * m := by
      rcases Nat.eq_zero_or_pos m with h0 | h0
      · rw [h0]; simp
      · exact Nat.le_mul_of_pos_right _ h0
    rw [s1, s2, isqrtLoop_step f (2 ^ (2 * k)) (2 ^ (2 * k) * m) m k rem rfl rfl (by omega)
      (by omega) (by omega)]
    clear ih s1 s2 s3 s4
    generalize 2 ^ (2 * k) * m * m = D at *
    generalize 2 ^ (2 * k) * m = C at *
    generalize 2 ^ (2 * k) = A at *
    by_cases hc : rem ≥ A + 4 * C
    · rw [if_pos hc]
      exact ih1 (by omega) h2
    · rw [if_neg hc]
      exact ih2 h1 (by omega)

/-- C21 (integer square root): for every signed 32-bit `x` with `x < 1`, `isqrt(x) = 0`;
for every `x` with `1 ≤ x ≤ 2^31 - 1` the loop returns a value `r` with
`r * r ≤ x < (r + 1) * (r + 1)`, and no value computed in the loop leaves the signed 32-bit
range (the embedding answers `none` if one did, or if the loop did not end within its
sixteen iterations). -/
theorem isqrt_spec (x : Int) (_hlo : -2147483648 ≤ x) (hhi : x ≤ 2147483647) :
    (x < 1 → isqrt x = some 0) ∧
    (1 ≤ x → ∃ r, isqrt x = some r ∧ 0 ≤ r ∧ r * r ≤ x ∧ x < (r + 1) * (r + 1)) := by
  constructor
  · intro h
    unfold isqrt
    rw [if_pos h]
  · intro h
    have h0 : x.toNat < 2147483648 := by omega
    obtain ⟨r, hr, h1, h2⟩ := isqrtLoop_spec x.toNat h0 16 0 x.toNat 17 (le_refl _)
      (by norm_num) (by simp) (by norm_num; omega)
    have e1 : (2 : ℕ) ^ (2 * 16) / 4 = 0x40000000 := by norm_num
    have e2 : (2 : ℕ) ^ (2 * 16) * 0 = 0 := by norm_num
    rw [e1, e2] at hr
    have hx : ((x.toNat : Nat) : Int) = x := Int.toNat_of_nonneg (by omega)
    refine ⟨(r : Int), ?_, Int.natCast_nonneg r, ?_, ?_⟩
    · unfold isqrt
      rw [if_neg (by omega), hr]
      rfl
    · rw [← hx]
      exact_mod_cast h1
    · rw [← hx]
      exact_mod_cast h2

/-- Witness of C21: the largest signed 32-bit value, `x = 2147483647`. -/
theorem isqrt_spec_witness :
    (-2147483648 ≤ (2147483647 : Int) ∧ (2147483647 : Int) ≤ 2147483647) ∧
    (((2147483647 : Int) < 1 → isqrt 2147483647 = some 0) ∧
    (1 ≤ (2147483647 : Int) →
      ∃ r, isqrt 2147483647 = some r ∧ 0 ≤ r ∧ r * r ≤ 2147483647 ∧
        2147483647 < (r + 1) * (r + 1))) :=
  ⟨⟨by decide, by decide⟩, isqrt_spec 2147483647 (by decide) (by decide)⟩
